import Mathlib

/-!
Verification of the object-graph compactor and region loader
(runtime/compact.cpp) against its specification.

The development shallowly embeds the compactor and loader on a 64-bit
machine model: the region buffer is a list of machine words, offsets are
byte displacements (always multiples of 8), scalars are odd machine
words.  The external object model (tags, headers, byte sizes, field
accessors) is not part of the source file; it is modelled from the spec
(section 3 "External object model" and 4.3).
-/

namespace Compact

/-- Machine word size in bytes on the modelled 64-bit platform. -/
def wordSize : Nat := 8

/-- Modelled from the spec: scalar immediates are odd machine words
("a notion of scalar objects: ... odd-valued machine words"). -/
def isScalar (v : Nat) : Bool := v % 2 = 1

/-- The null-offset sentinel: (size_t)(-1) - 1 = 2^64 - 2 (g_null_offset). -/
def nullOffset : Nat := 2 ^ 64 - 2

/-- Modelled from the spec: the tag space of the external object model.
Constructor tags occupy 0..maxCtorTag; the remaining tags are fixed. -/
def maxCtorTag : Nat := 244

def tagClosure : Nat := 245
def tagArray : Nat := 246
def tagScalarArray : Nat := 248
def tagString : Nat := 249
def tagMPZ : Nat := 250
def tagThunk : Nat := 251
def tagTask : Nat := 252
def tagRef : Nat := 253
def tagExternal : Nat := 254
def tagReserved : Nat := 255

/-- Rounding a byte size up to the next multiple of the word size,
as performed by object_compactor::alloc and compacted_region::move. -/
def pad8 (sz : Nat) : Nat := if sz % 8 = 0 then sz else sz + (8 - sz % 8)

/-- One machine word of the region buffer.  A word is either a non-heap
object header (cs_sz, other, tag with the rc field zero), a
pointer-shaped word (offset or scalar immediate), a plain size_t field,
a word of packed raw payload bytes, or (after loading) a resurrected
arbitrary-precision integer value occupying the mpz value slot. -/
inductive W
  | hdr (cssz : Nat) (other : Nat) (tag : Nat)
  | ptr (v : Nat)
  | uw (n : Nat)
  | byt (bs : List Nat)
  | mpzv (v : Int)
deriving DecidableEq

/-- Zero-pad a byte chunk to a full word (alloc zeroes the allocation). -/
def padTo8 (bs : List Nat) : List Nat := bs ++ List.replicate (8 - bs.length) 0

/-- Helper for packBytes: cur accumulates the bytes of the current
partial word in reverse order. -/
def packAux : List Nat → List Nat → List W
  | cur, [] => if cur.isEmpty then [] else [W.byt (padTo8 cur.reverse)]
  | cur, b :: bs =>
    if cur.length = 7 then W.byt ((b :: cur).reverse) :: packAux [] bs
    else packAux (b :: cur) bs

/-- Pack a byte payload into words, zero-padding the final partial word. -/
def packBytes (bs : List Nat) : List W := packAux [] bs

/-! ### Decimal serialization of arbitrary-precision integers

Modelled from the spec: the MPZ payload is the decimal-string form of
the value (sign, ASCII digits, NUL terminator); the string-to-value
round trip is the contract of the external integer library. -/

/-- Decimal digits of a natural number, least significant first; the
first argument is structural fuel (n itself always suffices). -/
def natDigitsAux : Nat → Nat → List Nat
  | 0, _ => []
  | _ + 1, 0 => []
  | f + 1, n + 1 => (n + 1) % 10 :: natDigitsAux f ((n + 1) / 10)

def natDigits (n : Nat) : List Nat := natDigitsAux n n

/-- ASCII decimal rendering of a natural number, most significant first. -/
def natAscii (n : Nat) : List Nat :=
  if n = 0 then [48] else ((natDigits n).map (fun d => d + 48)).reverse

/-- The serialized form of an mpz value: optional minus sign, ASCII
digits, NUL terminator (mpz::to_string plus the terminator byte). -/
def mpzStr (v : Int) : List Nat :=
  (if v < 0 then [45] else []) ++ natAscii v.natAbs ++ [0]

/-- Parse ASCII decimal digits, most significant first. -/
def decAsc (bs : List Nat) : Nat := bs.foldl (fun a c => a * 10 + (c - 48)) 0

/-- Parse a serialized mpz string (without the NUL terminator), as the
mpz(char const *) constructor does at load time. -/
def mpzOfStr (bs : List Nat) : Int :=
  match bs with
  | 45 :: rest => -(decAsc rest : Int)
  | _ => (decAsc bs : Int)

/-! ### The live heap (external object model)

Modelled from the spec: every heap object presents a tag, a byte size
and per-tag accessors.  Pointers are machine words; odd words are
scalar immediates, even words index the heap.  Thunks store their
forced value (insert_thunk reads lean_thunk_get), tasks their resolved
value (insert_task reads lean_task_get). -/

inductive HObj
  | hctor (tag : Nat) (fields : List Nat) (sp : List Nat)
  | harray (elems : List Nat)
  | hsarray (esz sz : Nat) (data : List Nat)
  | hstr (len : Nat) (data : List Nat)
  | hmpz (v : Int)
  | hthunk (value : Nat)
  | htask (value : Nat)
  | href (value : Nat)
  | hclosure
  | hexternal
deriving DecidableEq

/-- The heap: an association list from even machine words to objects. -/
abbrev Heap := List (Nat × HObj)

def lookupH (h : Heap) (p : Nat) : Option HObj :=
  (h.find? (fun pr => pr.1 == p)).map (·.2)

/-- Pointer-valued child slots of a heap object (the slots the
compactor resolves through to_offset). -/
def hchildren : HObj → List Nat
  | .hctor _ fs _ => fs
  | .harray es => es
  | .hthunk v => [v]
  | .htask v => [v]
  | .href v => [v]
  | _ => []

/-! ### Region objects

A compacted object, abstracted from its byte image; emit gives the
exact word-level image written by the insert functions. -/

inductive RObj
  | rctor (tag : Nat) (offs : List Nat) (sp : List Nat)
  | rarray (elems : List Nat)
  | rsarray (esz sz : Nat) (data : List Nat)
  | rstr (len : Nat) (data : List Nat)
  | rmpz (v : Int)
  | rthunk (value : Nat)
  | rref (value : Nat)
  | rterm (root : Nat)
deriving DecidableEq

/-- The word image of a region object, exactly as the insert functions
write it (headers, offset slots, size fields, zero-padded payloads). -/
def emit : RObj → List W
  | .rctor t offs sp =>
      W.hdr (8 + 8 * offs.length + sp.length) offs.length t ::
        (offs.map W.ptr ++ packBytes sp)
  | .rarray es => W.hdr 1 0 tagArray :: W.uw es.length :: W.uw es.length :: es.map W.ptr
  | .rsarray esz sz data => W.hdr 1 esz tagScalarArray :: W.uw sz :: W.uw sz :: packBytes data
  | .rstr len data =>
      W.hdr 1 0 tagString :: W.uw data.length :: W.uw data.length :: W.uw len ::
        packBytes data
  | .rmpz v => W.hdr (24 + max (mpzStr v).length 8) 0 tagMPZ :: W.uw 0 :: W.uw 0 ::
        packBytes (mpzStr v)
  | .rthunk v => [W.hdr 24 0 tagThunk, W.ptr v, W.ptr 0]
  | .rref v => [W.hdr 16 0 tagRef, W.ptr v]
  | .rterm r => [W.hdr 16 0 tagReserved, W.ptr r]

/-- The unpadded byte size of a region object: the size argument passed
to alloc / save_max_sharing by the corresponding insert function. -/
def rsize : RObj → Nat
  | .rctor _ offs sp => 8 + 8 * offs.length + sp.length
  | .rarray es => 24 + 8 * es.length
  | .rsarray esz sz _ => 24 + esz * sz
  | .rstr _ data => 32 + data.length
  | .rmpz v => 24 + max (mpzStr v).length 8
  | .rthunk _ => 24
  | .rref _ => 16
  | .rterm _ => 16

/-! ### Compactor state and operations (object_compactor) -/

structure CState where
  buf : List W
  objTable : List (Nat × Nat)
  sharing : List (Nat × Nat)
  todo : List Nat
deriving DecidableEq

/-- A fresh compactor (empty buffer, tables and work stack). -/
def initState : CState := ⟨[], [], [], []⟩

def lookupTbl (tbl : List (Nat × Nat)) (p : Nat) : Option Nat :=
  (tbl.find? (fun pr => pr.1 == p)).map (·.2)

/-- Current fill of the buffer in bytes (object_compactor::size). -/
def bufBytes (st : CState) : Nat := 8 * st.buf.length

/-- object_compactor::to_offset: scalars pass through; a visited object
yields its recorded offset; an unvisited object is pushed onto the work
stack and the null sentinel is returned. -/
def toOffset (st : CState) (o : Nat) : Nat × CState :=
  if isScalar o then (o, st)
  else
    match lookupTbl st.objTable o with
    | some off => (off, st)
    | none => (nullOffset, { st with todo := o :: st.todo })

/-- Resolve a list of child slots left to right, accumulating offsets
(the to_offset loops in insert_constructor / insert_array). -/
def resolveChildren (st : CState) (cs : List Nat) : List Nat × CState :=
  cs.foldl (fun acc c =>
    let r := toOffset acc.2 c
    (acc.1 ++ [r.1], r.2)) ([], st)

/-- object_compactor::save. -/
def saveTbl (st : CState) (o : Nat) (off : Nat) : CState :=
  { st with objTable := (o, off) :: st.objTable }

/-- The byte window of the buffer backing a max-sharing key: the words
of the allocation starting at byte offset off of unpadded size sz. -/
def window (buf : List W) (off sz : Nat) : List W :=
  (buf.drop (off / 8)).take (pad8 sz / 8)

/-- Probe the max-sharing table for a key whose stored bytes equal the
candidate window (max_sharing_eq: equal sizes and equal bytes). -/
def findShared (buf : List W) (sharing : List (Nat × Nat)) (sz : Nat)
    (cand : List W) : Option Nat :=
  (sharing.find? (fun k => k.2 == sz && window buf k.1 k.2 == cand)).map (·.1)

/-- object_compactor::save_max_sharing: append the candidate at the
tail, probe the table; on a hit rewind the tail and record the earlier
canonical offset, on a miss insert the key and keep the candidate. -/
def saveMaxSharing (st : CState) (o : Nat) (ro : RObj) (sz : Nat) : CState :=
  let newOff := bufBytes st
  let buf2 := st.buf ++ emit ro
  match findShared buf2 st.sharing sz (window buf2 newOff sz) with
  | some off2 => saveTbl st o off2
  | none =>
      saveTbl { st with buf := buf2, sharing := st.sharing ++ [(newOff, sz)] } o newOff

/-- object_compactor::insert_constructor. -/
def insertConstructor (st : CState) (o : Nat) (t : Nat) (fields sp : List Nat) :
    Bool × CState :=
  let r := resolveChildren st fields
  if r.1.contains nullOffset then (false, r.2)
  else (true, saveMaxSharing r.2 o (.rctor t r.1 sp) (8 + 8 * fields.length + sp.length))

/-- object_compactor::insert_array. -/
def insertArray (st : CState) (o : Nat) (elems : List Nat) : Bool × CState :=
  let r := resolveChildren st elems
  if r.1.contains nullOffset then (false, r.2)
  else (true, saveMaxSharing r.2 o (.rarray r.1) (24 + 8 * elems.length))

/-- object_compactor::insert_sarray (always succeeds). -/
def insertSArray (st : CState) (o : Nat) (esz sz : Nat) (data : List Nat) : CState :=
  saveMaxSharing st o (.rsarray esz sz data) (24 + esz * sz)

/-- object_compactor::insert_string (always succeeds). -/
def insertString (st : CState) (o : Nat) (len : Nat) (data : List Nat) : CState :=
  saveMaxSharing st o (.rstr len data) (32 + data.length)

/-- object_compactor::insert_thunk. -/
def insertThunk (st : CState) (o : Nat) (v : Nat) : Bool × CState :=
  let r := toOffset st v
  if r.1 = nullOffset then (false, r.2)
  else (true, saveMaxSharing r.2 o (.rthunk r.1) 24)

/-- object_compactor::insert_ref. -/
def insertRef (st : CState) (o : Nat) (v : Nat) : Bool × CState :=
  let r := toOffset st v
  if r.1 = nullOffset then (false, r.2)
  else (true, saveMaxSharing r.2 o (.rref r.1) 16)

/-- object_compactor::insert_task: the task is rewritten as a thunk
object with a null closure field. -/
def insertTask (st : CState) (o : Nat) (v : Nat) : Bool × CState :=
  let r := toOffset st v
  if r.1 = nullOffset then (false, r.2)
  else (true, saveMaxSharing r.2 o (.rthunk r.1) 24)

/-- object_compactor::insert_mpz: stored once per source object,
never interned in the max-sharing table. -/
def insertMpz (st : CState) (o : Nat) (v : Int) : CState :=
  let newOff := bufBytes st
  saveTbl { st with buf := st.buf ++ emit (.rmpz v) } o newOff

/-- object_compactor::insert_terminator. -/
def insertTerminator (st : CState) (o : Nat) : CState :=
  let r := toOffset st o
  { r.2 with buf := r.2.buf ++ emit (.rterm r.1) }

/-- Result of one iteration of the work-stack loop in operator(). -/
inductive StepRes
  | sdone
  | snext (st : CState)
  | sfail
deriving DecidableEq

/-- Pop the top of the work stack when the insert function reported
success (m_todo.pop_back in operator()). -/
def popIf : Bool × CState → StepRes
  | (true, st) => .snext { st with todo := st.todo.tail }
  | (false, st) => .snext st

/-- One iteration of the while loop in object_compactor::operator():
pop visited objects, otherwise dispatch on the tag.  Closures and
external objects abort (lean_panic, modelled as sfail); a dangling
pointer is likewise a failure. -/
def compactStep (h : Heap) (st : CState) : StepRes :=
  match st.todo with
  | [] => .sdone
  | curr :: rest =>
    if (lookupTbl st.objTable curr).isSome then .snext { st with todo := rest }
    else
      match lookupH h curr with
      | none => .sfail
      | some obj =>
        match obj with
        | .hclosure => .sfail
        | .harray es => popIf (insertArray st curr es)
        | .hsarray esz sz data =>
            .snext { (insertSArray st curr esz sz data) with todo := rest }
        | .hstr len data =>
            .snext { (insertString st curr len data) with todo := rest }
        | .hmpz v => .snext { (insertMpz st curr v) with todo := rest }
        | .hthunk v => popIf (insertThunk st curr v)
        | .htask v => popIf (insertTask st curr v)
        | .href v => popIf (insertRef st curr v)
        | .hexternal => .sfail
        | .hctor t fs sp => popIf (insertConstructor st curr t fs sp)

/-- The work-stack loop of operator(), with explicit fuel.  none means
the fuel ran out or compaction aborted. -/
def compactLoop (h : Heap) : Nat → CState → Option CState
  | 0, _ => none
  | f + 1, st =>
    match compactStep h st with
    | .sdone => some st
    | .sfail => none
    | .snext st2 => compactLoop h f st2

/-- object_compactor::operator(): push the root unless it is a scalar,
run the work-stack loop to completion, then append the terminator. -/
def compactOp (h : Heap) (fuel : Nat) (st : CState) (o : Nat) : Option CState :=
  if isScalar o then some (insertTerminator st o)
  else
    match compactLoop h fuel { st with todo := o :: st.todo } with
    | none => none
    | some st2 => some (insertTerminator st2 o)

/-- Iterating the loop body exactly n times, requiring each iteration to
continue (neither finish nor abort); used to count the iterations the
while loop actually performs. -/
def stepN (h : Heap) : Nat → CState → Option CState
  | 0, st => some st
  | n + 1, st =>
    match compactStep h st with
    | .snext st2 => stepN h n st2
    | _ => none

/-! ### Region loader (compacted_region) -/

/-- The word of the buffer at an (aligned) byte position. -/
def wAt (buf : List W) (pos : Nat) : Option W := buf.get? (pos / 8)

/-- Overwrite the word at an (aligned) byte position. -/
def setW (buf : List W) (pos : Nat) (w : W) : List W := buf.set (pos / 8) w

/-- compacted_region::fix_object_ptr: scalars pass through, offsets are
rebased to absolute addresses. -/
def fixPtrV (base v : Nat) : Nat := if isScalar v then v else base + v

/-- Fix k consecutive pointer slots in place (the loops of
fix_constructor / fix_array, and the single slots of fix_thunk /
fix_ref). -/
def fixRange (base : Nat) (buf : List W) (pos : Nat) : Nat → Option (List W)
  | 0 => some buf
  | k + 1 =>
    match wAt buf pos with
    | some (W.ptr v) => fixRange base (setW buf pos (W.ptr (fixPtrV base v))) (pos + 8) k
    | _ => none

/-- The byte of the buffer at a byte index (reading inside a packed
payload word). -/
def byteAt (buf : List W) (i : Nat) : Option Nat :=
  match buf.get? (i / 8) with
  | some (W.byt bs) => bs.get? (i % 8)
  | _ => none

/-- Scan a NUL-terminated byte string (the while loop of fix_mpz). -/
def scanStr (buf : List W) (i : Nat) : Nat → Option (List Nat)
  | 0 => none
  | f + 1 =>
    match byteAt buf i with
    | none => none
    | some 0 => some []
    | some b => (scanStr buf (i + 1) f).map (fun s => b :: s)

/-- Loader state: the (owned copy of the) buffer, the sweep cursor
m_next as a byte position, and the m_nested_mpzs list head (an absolute
address, 0 for nullptr). -/
structure RegionSt where
  buf : List W
  pos : Nat
  head : Nat
deriving DecidableEq

/-- The while(true) loop of compacted_region::read(): fix up objects in
a linear sweep until the Reserved terminator is reached, then return
the rebased root.  Closure, Task and External tags are unreachable
(modelled as failure). -/
def sweepLoop (base : Nat) : Nat → RegionSt → Option (Nat × RegionSt)
  | 0, _ => none
  | f + 1, rs =>
    match wAt rs.buf rs.pos with
    | some (W.hdr sz other tag) =>
      if tag ≤ maxCtorTag then
        match fixRange base rs.buf (rs.pos + 8) other with
        | some buf2 => sweepLoop base f ⟨buf2, rs.pos + pad8 sz, rs.head⟩
        | none => none
      else if tag = tagArray then
        match wAt rs.buf (rs.pos + 8) with
        | some (W.uw n) =>
          match fixRange base rs.buf (rs.pos + 24) n with
          | some buf2 => sweepLoop base f ⟨buf2, rs.pos + pad8 (24 + 8 * n), rs.head⟩
          | none => none
        | _ => none
      else if tag = tagScalarArray then
        match wAt rs.buf (rs.pos + 8) with
        | some (W.uw n) => sweepLoop base f ⟨rs.buf, rs.pos + pad8 (24 + other * n), rs.head⟩
        | _ => none
      else if tag = tagString then
        match wAt rs.buf (rs.pos + 8) with
        | some (W.uw n) => sweepLoop base f ⟨rs.buf, rs.pos + pad8 (32 + n), rs.head⟩
        | _ => none
      else if tag = tagMPZ then
        match scanStr rs.buf (rs.pos + 24) (8 * rs.buf.length) with
        | none => none
        | some s =>
          let buf2 := setW (setW rs.buf (rs.pos + 8) (W.mpzv (mpzOfStr s)))
            (rs.pos + 24) (W.ptr rs.head)
          sweepLoop base f ⟨buf2, rs.pos + 24 + pad8 (max (s.length + 1) 8), base + rs.pos⟩
      else if tag = tagThunk then
        match fixRange base rs.buf (rs.pos + 8) 1 with
        | some buf2 => sweepLoop base f ⟨buf2, rs.pos + pad8 24, rs.head⟩
        | none => none
      else if tag = tagRef then
        match fixRange base rs.buf (rs.pos + 8) 1 with
        | some buf2 => sweepLoop base f ⟨buf2, rs.pos + pad8 16, rs.head⟩
        | none => none
      else if tag = tagReserved then
        match wAt rs.buf (rs.pos + 8) with
        | some (W.ptr r) => some (fixPtrV base r, ⟨rs.buf, rs.pos + 16, rs.head⟩)
        | _ => none
      else none
    | _ => none

/-- compacted_region::read(): nullptr (modelled as none in the first
component) once the buffer is exhausted, otherwise run the sweep up to
and past the next terminator and return the root. -/
def readRegion (base fuel : Nat) (rs : RegionSt) : Option (Option Nat × RegionSt) :=
  if rs.pos = 8 * rs.buf.length then some (none, rs)
  else (sweepLoop base fuel rs).map (fun r => (some r.1, r.2))

/-- Read every root of the region (repeated read() until exhaustion),
collecting the returned roots. -/
def readAll (base : Nat) : Nat → RegionSt → Option (List Nat × RegionSt)
  | 0, _ => none
  | f + 1, rs =>
    match readRegion base (f + 1) rs with
    | none => none
    | some (none, rs2) => some ([], rs2)
    | some (some r, rs2) => (readAll base f rs2).map (fun p => (r :: p.1, p.2))

/-- The destructor walk of compacted_region::~compacted_region: follow
the m_nested_mpzs chain, invoking one mpz destructor per node.  The
returned list is the sequence of destructed mpz objects (absolute
addresses). -/
def chainWalk (buf : List W) (base : Nat) : Nat → Nat → Option (List Nat)
  | 0, _ => none
  | f + 1, head =>
    if head = 0 then some []
    else
      match wAt buf (head - base + 24) with
      | some (W.ptr nxt) => (chainWalk buf base f nxt).map (fun l => head :: l)
      | _ => none

/-- Loading a compactor's output: copy-construct the region from the
buffer, cursor at the start, empty mpz list. -/
def regionOf (st : CState) : RegionSt := ⟨st.buf, 0, 0⟩

/-- The in-place image of an emitted object once the fix-up sweep has
processed it: pointer slots are rebased by fix_object_ptr; for MPZ the
value is resurrected into the word at +8 and the link to the previous
nested mpz is threaded into the word at +24. -/
def fixedEmit (base head : Nat) : RObj → List W
  | .rctor t offs sp =>
      W.hdr (8 + 8 * offs.length + sp.length) offs.length t ::
        (offs.map (fun v => W.ptr (fixPtrV base v)) ++ packBytes sp)
  | .rarray es =>
      W.hdr 1 0 tagArray :: W.uw es.length :: W.uw es.length ::
        es.map (fun v => W.ptr (fixPtrV base v))
  | .rmpz v =>
      W.hdr (24 + max (mpzStr v).length 8) 0 tagMPZ :: W.mpzv v :: W.uw 0 ::
        (packBytes (mpzStr v)).set 0 (W.ptr head)
  | .rthunk v => [W.hdr 24 0 tagThunk, W.ptr (fixPtrV base v), W.ptr 0]
  | .rref v => [W.hdr 16 0 tagRef, W.ptr (fixPtrV base v)]
  | ro => emit ro

/-- The m_nested_mpzs head after the sweep has processed one object
located at byte position pos. -/
def nextHead (base pos head : Nat) : RObj → Nat
  | .rmpz _ => base + pos
  | _ => head

/-- The fixed-up image of a whole layout starting at byte position pos
with incoming nested-mpz head, together with the final head. -/
def fixedLayout (base : Nat) : Nat → Nat → List RObj → List W × Nat
  | head, _, [] => ([], head)
  | head, pos, ro :: L =>
    let r := fixedLayout base (nextHead base pos head ro) (pos + 8 * (emit ro).length) L
    (fixedEmit base head ro ++ r.1, r.2)

/-! ### Layout view of a region buffer

A compactor's buffer is a concatenation of emitted object images; the
layout records the objects together with their byte offsets. -/

def flatW : List RObj → List W
  | [] => []
  | ro :: L => emit ro ++ flatW L

def entriesAux : List RObj → Nat → List (Nat × RObj)
  | [], _ => []
  | ro :: L, pos => (pos, ro) :: entriesAux L (pos + 8 * (emit ro).length)

def entries (L : List RObj) : List (Nat × RObj) := entriesAux L 0

def lookupLay (L : List RObj) (off : Nat) : Option RObj :=
  ((entries L).find? (fun pr => pr.1 == off)).map (·.2)

def isMpzR : RObj → Bool
  | .rmpz _ => true
  | _ => false

def isTermR : RObj → Bool
  | .rterm _ => true
  | _ => false

/-- The pointer-valued slots of a region object that undergo offset
resolution and fix-up (for thunks the null closure slot is separate). -/
def rchildren : RObj → List Nat
  | .rctor _ offs _ => offs
  | .rarray es => es
  | .rthunk v => [v]
  | .rref v => [v]
  | .rterm r => [r]
  | _ => []

/-- Every pointer-shaped word value in the emitted image (rchildren
plus the thunk's null closure slot). -/
def wptrsR : RObj → List Nat
  | .rthunk v => [v, 0]
  | ro => rchildren ro

/-- Well-formedness of a region object, inherited from the external
object model: constructor tags stay below the special tags, scalar
array payloads match their element count. -/
def wfRObj : RObj → Bool
  | .rctor t _ _ => t ≤ maxCtorTag
  | .rsarray esz sz data => data.length == esz * sz
  | _ => true

/-! ### Image of a heap object under a visited table -/

def offsetOf (tbl : List (Nat × Nat)) (c : Nat) : Nat :=
  if isScalar c then c
  else
    match lookupTbl tbl c with
    | some off => off
    | none => nullOffset

/-- The region object the compactor writes for a heap object, given
the visited table at emission time (none for the unserializable
Closure/External tags, which abort). -/
def image (tbl : List (Nat × Nat)) : HObj → Option RObj
  | .hctor t fs sp => some (.rctor t (fs.map (offsetOf tbl)) sp)
  | .harray es => some (.rarray (es.map (offsetOf tbl)))
  | .hsarray esz sz data => some (.rsarray esz sz data)
  | .hstr len data => some (.rstr len data)
  | .hmpz v => some (.rmpz v)
  | .hthunk v => some (.rthunk (offsetOf tbl v))
  | .htask v => some (.rthunk (offsetOf tbl v))
  | .href v => some (.rref (offsetOf tbl v))
  | .hclosure => none
  | .hexternal => none

/-! ### Heap well-formedness -/

def serializable : HObj → Bool
  | .hclosure => false
  | .hexternal => false
  | _ => true

def isTask : HObj → Bool
  | .htask _ => true
  | _ => false

def wfHObj : HObj → Bool
  | .hctor t _ _ => t ≤ maxCtorTag
  | .hsarray esz sz data => data.length == esz * sz
  | _ => true

/-- Heap closure and per-object well-formedness: keys are non-scalar
machine words, objects are well formed, and every non-scalar child is
itself allocated. -/
def heapOK (h : Heap) : Prop :=
  ∀ pr ∈ h, isScalar pr.1 = false ∧ wfHObj pr.2 = true ∧
    ∀ c ∈ hchildren pr.2, isScalar c = false → (lookupH h c).isSome = true

/-- All heap objects serializable (no Closure, no External). -/
def heapSerializable (h : Heap) : Prop := ∀ pr ∈ h, serializable pr.2 = true

/-- No Task object anywhere in the heap. -/
def heapNoTask (h : Heap) : Prop := ∀ pr ∈ h, isTask pr.2 = false

/-- Acyclicity witnessed by a rank function: object-to-object edges
strictly decrease the rank. -/
def rankOk (h : Heap) (rank : Nat → Nat) : Prop :=
  ∀ pr ∈ h, ∀ c ∈ hchildren pr.2, isScalar c = false → rank c < rank pr.1

/-! ### Structural denotation of object graphs

Unfolding a graph to a tree of per-object byte contents; two graphs
are structurally byte-for-byte equal over their reachable objects
exactly when their denotations agree at every fuel. -/

inductive Tree
  | scalar (v : Nat)
  | tctor (tag : Nat) (sp : List Nat) (cs : List Tree)
  | tarr (cs : List Tree)
  | tsarr (esz sz : Nat) (data : List Nat)
  | tstr (len : Nat) (data : List Nat)
  | tmpz (v : Int)
  | tthunk (c : Tree)
  | ttask (c : Tree)
  | tref (c : Tree)

def seqOpt : List (Option Tree) → Option (List Tree)
  | [] => some []
  | o :: os =>
    match o, seqOpt os with
    | some t, some ts => some (t :: ts)
    | _, _ => none

/-- Denotation of a live heap reference. -/
def denoteH (h : Heap) : Nat → Nat → Option Tree
  | 0, _ => none
  | f + 1, x =>
    if isScalar x then some (.scalar x)
    else
      match lookupH h x with
      | none => none
      | some (.hctor t fs sp) => (seqOpt (fs.map (denoteH h f))).map (.tctor t sp)
      | some (.harray es) => (seqOpt (es.map (denoteH h f))).map .tarr
      | some (.hsarray esz sz data) => some (.tsarr esz sz data)
      | some (.hstr len data) => some (.tstr len data)
      | some (.hmpz v) => some (.tmpz v)
      | some (.hthunk v) => (denoteH h f v).map .tthunk
      | some (.htask v) => (denoteH h f v).map .ttask
      | some (.href v) => (denoteH h f v).map .tref
      | some .hclosure => none
      | some .hexternal => none

/-- Denotation of an offset (or scalar) against a region layout. -/
def denoteR (L : List RObj) : Nat → Nat → Option Tree
  | 0, _ => none
  | f + 1, x =>
    if isScalar x then some (.scalar x)
    else
      match lookupLay L x with
      | none => none
      | some (.rctor t offs sp) => (seqOpt (offs.map (denoteR L f))).map (.tctor t sp)
      | some (.rarray es) => (seqOpt (es.map (denoteR L f))).map .tarr
      | some (.rsarray esz sz data) => some (.tsarr esz sz data)
      | some (.rstr len data) => some (.tstr len data)
      | some (.rmpz v) => some (.tmpz v)
      | some (.rthunk v) => (denoteR L f v).map .tthunk
      | some (.rref v) => (denoteR L f v).map .tref
      | some (.rterm _) => none

/-! ### Denotation of a loaded region buffer

After the fix-up sweep the buffer holds absolute addresses; parsing an
object back out of the raw words gives the loaded graph's structure. -/

/-- Read k consecutive pointer-shaped words. -/
def readPtrs (buf : List W) (pos : Nat) : Nat → Option (List Nat)
  | 0 => some []
  | k + 1 =>
    match wAt buf pos with
    | some (W.ptr v) => (readPtrs buf (pos + 8) k).map (fun l => v :: l)
    | _ => none

/-- Read n consecutive payload bytes. -/
def readBytesW (buf : List W) (pos : Nat) : Nat → Option (List Nat)
  | 0 => some []
  | n + 1 =>
    match byteAt buf pos with
    | some b => (readBytesW buf (pos + 1) n).map (fun l => b :: l)
    | none => none

/-- Denotation of a loaded (fixed-up) object at absolute address x in a
region mapped at base. -/
def denoteB (buf : List W) (base : Nat) : Nat → Nat → Option Tree
  | 0, _ => none
  | f + 1, x =>
    if isScalar x then some (.scalar x)
    else
      match wAt buf (x - base) with
      | some (W.hdr sz other tag) =>
        if tag ≤ maxCtorTag then
          match readPtrs buf (x - base + 8) other,
              readBytesW buf (x - base + 8 + 8 * other) (sz - (8 + 8 * other)) with
          | some ps, some sp => (seqOpt (ps.map (denoteB buf base f))).map (.tctor tag sp)
          | _, _ => none
        else if tag = tagArray then
          match wAt buf (x - base + 8) with
          | some (W.uw n) =>
            match readPtrs buf (x - base + 24) n with
            | some ps => (seqOpt (ps.map (denoteB buf base f))).map .tarr
            | none => none
          | _ => none
        else if tag = tagScalarArray then
          match wAt buf (x - base + 8) with
          | some (W.uw n) =>
            match readBytesW buf (x - base + 24) (other * n) with
            | some data => some (.tsarr other n data)
            | none => none
          | _ => none
        else if tag = tagString then
          match wAt buf (x - base + 8), wAt buf (x - base + 24) with
          | some (W.uw n), some (W.uw len) =>
            match readBytesW buf (x - base + 32) n with
            | some data => some (.tstr len data)
            | none => none
          | _, _ => none
        else if tag = tagMPZ then
          match wAt buf (x - base + 8) with
          | some (W.mpzv v) => some (.tmpz v)
          | _ => none
        else if tag = tagThunk then
          match wAt buf (x - base + 8) with
          | some (W.ptr v) => (denoteB buf base f v).map .tthunk
          | _ => none
        else if tag = tagRef then
          match wAt buf (x - base + 8) with
          | some (W.ptr v) => (denoteB buf base f v).map .tref
          | _ => none
        else none
      | _ => none

/-- A child slot is missing (and will be pushed by to_offset) when it
is a non-scalar pointer not yet in the visited table. -/
def missingC (tbl : List (Nat × Nat)) (c : Nat) : Bool :=
  !(isScalar c) && (lookupTbl tbl c).isNone

/-- The absolute addresses of the MPZ objects of a layout mapped at
base. -/
def mpzAddrs (L : List RObj) (base : Nat) : List Nat :=
  (entries L).filterMap (fun pr => if isMpzR pr.2 then some (base + pr.1) else none)

/-! ### The compactor invariant -/

/-- Invariant tying a compactor state to a layout of its buffer.  It
is established for the empty state and preserved by every iteration of
the work-stack loop; the terminator is appended only at the very end
(see the claim theorems). -/
structure Inv (h : Heap) (st : CState) (L : List RObj) : Prop where
  hbuf : st.buf = flatW L
  hwfl : ∀ pr ∈ entries L, wfRObj pr.2 = true ∧ isTermR pr.2 = false
  htbl : ∀ p off, lookupTbl st.objTable p = some off →
    ∃ o, lookupH h p = some o ∧ serializable o = true ∧ wfHObj o = true ∧
      (∀ c ∈ hchildren o, isScalar c = false → (lookupTbl st.objTable c).isSome = true) ∧
      lookupLay L off = image st.objTable o
  hchild : ∀ pr ∈ entries L, ∀ c ∈ rchildren pr.2, isScalar c = false →
    c < pr.1 ∧ ∃ ro2, lookupLay L c = some ro2 ∧ isTermR ro2 = false
  hsh1 : ∀ k ∈ st.sharing, ∃ ro, lookupLay L k.1 = some ro ∧ isMpzR ro = false ∧
    k.2 = rsize ro
  hsh2 : ∀ pr ∈ entries L, isMpzR pr.2 = false → (pr.1, rsize pr.2) ∈ st.sharing
  hsh3 : ∀ k1 ∈ st.sharing, ∀ k2 ∈ st.sharing, k1.1 ≠ k2.1 →
    ¬(k1.2 = k2.2 ∧ window st.buf k1.1 k1.2 = window st.buf k2.1 k2.2)
  htodo : ∀ q ∈ st.todo, isScalar q = false ∧ (lookupH h q).isSome = true

/-! ## Arithmetic lemmas -/

theorem pad8_eq (m : Nat) : pad8 m = 8 * ((m + 7) / 8) := by
  unfold pad8; split <;> omega

theorem pad8_mod (m : Nat) : pad8 m % 8 = 0 := by
  rw [pad8_eq]; omega

theorem pad8_le (m : Nat) : m ≤ pad8 m := by
  rw [pad8_eq]; omega

theorem pad8_lt (m : Nat) : pad8 m < m + 8 := by
  rw [pad8_eq]; omega

theorem pad8_add_mul (a b : Nat) : pad8 (8 * a + b) = 8 * a + pad8 b := by
  rw [pad8_eq, pad8_eq]; omega

theorem pad8_of_aligned {m : Nat} (h : m % 8 = 0) : pad8 m = m := by
  rw [pad8_eq]; omega

/-! ## packBytes lemmas -/

theorem padTo8_full {l : List Nat} (h : l.length = 8) : padTo8 l = l := by
  simp [padTo8, h]

theorem padTo8_length {l : List Nat} (h : l.length ≤ 8) : (padTo8 l).length = 8 := by
  simp [padTo8]; omega

theorem packAux_spec (bs : List Nat) : ∀ cur : List Nat, cur.length < 8 →
    packAux cur bs = if cur.isEmpty && bs.isEmpty then []
      else W.byt (padTo8 (cur.reverse ++ bs.take (8 - cur.length))) ::
        packBytes (bs.drop (8 - cur.length)) := by
  induction bs with
  | nil =>
    intro cur _
    cases cur with
    | nil => rfl
    | cons a l => simp [packAux, packBytes]
  | cons b bs ih =>
    intro cur hcur
    show packAux cur (b :: bs) = _
    rw [packAux]
    by_cases h7 : cur.length = 7
    · have hne : cur.isEmpty = false := by
        cases cur with
        | nil => simp at h7
        | cons a l => rfl
      have h8 : (8 - cur.length) = 1 := by omega
      have hfull : ((b :: cur).reverse).length = 8 := by simp; omega
      rw [hne]
      simp only [if_pos h7, h8, Bool.false_and, if_neg Bool.false_ne_true,
        List.take_cons, List.take_zero, List.drop_succ_cons, List.drop_zero]
      rw [← padTo8_full hfull]
      simp [packBytes]
    · rw [if_neg h7]
      rw [ih (b :: cur) (by simp; omega)]
      have hbc : (b :: cur).isEmpty = false := rfl
      have hk : 8 - cur.length = (8 - (b :: cur).length) + 1 := by
        simp only [List.length_cons]; omega
      rw [hbc]
      simp only [Bool.false_and, if_neg Bool.false_ne_true]
      by_cases hce : cur.isEmpty
      · rw [hce]
        simp only [Bool.true_and, List.isEmpty_cons, if_neg Bool.false_ne_true]
        rw [hk]
        simp [List.reverse_cons, List.append_assoc]
      · rw [Bool.not_eq_true] at hce
        rw [hce]
        simp only [Bool.false_and, if_neg Bool.false_ne_true]
        rw [hk]
        simp [List.reverse_cons, List.append_assoc]

theorem packBytes_nil : packBytes [] = [] := rfl

theorem packBytes_ne_nil {bs : List Nat} (h : bs ≠ []) :
    packBytes bs = W.byt (padTo8 (bs.take 8)) :: packBytes (bs.drop 8) := by
  show packAux [] bs = _
  rw [packAux_spec bs [] (by simp)]
  simp [List.isEmpty_iff, h]

theorem packBytes_length_aux : ∀ n : Nat, ∀ bs : List Nat, bs.length ≤ n →
    (packBytes bs).length = (bs.length + 7) / 8 := by
  intro n
  induction n with
  | zero =>
    intro bs h
    have : bs = [] := List.length_eq_zero.mp (by omega)
    subst this; rfl
  | succ n ih =>
    intro bs h
    by_cases hb : bs = []
    · subst hb; rfl
    · have hpos : 0 < bs.length := List.length_pos.mpr hb
      rw [packBytes_ne_nil hb]
      simp only [List.length_cons]
      rw [ih (bs.drop 8) (by simp; omega)]
      simp only [List.length_drop]
      omega

theorem packBytes_length (bs : List Nat) : (packBytes bs).length = (bs.length + 7) / 8 :=
  packBytes_length_aux bs.length bs le_rfl

/-! ## Word and byte access lemmas -/

theorem wAt_shift (pre l : List W) (k : Nat) :
    wAt (pre ++ l) (8 * pre.length + k) = wAt l k := by
  unfold wAt
  have h : (8 * pre.length + k) / 8 = pre.length + k / 8 := by omega
  rw [h, List.get?_append_right (by omega)]
  congr 1
  omega

theorem wAt_cons (w : W) (l : List W) : wAt (w :: l) 0 = some w := rfl

theorem wAt_cons_shift (w : W) (l : List W) (k : Nat) :
    wAt (w :: l) (8 + k) = wAt l k := by
  have := wAt_shift [w] l k
  simpa using this

theorem wAt_lt (pre l : List W) (k : Nat) (h : k < 8 * pre.length) :
    wAt (pre ++ l) k = wAt pre k := by
  unfold wAt
  rw [List.get?_append (by omega)]

theorem byteAt_shift (pre : List W) (l : List W) (k : Nat) :
    byteAt (pre ++ l) (8 * pre.length + k) = byteAt l k := by
  unfold byteAt
  have h : (8 * pre.length + k) / 8 = pre.length + k / 8 := by omega
  have h2 : (8 * pre.length + k) % 8 = k % 8 := by omega
  rw [h, h2, List.get?_append_right (by omega)]
  have h3 : pre.length + k / 8 - pre.length = k / 8 := by omega
  rw [h3]

theorem byteAt_byt (bs : List Nat) (l : List W) (j : Nat) (hj : j < 8) :
    byteAt (W.byt bs :: l) j = bs.get? j := by
  unfold byteAt
  have h : j / 8 = 0 := by omega
  have h2 : j % 8 = j := by omega
  rw [h, h2]
  rfl

/-! ## Reading back pointers and payloads -/

theorem readPtrs_exact : ∀ offs : List Nat, ∀ pre rest : List W,
    readPtrs (pre ++ offs.map W.ptr ++ rest) (8 * pre.length) offs.length = some offs := by
  intro offs
  induction offs with
  | nil => intro pre rest; rfl
  | cons o os ih =>
    intro pre rest
    show readPtrs _ _ (os.length + 1) = _
    unfold readPtrs
    have hw : wAt (pre ++ (W.ptr o :: os.map W.ptr) ++ rest) (8 * pre.length) = some (W.ptr o) := by
      have := wAt_shift pre ((W.ptr o :: os.map W.ptr) ++ rest) 0
      simpa using this
    simp only [List.map_cons] at hw ⊢
    rw [hw]
    have hre : pre ++ (W.ptr o :: os.map W.ptr) ++ rest =
        (pre ++ [W.ptr o]) ++ os.map W.ptr ++ rest := by simp
    have hlen : 8 * pre.length + 8 = 8 * (pre ++ [W.ptr o]).length := by simp; omega
    rw [hre, hlen, ih (pre ++ [W.ptr o]) rest]
    rfl

theorem readBytesW_append (buf : List W) (pos a b : Nat) (l1 l2 : List Nat) :
    readBytesW buf pos a = some l1 → readBytesW buf (pos + a) b = some l2 →
    readBytesW buf pos (a + b) = some (l1 ++ l2) := by
  induction a generalizing pos l1 with
  | zero =>
    intro h1 h2
    simp only [readBytesW] at h1
    cases h1
    simpa using h2
  | succ a ih =>
    intro h1 h2
    rw [readBytesW] at h1
    match hb : byteAt buf pos with
    | none => rw [hb] at h1; exact absurd h1 (by simp)
    | some b0 =>
      rw [hb] at h1
      match hr : readBytesW buf (pos + 1) a with
      | none => rw [hr] at h1; exact absurd h1 (by simp)
      | some l1a =>
        rw [hr] at h1
        simp only [Option.map_some] at h1
        cases h1
        have hadd : a + 1 + b = (a + b) + 1 := by omega
        have h2' : readBytesW buf (pos + 1 + a) b = some l2 := by
          have hp : pos + 1 + a = pos + (a + 1) := by omega
          rw [hp]; exact h2
        rw [hadd, readBytesW, hb, ih (pos + 1) l1a hr h2']
        rfl

theorem readBytesW_inv {buf : List W} {pos n : Nat} {x : Nat} {l : List Nat}
    (h : readBytesW buf pos (n + 1) = some (x :: l)) :
    byteAt buf pos = some x ∧ readBytesW buf (pos + 1) n = some l := by
  rw [readBytesW] at h
  match hb : byteAt buf pos with
  | none => rw [hb] at h; exact absurd h (by simp)
  | some b0 =>
    rw [hb] at h
    match hr : readBytesW buf (pos + 1) n with
    | none => rw [hr] at h; exact absurd h (by simp)
    | some l0 =>
      rw [hr] at h
      simp only [Option.map_some] at h
      cases h
      exact ⟨rfl, rfl⟩

theorem readBytesW_byt : ∀ k j : Nat, ∀ l : List Nat, ∀ pre rest : List W,
    j + k ≤ 8 → l.length = 8 →
    readBytesW (pre ++ W.byt l :: rest) (8 * pre.length + j) k = some ((l.drop j).take k) := by
  intro k
  induction k with
  | zero => intro j l pre rest _ _; simp [readBytesW]
  | succ k ih =>
    intro j l pre rest hjk hl
    have hj : j < 8 := by omega
    have hjl : j < l.length := by omega
    rw [readBytesW]
    have hb : byteAt (pre ++ W.byt l :: rest) (8 * pre.length + j) = some l[j] := by
      rw [byteAt_shift pre (W.byt l :: rest) j, byteAt_byt l rest j hj]
      exact List.get?_eq_get hjl
    rw [hb]
    have hpos : 8 * pre.length + j + 1 = 8 * pre.length + (j + 1) := by omega
    rw [hpos, ih (j + 1) l pre rest (by omega) hl]
    rw [List.drop_eq_getElem_cons hjl, List.take_succ_cons]
    rfl

theorem readBytesW_pack_aux : ∀ n : Nat, ∀ bs : List Nat, bs.length ≤ n →
    ∀ pre rest : List W,
    readBytesW (pre ++ packBytes bs ++ rest) (8 * pre.length) bs.length = some bs := by
  intro n
  induction n with
  | zero =>
    intro bs h pre rest
    have : bs = [] := List.length_eq_zero.mp (by omega)
    subst this
    rfl
  | succ n ih =>
    intro bs h pre rest
    by_cases hb : bs = []
    · subst hb; rfl
    · have hpos : 0 < bs.length := List.length_pos.mpr hb
      by_cases h8 : bs.length ≤ 8
      · have htake : bs.take 8 = bs := List.take_of_length_le h8
        have hdrop : bs.drop 8 = [] := List.drop_eq_nil_of_le h8
        have hpk : packBytes bs = [W.byt (padTo8 bs)] := by
          rw [packBytes_ne_nil hb, htake, hdrop, packBytes_nil]
        rw [hpk]
        have hshape : pre ++ [W.byt (padTo8 bs)] ++ rest = pre ++ W.byt (padTo8 bs) :: rest := by
          simp
        rw [hshape]
        have := readBytesW_byt bs.length 0 (padTo8 bs) pre rest (by omega)
          (padTo8_length h8)
        simp only [Nat.add_zero] at this
        rw [this]
        simp only [List.drop_zero]
        congr 1
        show (bs ++ List.replicate (8 - bs.length) 0).take bs.length = bs
        exact List.take_left bs _
      · have hfull : (bs.take 8).length = 8 := by simp; omega
        have hpk : packBytes bs = W.byt (bs.take 8) :: packBytes (bs.drop 8) := by
          rw [packBytes_ne_nil hb, padTo8_full hfull]
        have hsplit : bs.length = 8 + (bs.length - 8) := by omega
        rw [hpk]
        have h1 : readBytesW (pre ++ (W.byt (bs.take 8) :: packBytes (bs.drop 8)) ++ rest)
            (8 * pre.length) 8 = some (bs.take 8) := by
          have hshape : pre ++ (W.byt (bs.take 8) :: packBytes (bs.drop 8)) ++ rest =
              pre ++ W.byt (bs.take 8) :: (packBytes (bs.drop 8) ++ rest) := by simp
          rw [hshape]
          have := readBytesW_byt 8 0 (bs.take 8) pre (packBytes (bs.drop 8) ++ rest)
            (by omega) hfull
          simp only [Nat.add_zero, List.drop_zero] at this
          rw [this, List.take_of_length_le (by omega)]
        have h2 : readBytesW (pre ++ (W.byt (bs.take 8) :: packBytes (bs.drop 8)) ++ rest)
            (8 * pre.length + 8) (bs.length - 8) = some (bs.drop 8) := by
          have hshape : pre ++ (W.byt (bs.take 8) :: packBytes (bs.drop 8)) ++ rest =
              (pre ++ [W.byt (bs.take 8)]) ++ packBytes (bs.drop 8) ++ rest := by simp
          have hlen : 8 * pre.length + 8 = 8 * (pre ++ [W.byt (bs.take 8)]).length := by
            simp; omega
          have hdl : (bs.drop 8).length = bs.length - 8 := by simp
          rw [hshape, hlen, ← hdl]
          exact ih (bs.drop 8) (by simp; omega) _ rest
        rw [hsplit]
        have := readBytesW_append _ _ 8 (bs.length - 8) _ _ h1 h2
        rw [this]
        rw [List.take_append_drop]

theorem readBytesW_pack (bs : List Nat) (pre rest : List W) :
    readBytesW (pre ++ packBytes bs ++ rest) (8 * pre.length) bs.length = some bs :=
  readBytesW_pack_aux bs.length bs le_rfl pre rest

theorem scanStr_of_bytes {buf : List W} : ∀ s0 : List Nat, ∀ pos fuel : Nat,
    (∀ b ∈ s0, b ≠ 0) →
    readBytesW buf pos (s0.length + 1) = some (s0 ++ [0]) → s0.length < fuel →
    scanStr buf pos fuel = some s0 := by
  intro s0
  induction s0 with
  | nil =>
    intro pos fuel _ hrd hf
    obtain ⟨hb, _⟩ := readBytesW_inv (by simpa using hrd)
    match fuel, hf with
    | f + 1, _ => rw [scanStr, hb]
  | cons b s0 ih =>
    intro pos fuel hnz hrd hf
    have hrd' : readBytesW buf pos (s0.length + 1 + 1) = some (b :: (s0 ++ [0])) := by
      simpa using hrd
    obtain ⟨hb, hrest⟩ := readBytesW_inv hrd'
    have hbne : b ≠ 0 := hnz b (by simp)
    match fuel, hf with
    | f + 1, hf =>
      rw [scanStr, hb]
      match b, hbne with
      | bb + 1, _ =>
        rw [ih (pos + 1) f (fun x hx => hnz x (by simp [hx])) hrest (by simpa using hf)]
        rfl

/-! ## emit and rsize lemmas -/

theorem emit_ne_nil (ro : RObj) : emit ro ≠ [] := by
  cases ro <;> simp [emit]

theorem emit_length_pos (ro : RObj) : 0 < (emit ro).length :=
  List.length_pos.mpr (emit_ne_nil ro)

theorem mpzStr_length_pos (v : Int) : 1 ≤ (mpzStr v).length := by
  simp [mpzStr]
  omega

theorem emit_length (ro : RObj) (h : wfRObj ro = true) :
    8 * (emit ro).length = pad8 (rsize ro) := by
  cases ro with
  | rctor t offs sp =>
    simp [emit, rsize, packBytes_length, pad8_eq]
    omega
  | rarray es => simp [emit, rsize, pad8_eq]; omega
  | rsarray esz sz data =>
    have hlen : data.length = esz * sz := by simpa [wfRObj] using h
    simp [emit, rsize, packBytes_length, pad8_eq, ← hlen]
    omega
  | rstr len data => simp [emit, rsize, packBytes_length, pad8_eq]; omega
  | rmpz v =>
    have hs := mpzStr_length_pos v
    simp [emit, rsize, packBytes_length, pad8_eq]
    omega
  | rthunk v => simp [emit, rsize, pad8_eq]
  | rref v => simp [emit, rsize, pad8_eq]
  | rterm r => simp [emit, rsize, pad8_eq]

/-! ## Layout lemmas -/

theorem flatW_append (L1 L2 : List RObj) : flatW (L1 ++ L2) = flatW L1 ++ flatW L2 := by
  induction L1 with
  | nil => rfl
  | cons ro L ih => simp [flatW, ih]

theorem entriesAux_append (L1 L2 : List RObj) : ∀ p : Nat,
    entriesAux (L1 ++ L2) p = entriesAux L1 p ++ entriesAux L2 (p + 8 * (flatW L1).length) := by
  induction L1 with
  | nil => intro p; simp [entriesAux, flatW]
  | cons ro L ih =>
    intro p
    have harith : p + 8 * (flatW (ro :: L)).length =
        p + 8 * (emit ro).length + 8 * (flatW L).length := by
      simp only [flatW, List.length_append]
      omega
    show (p, ro) :: entriesAux (L ++ L2) (p + 8 * (emit ro).length) =
      ((p, ro) :: entriesAux L (p + 8 * (emit ro).length)) ++
        entriesAux L2 (p + 8 * (flatW (ro :: L)).length)
    rw [ih, harith]
    simp

theorem entriesAux_le (L : List RObj) : ∀ p : Nat, ∀ pr ∈ entriesAux L p, p ≤ pr.1 := by
  induction L with
  | nil => intro p pr hm; simp [entriesAux] at hm
  | cons ro L ih =>
    intro p pr hm
    simp only [entriesAux, List.mem_cons] at hm
    rcases hm with h | h
    · subst h; exact le_rfl
    · have := ih (p + 8 * (emit ro).length) pr h
      omega

theorem entriesAux_decomp (L : List RObj) : ∀ p : Nat, ∀ pr ∈ entriesAux L p,
    ∃ pre suf, L = pre ++ pr.2 :: suf ∧ pr.1 = p + 8 * (flatW pre).length := by
  induction L with
  | nil => intro p pr hm; simp [entriesAux] at hm
  | cons ro L ih =>
    intro p pr hm
    simp only [entriesAux, List.mem_cons] at hm
    rcases hm with h | h
    · subst h
      exact ⟨[], L, rfl, by simp [flatW]⟩
    · obtain ⟨pre, suf, hL, hpos⟩ := ih (p + 8 * (emit ro).length) pr h
      refine ⟨ro :: pre, suf, by simp [hL], ?_⟩
      simp only [flatW, List.length_append, hpos]
      omega

theorem entries_align (L : List RObj) (pr : Nat × RObj) (h : pr ∈ entries L) :
    pr.1 % 8 = 0 := by
  obtain ⟨pre, suf, _, hpos⟩ := entriesAux_decomp L 0 pr h
  omega

theorem lookupLay_of_mem_aux (L : List RObj) : ∀ p off : Nat, ∀ ro : RObj,
    (off, ro) ∈ entriesAux L p →
    ((entriesAux L p).find? (fun pr => pr.1 == off)).map (·.2) = some ro := by
  induction L with
  | nil => intro p off ro hm; simp [entriesAux] at hm
  | cons ro2 L ih =>
    intro p off ro hm
    simp only [entriesAux, List.mem_cons] at hm
    rcases hm with h | h
    · cases h
      simp only [entriesAux]
      rw [List.find?_cons_of_pos _ (by simp)]
      rfl
    · have hlt : p < off := by
        have h1 := entriesAux_le L (p + 8 * (emit ro2).length) (off, ro) h
        have h2 := emit_length_pos ro2
        simp at h1
        omega
      simp only [entriesAux]
      rw [List.find?_cons_of_neg _ (by simp; omega)]
      exact ih (p + 8 * (emit ro2).length) off ro h

theorem lookupLay_of_mem {L : List RObj} {off : Nat} {ro : RObj}
    (h : (off, ro) ∈ entries L) : lookupLay L off = some ro :=
  lookupLay_of_mem_aux L 0 off ro h

theorem mem_of_lookupLay {L : List RObj} {off : Nat} {ro : RObj}
    (h : lookupLay L off = some ro) : (off, ro) ∈ entries L := by
  unfold lookupLay at h
  match hf : (entries L).find? (fun pr => pr.1 == off) with
  | none => rw [hf] at h; exact absurd h (by simp)
  | some pr =>
    rw [hf] at h
    have hm := List.mem_of_find?_eq_some hf
    have hp := List.find?_some hf
    obtain ⟨a, b⟩ := pr
    simp at h hp
    subst h
    subst hp
    exact hm

theorem entries_append (L1 L2 : List RObj) :
    entries (L1 ++ L2) = entries L1 ++ entriesAux L2 (8 * (flatW L1).length) := by
  unfold entries
  rw [entriesAux_append]
  simp

theorem lookupLay_append_left {L : List RObj} {off : Nat} {ro : RObj} (L2 : List RObj)
    (h : lookupLay L off = some ro) : lookupLay (L ++ L2) off = some ro := by
  apply lookupLay_of_mem
  rw [entries_append]
  exact List.mem_append_left _ (mem_of_lookupLay h)

theorem lookupLay_append_new (L : List RObj) (ro : RObj) :
    lookupLay (L ++ [ro]) (8 * (flatW L).length) = some ro := by
  apply lookupLay_of_mem
  rw [entries_append]
  simp [entriesAux]

theorem lookupLay_decomp {L : List RObj} {off : Nat} {ro : RObj}
    (h : lookupLay L off = some ro) :
    ∃ pre suf, L = pre ++ ro :: suf ∧ off = 8 * (flatW pre).length := by
  have := entriesAux_decomp L 0 (off, ro) (mem_of_lookupLay h)
  simpa using this

theorem lookupLay_align {L : List RObj} {off : Nat} {ro : RObj}
    (h : lookupLay L off = some ro) : off % 8 = 0 :=
  entries_align L (off, ro) (mem_of_lookupLay h)

theorem lookupLay_bound {L : List RObj} {off : Nat} {ro : RObj}
    (h : lookupLay L off = some ro) :
    off / 8 + (emit ro).length ≤ (flatW L).length := by
  obtain ⟨pre, suf, hL, hoff⟩ := lookupLay_decomp h
  subst hL
  rw [flatW_append]
  simp only [flatW, List.length_append]
  omega

theorem window_of_lookup {L : List RObj} {off : Nat} {ro : RObj}
    (h : lookupLay L off = some ro) (hw : wfRObj ro = true) :
    window (flatW L) off (rsize ro) = emit ro := by
  obtain ⟨pre, suf, hL, hoff⟩ := lookupLay_decomp h
  subst hL hoff
  unfold window
  rw [flatW_append]
  have hdiv : 8 * (flatW pre).length / 8 = (flatW pre).length := by omega
  rw [hdiv, List.drop_left]
  have hlen : pad8 (rsize ro) / 8 = (emit ro).length := by
    have := emit_length ro hw
    omega
  rw [hlen]
  show (emit ro ++ flatW suf).take (emit ro).length = emit ro
  exact List.take_left _ _

theorem window_append (buf ext : List W) (off sz : Nat)
    (h : off / 8 + pad8 sz / 8 ≤ buf.length) :
    window (buf ++ ext) off sz = window buf off sz := by
  unfold window
  rw [List.drop_append_of_le_length (by omega)]
  rw [List.take_append_of_le_length (by simp; omega)]

/-! ## Table lemmas -/

theorem lookupTbl_cons (p off q : Nat) (tbl : List (Nat × Nat)) :
    lookupTbl ((p, off) :: tbl) q = if q = p then some off else lookupTbl tbl q := by
  unfold lookupTbl
  by_cases h : q = p
  · subst h
    rw [List.find?_cons_of_pos _ (by simp)]
    simp
  · rw [List.find?_cons_of_neg _ (by simp; omega)]
    simp [h]

theorem lookupTbl_mono {tbl : List (Nat × Nat)} {q off p x : Nat}
    (hp : lookupTbl tbl p = none) (h : lookupTbl tbl q = some off) :
    lookupTbl ((p, x) :: tbl) q = some off := by
  rw [lookupTbl_cons]
  split
  · rename_i he
    subst he
    rw [hp] at h
    exact absurd h (by simp)
  · exact h

/-! ## Decimal round trip -/

theorem natDigitsAux_ofDigits : ∀ f n : Nat, n ≤ f →
    Nat.ofDigits 10 (natDigitsAux f n) = n := by
  intro f
  induction f with
  | zero =>
    intro n h
    have : n = 0 := by omega
    subst this
    rfl
  | succ f ih =>
    intro n h
    match n with
    | 0 => rfl
    | n + 1 =>
      show Nat.ofDigits 10 ((n + 1) % 10 :: natDigitsAux f ((n + 1) / 10)) = n + 1
      rw [Nat.ofDigits_cons]
      rw [ih ((n + 1) / 10) (by omega)]
      omega

theorem ofDigits_natDigits (n : Nat) : Nat.ofDigits 10 (natDigits n) = n :=
  natDigitsAux_ofDigits n n le_rfl

theorem foldl_asc (ds : List Nat) : ∀ a : Nat,
    List.foldl (fun a c => a * 10 + (c - 48)) a ((ds.map (fun d => d + 48)).reverse) =
      a * 10 ^ ds.length + Nat.ofDigits 10 ds := by
  induction ds with
  | nil => intro a; simp [Nat.ofDigits]
  | cons d ds ih =>
    intro a
    simp only [List.map_cons, List.reverse_cons, List.foldl_append, List.foldl_cons,
      List.foldl_nil, ih a, Nat.ofDigits_cons, List.length_cons]
    have hp : (10 : Nat) ^ (ds.length + 1) = 10 ^ ds.length * 10 := pow_succ 10 ds.length
    rw [hp]
    push_cast
    ring_nf

theorem decAsc_natAscii (n : Nat) : decAsc (natAscii n) = n := by
  unfold natAscii
  by_cases h : n = 0
  · subst h; rfl
  · rw [if_neg h]
    unfold decAsc
    rw [foldl_asc (natDigits n) 0]
    simp [ofDigits_natDigits]

theorem natAscii_ge_48 (n : Nat) : ∀ b ∈ natAscii n, 48 ≤ b := by
  unfold natAscii
  by_cases h : n = 0
  · subst h; intro b hb; simp at hb; omega
  · rw [if_neg h]
    intro b hb
    simp at hb
    obtain ⟨d, _, hd⟩ := hb
    omega

theorem natAscii_ne_nil (n : Nat) : natAscii n ≠ [] := by
  unfold natAscii
  by_cases h : n = 0
  · subst h; simp
  · rw [if_neg h]
    simp [natDigits]
    match hn : n, h with
    | m + 1, _ => simp [natDigitsAux]

/-- The loader-visible part of the mpz payload: everything before the
NUL terminator. -/
theorem mpzStr_split (v : Int) :
    mpzStr v = ((if v < 0 then [45] else []) ++ natAscii v.natAbs) ++ [0] := by
  simp [mpzStr]

theorem mpzStr_body_ne_zero (v : Int) :
    ∀ b ∈ (if v < 0 then [45] else []) ++ natAscii v.natAbs, b ≠ 0 := by
  intro b hb
  simp at hb
  rcases hb with h | h
  · omega
  · have := natAscii_ge_48 v.natAbs b h
    omega

theorem mpzOfStr_neg_head (t : List Nat) : mpzOfStr (45 :: t) = -(decAsc t : Int) := rfl

theorem mpzOfStr_of_head_ne (b : Nat) (t : List Nat) (h : b ≠ 45) :
    mpzOfStr (b :: t) = (decAsc (b :: t) : Int) := by
  unfold mpzOfStr
  split
  · rename_i heq
    injection heq with h1 h2
    exact absurd h1 h
  · rfl

theorem mpzOfStr_mpzStr (v : Int) :
    mpzOfStr ((if v < 0 then [45] else []) ++ natAscii v.natAbs) = v := by
  by_cases hv : v < 0
  · rw [if_pos hv]
    show mpzOfStr (45 :: natAscii v.natAbs) = v
    rw [mpzOfStr_neg_head, decAsc_natAscii]
    omega
  · rw [if_neg hv]
    obtain ⟨b, t, hbt⟩ : ∃ b t, natAscii v.natAbs = b :: t := by
      match hna : natAscii v.natAbs, natAscii_ne_nil v.natAbs with
      | b :: t, _ => exact ⟨b, t, rfl⟩
    have hb48 : 48 ≤ b := by
      have := natAscii_ge_48 v.natAbs b (by rw [hbt]; simp)
      omega
    simp only [List.nil_append, hbt]
    rw [mpzOfStr_of_head_ne b t (by omega), ← hbt, decAsc_natAscii]
    omega

/-! ## Injectivity of emitted images -/

theorem readBytesW_pack_padded_aux : ∀ n : Nat, ∀ bs : List Nat, bs.length ≤ n →
    ∀ pre rest : List W,
    readBytesW (pre ++ packBytes bs ++ rest) (8 * pre.length) (8 * (packBytes bs).length) =
      some (bs ++ List.replicate (8 * (packBytes bs).length - bs.length) 0) := by
  intro n
  induction n with
  | zero =>
    intro bs h pre rest
    have : bs = [] := List.length_eq_zero.mp (by omega)
    subst this
    rfl
  | succ n ih =>
    intro bs h pre rest
    by_cases hb : bs = []
    · subst hb; rfl
    · have hpos : 0 < bs.length := List.length_pos.mpr hb
      by_cases h8 : bs.length ≤ 8
      · have htake : bs.take 8 = bs := List.take_of_length_le h8
        have hdrop : bs.drop 8 = [] := List.drop_eq_nil_of_le h8
        have hpk : packBytes bs = [W.byt (padTo8 bs)] := by
          rw [packBytes_ne_nil hb, htake, hdrop, packBytes_nil]
        rw [hpk]
        have hshape : pre ++ [W.byt (padTo8 bs)] ++ rest = pre ++ W.byt (padTo8 bs) :: rest := by
          simp
        rw [hshape]
        have := readBytesW_byt 8 0 (padTo8 bs) pre rest (by omega) (padTo8_length h8)
        simp only [Nat.add_zero, List.drop_zero] at this
        have h81 : 8 * ([W.byt (padTo8 bs)] : List W).length = 8 := by simp
        rw [h81, this]
        congr 1
        rw [List.take_of_length_le (by rw [padTo8_length h8])]
        simp [padTo8]
      · have hfull : (bs.take 8).length = 8 := by simp; omega
        have hpk : packBytes bs = W.byt (bs.take 8) :: packBytes (bs.drop 8) := by
          rw [packBytes_ne_nil hb, padTo8_full hfull]
        rw [hpk]
        have hshape1 : pre ++ (W.byt (bs.take 8) :: packBytes (bs.drop 8)) ++ rest =
            pre ++ W.byt (bs.take 8) :: (packBytes (bs.drop 8) ++ rest) := by simp
        have h1 : readBytesW (pre ++ (W.byt (bs.take 8) :: packBytes (bs.drop 8)) ++ rest)
            (8 * pre.length) 8 = some (bs.take 8) := by
          rw [hshape1]
          have := readBytesW_byt 8 0 (bs.take 8) pre (packBytes (bs.drop 8) ++ rest)
            (by omega) hfull
          simp only [Nat.add_zero, List.drop_zero] at this
          rw [this, List.take_of_length_le (by omega)]
        have h2 : readBytesW (pre ++ (W.byt (bs.take 8) :: packBytes (bs.drop 8)) ++ rest)
            (8 * pre.length + 8) (8 * (packBytes (bs.drop 8)).length) =
            some (bs.drop 8 ++
              List.replicate (8 * (packBytes (bs.drop 8)).length - (bs.drop 8).length) 0) := by
          have hshape2 : pre ++ (W.byt (bs.take 8) :: packBytes (bs.drop 8)) ++ rest =
              (pre ++ [W.byt (bs.take 8)]) ++ packBytes (bs.drop 8) ++ rest := by simp
          have hlen : 8 * pre.length + 8 = 8 * (pre ++ [W.byt (bs.take 8)]).length := by
            simp; omega
          rw [hshape2, hlen]
          exact ih (bs.drop 8) (by simp; omega) _ rest
        have hcomb := readBytesW_append _ _ 8 (8 * (packBytes (bs.drop 8)).length) _ _ h1 h2
        have hlen2 : 8 * (W.byt (bs.take 8) :: packBytes (bs.drop 8)).length =
            8 + 8 * (packBytes (bs.drop 8)).length := by simp; omega
        rw [hlen2, hcomb]
        congr 1
        have hpb := packBytes_length (bs.drop 8)
        simp only [List.length_drop] at hpb
        rw [← List.append_assoc, List.take_append_drop]
        congr 2
        simp only [List.length_cons, List.length_drop]
        omega

theorem readBytesW_pack_padded (bs : List Nat) (pre rest : List W) :
    readBytesW (pre ++ packBytes bs ++ rest) (8 * pre.length) (8 * (packBytes bs).length) =
      some (bs ++ List.replicate (8 * (packBytes bs).length - bs.length) 0) :=
  readBytesW_pack_padded_aux bs.length bs le_rfl pre rest

theorem packBytes_inj_len {a b : List Nat} (hl : a.length = b.length)
    (h : packBytes a = packBytes b) : a = b := by
  have ha := readBytesW_pack a [] []
  have hb := readBytesW_pack b [] []
  rw [h, hl] at ha
  rw [ha] at hb
  exact Option.some_inj.mp hb

theorem packBytes_padded_eq {a b : List Nat} (h : packBytes a = packBytes b) :
    a ++ List.replicate (8 * (packBytes a).length - a.length) 0 =
      b ++ List.replicate (8 * (packBytes b).length - b.length) 0 := by
  have ha := readBytesW_pack_padded a [] []
  have hb := readBytesW_pack_padded b [] []
  rw [h] at ha
  rw [ha] at hb
  rw [h]
  exact Option.some_inj.mp hb

theorem takeWhile_ne_zero (s : List Nat) (z : List Nat) (hs : ∀ b ∈ s, b ≠ 0) :
    (s ++ 0 :: z).takeWhile (fun b => b != 0) = s := by
  induction s with
  | nil => simp
  | cons b t ih =>
    have hb : b ≠ 0 := hs b (by simp)
    simp only [List.cons_append, List.takeWhile_cons]
    rw [if_pos (by simpa using hb)]
    rw [ih (fun x hx => hs x (by simp [hx]))]

theorem mpzStr_pad_inj {v1 v2 : Int} {k1 k2 : Nat}
    (h : mpzStr v1 ++ List.replicate k1 0 = mpzStr v2 ++ List.replicate k2 0) : v1 = v2 := by
  have h1 : mpzStr v1 ++ List.replicate k1 0 =
      ((if v1 < 0 then [45] else []) ++ natAscii v1.natAbs) ++
        0 :: List.replicate k1 0 := by
    rw [mpzStr_split]
    simp
  have h2 : mpzStr v2 ++ List.replicate k2 0 =
      ((if v2 < 0 then [45] else []) ++ natAscii v2.natAbs) ++
        0 :: List.replicate k2 0 := by
    rw [mpzStr_split]
    simp
  have hbody : ((if v1 < 0 then [45] else []) ++ natAscii v1.natAbs) =
      ((if v2 < 0 then [45] else []) ++ natAscii v2.natAbs) := by
    have t1 := takeWhile_ne_zero _ (List.replicate k1 0) (mpzStr_body_ne_zero v1)
    have t2 := takeWhile_ne_zero _ (List.replicate k2 0) (mpzStr_body_ne_zero v2)
    rw [← t1, ← t2, ← h1, ← h2, h]
  have := mpzOfStr_mpzStr v1
  rw [hbody, mpzOfStr_mpzStr v2] at this
  exact this.symm

theorem ptr_inj : Function.Injective W.ptr := by
  intro a b h
  injection h

theorem emit_inj : ∀ ro1 ro2 : RObj, wfRObj ro1 = true → wfRObj ro2 = true →
    emit ro1 = emit ro2 → ro1 = ro2 := by
  intro ro1 ro2 h1 h2 he
  cases ro1 <;> cases ro2
  case rctor.rctor t1 o1 s1 t2 o2 s2 =>
    simp only [emit, List.cons.injEq, W.hdr.injEq] at he
    obtain ⟨⟨hsz, hn, ht⟩, htail⟩ := he
    have hlen1 : (o1.map W.ptr).length = (o2.map W.ptr).length := by simp [hn]
    obtain ⟨hmap, hpack⟩ := List.append_inj htail hlen1
    have hoffs : o1 = o2 := List.map_injective_iff.mpr ptr_inj hmap
    have hsple : s1.length = s2.length := by omega
    have hsp : s1 = s2 := packBytes_inj_len hsple hpack
    rw [ht, hoffs, hsp]
  case rarray.rarray e1 e2 =>
    simp only [emit, List.cons.injEq, W.hdr.injEq, W.uw.injEq] at he
    obtain ⟨_, _, _, hmap⟩ := he
    rw [List.map_injective_iff.mpr ptr_inj hmap]
  case rsarray.rsarray a1 b1 d1 a2 b2 d2 =>
    simp only [wfRObj, beq_iff_eq] at h1 h2
    simp only [emit, List.cons.injEq, W.hdr.injEq, W.uw.injEq] at he
    obtain ⟨⟨_, ha, _⟩, hb, _, hpack⟩ := he
    have hd : d1 = d2 := packBytes_inj_len (by rw [h1, h2, ha, hb]) hpack
    rw [ha, hb, hd]
  case rstr.rstr l1 d1 l2 d2 =>
    simp only [emit, List.cons.injEq, W.hdr.injEq, W.uw.injEq] at he
    obtain ⟨_, hdl, _, hl, hpack⟩ := he
    have hd : d1 = d2 := packBytes_inj_len hdl hpack
    rw [hl, hd]
  case rmpz.rmpz v1 v2 =>
    simp only [emit, List.cons.injEq, W.hdr.injEq, W.uw.injEq] at he
    obtain ⟨_, _, _, hpack⟩ := he
    have := packBytes_padded_eq hpack
    rw [mpzStr_pad_inj this]
  case rthunk.rthunk v1 v2 =>
    simp only [emit, List.cons.injEq, W.ptr.injEq] at he
    obtain ⟨_, hv, _⟩ := he
    rw [hv]
  case rref.rref v1 v2 =>
    simp only [emit, List.cons.injEq, W.ptr.injEq] at he
    obtain ⟨_, hv, _⟩ := he
    rw [hv]
  case rterm.rterm r1 r2 =>
    simp only [emit, List.cons.injEq, W.ptr.injEq] at he
    obtain ⟨_, hv, _⟩ := he
    rw [hv]
  all_goals simp only [emit, wfRObj, tagArray, tagScalarArray, tagString, tagMPZ,
    tagThunk, tagRef, tagReserved, maxCtorTag, decide_eq_true_eq,
    List.cons.injEq, W.hdr.injEq] at h1 h2 he
  all_goals omega

/-! ## Operation lemmas -/

theorem toOffset_scalar {st : CState} {o : Nat} (h : isScalar o = true) :
    toOffset st o = (o, st) := by
  simp [toOffset, h]

theorem toOffset_found {st : CState} {o off : Nat} (h : isScalar o = false)
    (hf : lookupTbl st.objTable o = some off) : toOffset st o = (off, st) := by
  simp [toOffset, h, hf]

theorem toOffset_missing {st : CState} {o : Nat} (h : isScalar o = false)
    (hf : lookupTbl st.objTable o = none) :
    toOffset st o = (nullOffset, { st with todo := o :: st.todo }) := by
  simp [toOffset, h, hf]

theorem toOffset_no_push {st : CState} {o : Nat}
    (h : (lookupTbl st.objTable o).isSome = true) : (toOffset st o).2.todo = st.todo := by
  unfold toOffset
  by_cases hs : isScalar o
  · simp [hs]
  · match hf : lookupTbl st.objTable o with
    | some off => simp [hs, hf]
    | none => rw [hf] at h; simp at h

theorem resolveChildren_aux : ∀ (cs : List Nat) (acc : List Nat) (st : CState),
    cs.foldl (fun acc c =>
      let r := toOffset acc.2 c
      (acc.1 ++ [r.1], r.2)) (acc, st) =
    (acc ++ cs.map (offsetOf st.objTable),
      { st with todo := (cs.filter (missingC st.objTable)).reverse ++ st.todo }) := by
  intro cs
  induction cs with
  | nil =>
    intro acc st
    simp
  | cons c cs ih =>
    intro acc st
    by_cases hs : isScalar c
    · rw [List.foldl_cons]
      have ht : toOffset st c = (c, st) := toOffset_scalar hs
      simp only [ht]
      rw [ih (acc ++ [c]) st]
      have hoc : offsetOf st.objTable c = c := by simp [offsetOf, hs]
      have hmc : missingC st.objTable c = false := by simp [missingC, hs]
      simp [hoc, hmc]
    · rw [Bool.not_eq_true] at hs
      match hf : lookupTbl st.objTable c with
      | some off =>
        rw [List.foldl_cons]
        have ht : toOffset st c = (off, st) := toOffset_found hs hf
        simp only [ht]
        rw [ih (acc ++ [off]) st]
        have hoc : offsetOf st.objTable c = off := by simp [offsetOf, hs, hf]
        have hmc : missingC st.objTable c = false := by simp [missingC, hs, hf]
        simp [hoc, hmc]
      | none =>
        rw [List.foldl_cons]
        have ht : toOffset st c = (nullOffset, { st with todo := c :: st.todo }) :=
          toOffset_missing hs hf
        simp only [ht]
        rw [ih (acc ++ [nullOffset]) { st with todo := c :: st.todo }]
        have hoc : offsetOf st.objTable c = nullOffset := by simp [offsetOf, hs, hf]
        have hmc : missingC st.objTable c = true := by simp [missingC, hs, hf]
        simp [hoc, hmc]

theorem resolveChildren_spec (st : CState) (cs : List Nat) :
    resolveChildren st cs = (cs.map (offsetOf st.objTable),
      { st with todo := (cs.filter (missingC st.objTable)).reverse ++ st.todo }) := by
  unfold resolveChildren
  rw [resolveChildren_aux cs [] st]
  simp

theorem image_ne_term {tbl : List (Nat × Nat)} {o : HObj} {ro : RObj}
    (h : image tbl o = some ro) : isTermR ro = false := by
  cases o <;> simp only [image, Option.some_inj] at h <;>
    first
    | simp at h
    | (rw [← h]; rfl)

theorem packAux_shape : ∀ (bs cur : List Nat), ∀ w ∈ packAux cur bs, ∃ l, w = W.byt l := by
  intro bs
  induction bs with
  | nil =>
    intro cur w hw
    unfold packAux at hw
    split at hw
    · simp at hw
    · simp at hw
      exact ⟨_, hw⟩
  | cons b bs ih =>
    intro cur w hw
    unfold packAux at hw
    split at hw
    · simp at hw
      rcases hw with h | h
      · exact ⟨_, h⟩
      · exact ih [] w h
    · exact ih (b :: cur) w hw

theorem packBytes_shape (bs : List Nat) : ∀ w ∈ packBytes bs, ∃ l, w = W.byt l :=
  packAux_shape bs []

/-- No emitted object image ever carries a Task-tagged header word. -/
theorem emit_no_task_hdr (ro : RObj) (hwf : wfRObj ro = true) :
    ∀ w ∈ emit ro, ∀ sz ot, w ≠ W.hdr sz ot tagTask := by
  intro w hw sz ot hne
  subst hne
  cases ro with
  | rctor t offs sp =>
    simp only [wfRObj, decide_eq_true_eq] at hwf
    simp only [emit, List.mem_cons, List.mem_append] at hw
    rcases hw with h | h | h
    · have : t = tagTask := by injection h.symm
      simp [tagTask] at this
      simp only [maxCtorTag] at hwf
      omega
    · simp at h
    · obtain ⟨l, hl⟩ := packBytes_shape sp _ h
      exact absurd hl (by simp)
  | rarray es =>
    simp only [emit, List.mem_cons] at hw
    rcases hw with h | h | h | h
    · have : tagArray = tagTask := by injection h.symm
      simp [tagArray, tagTask] at this
    · exact absurd h (by simp)
    · exact absurd h (by simp)
    · simp at h
  | rsarray esz szn data =>
    simp only [emit, List.mem_cons] at hw
    rcases hw with h | h | h | h
    · have : tagScalarArray = tagTask := by injection h.symm
      simp [tagScalarArray, tagTask] at this
    · exact absurd h (by simp)
    · exact absurd h (by simp)
    · obtain ⟨l, hl⟩ := packBytes_shape data _ h
      exact absurd hl (by simp)
  | rstr len data =>
    simp only [emit, List.mem_cons] at hw
    rcases hw with h | h | h | h | h
    · have : tagString = tagTask := by injection h.symm
      simp [tagString, tagTask] at this
    · exact absurd h (by simp)
    · exact absurd h (by simp)
    · exact absurd h (by simp)
    · obtain ⟨l, hl⟩ := packBytes_shape data _ h
      exact absurd hl (by simp)
  | rmpz v =>
    simp only [emit, List.mem_cons] at hw
    rcases hw with h | h | h | h
    · have : tagMPZ = tagTask := by injection h.symm
      simp [tagMPZ, tagTask] at this
    · exact absurd h (by simp)
    · exact absurd h (by simp)
    · obtain ⟨l, hl⟩ := packBytes_shape (mpzStr v) _ h
      exact absurd hl (by simp)
  | rthunk v =>
    simp only [emit, List.mem_cons] at hw
    rcases hw with h | h | h
    · have : tagThunk = tagTask := by injection h.symm
      simp [tagThunk, tagTask] at this
    · exact absurd h (by simp)
    · simp at h
  | rref v =>
    simp only [emit, List.mem_cons] at hw
    rcases hw with h | h
    · have : tagRef = tagTask := by injection h.symm
      simp [tagRef, tagTask] at this
    · simp at h
  | rterm r =>
    simp only [emit, List.mem_cons] at hw
    rcases hw with h | h
    · have : tagReserved = tagTask := by injection h.symm
      simp [tagReserved, tagTask] at this
    · simp at h

theorem image_wf {tbl : List (Nat × Nat)} {o : HObj} {ro : RObj}
    (hwf : wfHObj o = true) (h : image tbl o = some ro) : wfRObj ro = true := by
  cases o with
  | hclosure => simp [image] at h
  | hexternal => simp [image] at h
  | hctor t fs sp =>
    simp only [image, Option.some_inj] at h
    rw [← h]
    simpa [wfRObj, wfHObj] using hwf
  | hsarray esz sz data =>
    simp only [image, Option.some_inj] at h
    rw [← h]
    simpa [wfRObj, wfHObj] using hwf
  | harray es =>
    simp only [image, Option.some_inj] at h
    rw [← h]
    rfl
  | hstr len data =>
    simp only [image, Option.some_inj] at h
    rw [← h]
    rfl
  | hmpz v =>
    simp only [image, Option.some_inj] at h
    rw [← h]
    rfl
  | hthunk v =>
    simp only [image, Option.some_inj] at h
    rw [← h]
    rfl
  | htask v =>
    simp only [image, Option.some_inj] at h
    rw [← h]
    rfl
  | href v =>
    simp only [image, Option.some_inj] at h
    rw [← h]
    rfl

theorem offsetOf_stable {tbl : List (Nat × Nat)} {p x c : Nat}
    (hp : lookupTbl tbl p = none)
    (hres : isScalar c = false → (lookupTbl tbl c).isSome = true) :
    offsetOf ((p, x) :: tbl) c = offsetOf tbl c := by
  unfold offsetOf
  by_cases hs : isScalar c
  · simp [hs]
  · rw [Bool.not_eq_true] at hs
    have := hres hs
    match hf : lookupTbl tbl c with
    | some off =>
      rw [lookupTbl_mono hp hf]
    | none => rw [hf] at this; simp at this

theorem image_stable {tbl : List (Nat × Nat)} {o : HObj} {p x : Nat}
    (hp : lookupTbl tbl p = none)
    (hres : ∀ c ∈ hchildren o, isScalar c = false → (lookupTbl tbl c).isSome = true) :
    image ((p, x) :: tbl) o = image tbl o := by
  cases o with
  | hctor t fs sp =>
    simp only [image, hchildren] at hres ⊢
    rw [List.map_congr_left (fun c hc => offsetOf_stable hp (hres c hc))]
  | harray es =>
    simp only [image, hchildren] at hres ⊢
    rw [List.map_congr_left (fun c hc => offsetOf_stable hp (hres c hc))]
  | hthunk v =>
    simp only [image, hchildren] at hres ⊢
    rw [offsetOf_stable hp (hres v (by simp))]
  | htask v =>
    simp only [image, hchildren] at hres ⊢
    rw [offsetOf_stable hp (hres v (by simp))]
  | href v =>
    simp only [image, hchildren] at hres ⊢
    rw [offsetOf_stable hp (hres v (by simp))]
  | _ => rfl

/-! ## Invariant preservation -/

theorem nullOffset_mod : nullOffset % 8 = 6 := by decide

theorem lookupLay_ne_null {L : List RObj} {off : Nat} {ro : RObj}
    (h : lookupLay L off = some ro) : off ≠ nullOffset := by
  have ha := lookupLay_align h
  intro he
  rw [he, nullOffset_mod] at ha
  exact absurd ha (by omega)

theorem image_isSome {tbl : List (Nat × Nat)} {o : HObj} (h : serializable o = true) :
    ∃ ro, image tbl o = some ro := by
  cases o <;> simp [image, serializable] at h ⊢

theorem window_tail (buf : List W) (ro : RObj) (hwf : wfRObj ro = true) :
    window (buf ++ emit ro) (8 * buf.length) (rsize ro) = emit ro := by
  unfold window
  have hdiv : 8 * buf.length / 8 = buf.length := by omega
  rw [hdiv, List.drop_left]
  have hlen : pad8 (rsize ro) / 8 = (emit ro).length := by
    have := emit_length ro hwf
    omega
  rw [hlen]
  exact List.take_of_length_le le_rfl

theorem rchildren_image {tbl : List (Nat × Nat)} {o : HObj} {ro : RObj}
    (himg : image tbl o = some ro) :
    ∀ c ∈ rchildren ro, ∃ f ∈ hchildren o, c = offsetOf tbl f := by
  intro c hc
  cases o with
  | hclosure => simp [image] at himg
  | hexternal => simp [image] at himg
  | hctor t fs sp =>
    simp only [image, Option.some_inj] at himg
    rw [← himg] at hc
    simp only [rchildren, List.mem_map] at hc
    obtain ⟨f, hf, hco⟩ := hc
    exact ⟨f, by simpa [hchildren] using hf, hco.symm⟩
  | harray es =>
    simp only [image, Option.some_inj] at himg
    rw [← himg] at hc
    simp only [rchildren, List.mem_map] at hc
    obtain ⟨f, hf, hco⟩ := hc
    exact ⟨f, by simpa [hchildren] using hf, hco.symm⟩
  | hsarray esz sz data =>
    simp only [image, Option.some_inj] at himg
    rw [← himg] at hc
    simp [rchildren] at hc
  | hstr len data =>
    simp only [image, Option.some_inj] at himg
    rw [← himg] at hc
    simp [rchildren] at hc
  | hmpz v =>
    simp only [image, Option.some_inj] at himg
    rw [← himg] at hc
    simp [rchildren] at hc
  | hthunk v =>
    simp only [image, Option.some_inj] at himg
    rw [← himg] at hc
    simp only [rchildren, List.mem_singleton] at hc
    exact ⟨v, by simp [hchildren], hc⟩
  | htask v =>
    simp only [image, Option.some_inj] at himg
    rw [← himg] at hc
    simp only [rchildren, List.mem_singleton] at hc
    exact ⟨v, by simp [hchildren], hc⟩
  | href v =>
    simp only [image, Option.some_inj] at himg
    rw [← himg] at hc
    simp only [rchildren, List.mem_singleton] at hc
    exact ⟨v, by simp [hchildren], hc⟩

theorem inv_child_layout {h : Heap} {st : CState} {L : List RObj} (hInv : Inv h st L)
    {f c : Nat} (hf : lookupTbl st.objTable f = some c) :
    ∃ ro2, lookupLay L c = some ro2 ∧ isTermR ro2 = false ∧ wfRObj ro2 = true ∧
      c % 8 = 0 ∧ c < 8 * (flatW L).length := by
  obtain ⟨o2, _, hser2, hwf2, _, hlay⟩ := hInv.htbl f c hf
  obtain ⟨ro2, himg2⟩ := @image_isSome st.objTable _ hser2
  rw [himg2] at hlay
  refine ⟨ro2, hlay, image_ne_term himg2, image_wf hwf2 himg2, lookupLay_align hlay, ?_⟩
  have hb := lookupLay_bound hlay
  have ha := lookupLay_align hlay
  have he := emit_length_pos ro2
  omega

theorem new_child_cond {h : Heap} {st : CState} {L : List RObj} (hInv : Inv h st L)
    {o : HObj} {ro : RObj} (himg : image st.objTable o = some ro)
    (hres : ∀ f ∈ hchildren o, isScalar f = false → (lookupTbl st.objTable f).isSome = true) :
    ∀ c ∈ rchildren ro, isScalar c = false →
      c < 8 * (flatW L).length ∧
        ∃ ro2, lookupLay L c = some ro2 ∧ isTermR ro2 = false := by
  intro c hc hcs
  obtain ⟨f, hfm, hco⟩ := rchildren_image himg c hc
  by_cases hs : isScalar f
  · rw [hco] at hcs
    unfold offsetOf at hcs
    rw [if_pos hs] at hcs
    rw [hs] at hcs
    exact absurd hcs (by simp)
  · rw [Bool.not_eq_true] at hs
    have hsome := hres f hfm hs
    match hlf : lookupTbl st.objTable f with
    | none => rw [hlf] at hsome; simp at hsome
    | some off =>
      have hc2 : c = off := by
        rw [hco]
        unfold offsetOf
        rw [if_neg (by simp [hs]), hlf]
      subst hc2
      obtain ⟨ro2, hlay, hterm, _, _, hbound⟩ := inv_child_layout hInv hlf
      exact ⟨hbound, ro2, hlay, hterm⟩

theorem findShared_some {buf : List W} {sharing : List (Nat × Nat)} {sz : Nat}
    {cand : List W} {off2 : Nat} (h : findShared buf sharing sz cand = some off2) :
    ∃ k ∈ sharing, k.1 = off2 ∧ k.2 = sz ∧ window buf k.1 k.2 = cand := by
  unfold findShared at h
  match hf : sharing.find? (fun k => k.2 == sz && window buf k.1 k.2 == cand) with
  | none => rw [hf] at h; exact absurd h (by simp)
  | some k =>
    rw [hf] at h
    have hm := List.mem_of_find?_eq_some hf
    have hp := List.find?_some hf
    simp only [Bool.and_eq_true, beq_iff_eq] at hp
    have h2 : k.1 = off2 := by simpa using h
    exact ⟨k, hm, h2, hp.1, hp.2⟩

theorem findShared_none {buf : List W} {sharing : List (Nat × Nat)} {sz : Nat}
    {cand : List W} (h : findShared buf sharing sz cand = none) :
    ∀ k ∈ sharing, ¬(k.2 = sz ∧ window buf k.1 k.2 = cand) := by
  intro k hk hcon
  unfold findShared at h
  match hf : sharing.find? (fun k => k.2 == sz && window buf k.1 k.2 == cand) with
  | some k2 => rw [hf] at h; simp at h
  | none =>
    have := List.find?_eq_none.mp hf k hk
    simp only [Bool.and_eq_true, beq_iff_eq] at this
    exact this ⟨hcon.1, hcon.2⟩

theorem isSome_mono {tbl : List (Nat × Nat)} {p x c : Nat}
    (hp : lookupTbl tbl p = none) (h : (lookupTbl tbl c).isSome = true) :
    (lookupTbl ((p, x) :: tbl) c).isSome = true := by
  match hf : lookupTbl tbl c with
  | some off => rw [lookupTbl_mono hp hf]; rfl
  | none => rw [hf] at h; simp at h

theorem saveMaxSharing_preserve {h : Heap} {st : CState} {L : List RObj} {curr : Nat}
    {o : HObj} {ro : RObj}
    (hInv : Inv h st L)
    (hheap : lookupH h curr = some o)
    (hser : serializable o = true)
    (hwfo : wfHObj o = true)
    (hcur : lookupTbl st.objTable curr = none)
    (himg : image st.objTable o = some ro)
    (hmpz : isMpzR ro = false)
    (hres : ∀ c ∈ hchildren o, isScalar c = false → (lookupTbl st.objTable c).isSome = true) :
    ∃ L2 off2,
      (L2 = L ∨ L2 = L ++ [ro]) ∧
      Inv h (saveMaxSharing st curr ro (rsize ro)) L2 ∧
      (saveMaxSharing st curr ro (rsize ro)).objTable = (curr, off2) :: st.objTable ∧
      (saveMaxSharing st curr ro (rsize ro)).todo = st.todo ∧
      lookupLay L2 off2 = some ro := by
  have hwfro : wfRObj ro = true := image_wf hwfo himg
  have hbuf := hInv.hbuf
  have hlenL : bufBytes st = 8 * (flatW L).length := by
    unfold bufBytes
    rw [hbuf]
  have hcand : window (st.buf ++ emit ro) (bufBytes st) (rsize ro) = emit ro := by
    unfold bufBytes
    exact window_tail st.buf ro hwfro
  have hchildnew := new_child_cond hInv himg hres
  match hfind : findShared (st.buf ++ emit ro) st.sharing (rsize ro)
      (window (st.buf ++ emit ro) (bufBytes st) (rsize ro)) with
  | some off2 =>
    have hred : saveMaxSharing st curr ro (rsize ro) =
        (⟨st.buf, (curr, off2) :: st.objTable, st.sharing, st.todo⟩ : CState) := by
      simp only [saveMaxSharing, saveTbl]
      rw [hfind]
    obtain ⟨k, hkmem, hk1, hk2, hkwin⟩ := findShared_some hfind
    obtain ⟨ro2, hlay2, hmpz2, hsz2⟩ := hInv.hsh1 k hkmem
    have hwf2 : wfRObj ro2 = true := (hInv.hwfl (k.1, ro2) (mem_of_lookupLay hlay2)).1
    have hbound2 := lookupLay_bound hlay2
    have hwin2 : window (st.buf ++ emit ro) k.1 k.2 = window st.buf k.1 k.2 := by
      apply window_append
      rw [hbuf]
      have : pad8 k.2 / 8 = (emit ro2).length := by
        rw [hsz2]
        have := emit_length ro2 hwf2
        omega
      omega
    have hwin3 : window st.buf k.1 k.2 = emit ro2 := by
      rw [hbuf, hsz2]
      exact window_of_lookup hlay2 hwf2
    have hro2 : ro2 = ro := by
      apply emit_inj ro2 ro hwf2 hwfro
      rw [← hwin3, ← hwin2, hkwin, hcand]
    have hlayoff : lookupLay L off2 = some ro := by
      rw [← hk1, hlay2, hro2]
    rw [hred]
    refine ⟨L, off2, Or.inl rfl, ?_, rfl, rfl, hlayoff⟩
    constructor
    · exact hbuf
    · exact hInv.hwfl
    · intro p off hp
      rw [lookupTbl_cons] at hp
      split at hp
      · rename_i hpe
        subst hpe
        cases hp
        refine ⟨o, hheap, hser, hwfo, ?_, ?_⟩
        · intro c hc hcs
          exact isSome_mono hcur (hres c hc hcs)
        · rw [image_stable hcur hres, hlayoff, himg]
      · obtain ⟨o2, ho2, hser2, hwfo2, hres2, hlay3⟩ := hInv.htbl p off hp
        refine ⟨o2, ho2, hser2, hwfo2, ?_, ?_⟩
        · intro c hc hcs
          exact isSome_mono hcur (hres2 c hc hcs)
        · rw [image_stable hcur hres2, hlay3]
    · exact hInv.hchild
    · exact hInv.hsh1
    · exact hInv.hsh2
    · exact hInv.hsh3
    · exact hInv.htodo
  | none =>
    have hred : saveMaxSharing st curr ro (rsize ro) =
        (⟨st.buf ++ emit ro, (curr, bufBytes st) :: st.objTable,
          st.sharing ++ [(bufBytes st, rsize ro)], st.todo⟩ : CState) := by
      simp only [saveMaxSharing, saveTbl]
      rw [hfind]
    have hnone := findShared_none hfind
    have hflat2 : st.buf ++ emit ro = flatW (L ++ [ro]) := by
      rw [flatW_append, hbuf]
      simp [flatW]
    have hlaynew : lookupLay (L ++ [ro]) (bufBytes st) = some ro := by
      rw [hlenL]
      exact lookupLay_append_new L ro
    have hentries2 : entries (L ++ [ro]) = entries L ++ [(bufBytes st, ro)] := by
      rw [entries_append, hlenL]
      rfl
    have hwinold : ∀ k ∈ st.sharing,
        window (st.buf ++ emit ro) k.1 k.2 = window st.buf k.1 k.2 := by
      intro k hk
      obtain ⟨ro2, hlay2, _, hsz2⟩ := hInv.hsh1 k hk
      have hwf2 : wfRObj ro2 = true := (hInv.hwfl (k.1, ro2) (mem_of_lookupLay hlay2)).1
      have hbound2 := lookupLay_bound hlay2
      apply window_append
      rw [hbuf]
      have : pad8 k.2 / 8 = (emit ro2).length := by
        rw [hsz2]
        have := emit_length ro2 hwf2
        omega
      omega
    rw [hred]
    refine ⟨L ++ [ro], bufBytes st, Or.inr rfl, ?_, rfl, rfl, hlaynew⟩
    constructor
    · exact hflat2
    · intro pr hpr
      rw [hentries2] at hpr
      rcases List.mem_append.mp hpr with hm | hm
      · exact hInv.hwfl pr hm
      · simp only [List.mem_singleton] at hm
        subst hm
        exact ⟨hwfro, image_ne_term himg⟩
    · intro p off hp
      rw [lookupTbl_cons] at hp
      split at hp
      · rename_i hpe
        subst hpe
        cases hp
        refine ⟨o, hheap, hser, hwfo, ?_, ?_⟩
        · intro c hc hcs
          exact isSome_mono hcur (hres c hc hcs)
        · rw [image_stable hcur hres, hlaynew, himg]
      · obtain ⟨o2, ho2, hser2, hwfo2, hres2, hlay3⟩ := hInv.htbl p off hp
        obtain ⟨ro3, himg3⟩ := @image_isSome st.objTable _ hser2
        rw [himg3] at hlay3
        refine ⟨o2, ho2, hser2, hwfo2, ?_, ?_⟩
        · intro c hc hcs
          exact isSome_mono hcur (hres2 c hc hcs)
        · rw [image_stable hcur hres2, himg3, lookupLay_append_left [ro] hlay3]
    · intro pr hpr c hc hcs
      rw [hentries2] at hpr
      rcases List.mem_append.mp hpr with hm | hm
      · obtain ⟨hlt, ro2, hlay2, hterm2⟩ := hInv.hchild pr hm c hc hcs
        exact ⟨hlt, ro2, lookupLay_append_left [ro] hlay2, hterm2⟩
      · simp only [List.mem_singleton] at hm
        subst hm
        obtain ⟨hlt, ro2, hlay2, hterm2⟩ := hchildnew c hc hcs
        refine ⟨?_, ro2, lookupLay_append_left [ro] hlay2, hterm2⟩
        show c < (bufBytes st, ro).1
        omega
    · intro k hk
      rcases List.mem_append.mp hk with hm | hm
      · obtain ⟨ro2, hlay2, hmpz2, hsz2⟩ := hInv.hsh1 k hm
        exact ⟨ro2, lookupLay_append_left [ro] hlay2, hmpz2, hsz2⟩
      · simp only [List.mem_singleton] at hm
        subst hm
        exact ⟨ro, hlaynew, hmpz, rfl⟩
    · intro pr hpr hprm
      rw [hentries2] at hpr
      rcases List.mem_append.mp hpr with hm | hm
      · exact List.mem_append_left _ (hInv.hsh2 pr hm hprm)
      · simp only [List.mem_singleton] at hm
        subst hm
        exact List.mem_append_right _ (by simp)
    · intro k1 hk1 k2 hk2 hne hcon
      rcases List.mem_append.mp hk1 with hm1 | hm1 <;>
        rcases List.mem_append.mp hk2 with hm2 | hm2
      · refine hInv.hsh3 k1 hm1 k2 hm2 hne ⟨hcon.1, ?_⟩
        have hw1 := hwinold k1 hm1
        have hw2 := hwinold k2 hm2
        rw [← hw1, ← hw2]
        exact hcon.2
      · simp only [List.mem_singleton] at hm2
        subst hm2
        exact hnone k1 hm1 ⟨hcon.1, hcon.2⟩
      · simp only [List.mem_singleton] at hm1
        subst hm1
        exact hnone k2 hm2 ⟨hcon.1.symm, hcon.2.symm⟩
      · simp only [List.mem_singleton] at hm1 hm2
        subst hm1
        subst hm2
        simp at hne
    · exact hInv.htodo

theorem lookupH_mem {h : Heap} {p : Nat} {o : HObj} (hl : lookupH h p = some o) :
    (p, o) ∈ h := by
  unfold lookupH at hl
  match hf : h.find? (fun pr => pr.1 == p) with
  | none => rw [hf] at hl; exact absurd hl (by simp)
  | some pr =>
    rw [hf] at hl
    have hm := List.mem_of_find?_eq_some hf
    have hp := List.find?_some hf
    obtain ⟨a, b⟩ := pr
    simp at hl hp
    subst hl
    subst hp
    exact hm

theorem no_missing_of_no_null {tbl : List (Nat × Nat)} {cs : List Nat}
    (h : (cs.map (offsetOf tbl)).contains nullOffset = false) :
    cs.filter (missingC tbl) = [] := by
  rw [List.filter_eq_nil]
  intro c hc
  intro hmc
  simp only [missingC, Bool.and_eq_true, Bool.not_eq_true', Option.isNone_iff_eq_none] at hmc
  have : offsetOf tbl c = nullOffset := by
    unfold offsetOf
    rw [if_neg (by simp [hmc.1]), hmc.2]
  have hmem : nullOffset ∈ cs.map (offsetOf tbl) := by
    rw [← this]
    exact List.mem_map_of_mem _ hc
  have h2 : (cs.map (offsetOf tbl)).contains nullOffset = true := by simpa using hmem
  rw [h2] at h
  exact absurd h (by simp)

theorem resolved_of_no_null {tbl : List (Nat × Nat)} {cs : List Nat}
    (h : (cs.map (offsetOf tbl)).contains nullOffset = false) :
    ∀ c ∈ cs, isScalar c = false → (lookupTbl tbl c).isSome = true := by
  intro c hc hcs
  match hf : lookupTbl tbl c with
  | some off => rfl
  | none =>
    exfalso
    have : offsetOf tbl c = nullOffset := by
      unfold offsetOf
      rw [if_neg (by simp [hcs]), hf]
    have hmem : nullOffset ∈ cs.map (offsetOf tbl) := by
      rw [← this]
      exact List.mem_map_of_mem _ hc
    have h2 : (cs.map (offsetOf tbl)).contains nullOffset = true := by simpa using hmem
    rw [h2] at h
    exact absurd h (by simp)

theorem inv_set_todo {h : Heap} {st : CState} {L : List RObj} (hInv : Inv h st L)
    {t2 : List Nat}
    (ht : ∀ q ∈ t2, isScalar q = false ∧ (lookupH h q).isSome = true) :
    Inv h ⟨st.buf, st.objTable, st.sharing, t2⟩ L :=
  ⟨hInv.hbuf, hInv.hwfl, hInv.htbl, hInv.hchild, hInv.hsh1, hInv.hsh2, hInv.hsh3, ht⟩

theorem insertMpz_preserve {h : Heap} {st : CState} {L : List RObj} {curr : Nat} {v : Int}
    (hInv : Inv h st L)
    (hheap : lookupH h curr = some (.hmpz v))
    (hcur : lookupTbl st.objTable curr = none) :
    Inv h (insertMpz st curr v) (L ++ [.rmpz v]) ∧
    (insertMpz st curr v).objTable = (curr, bufBytes st) :: st.objTable ∧
    (insertMpz st curr v).todo = st.todo ∧
    lookupLay (L ++ [.rmpz v]) (bufBytes st) = some (.rmpz v) := by
  have hbuf := hInv.hbuf
  have hlenL : bufBytes st = 8 * (flatW L).length := by
    unfold bufBytes
    rw [hbuf]
  have himg : image st.objTable (HObj.hmpz v) = some (.rmpz v) := rfl
  have hres : ∀ c ∈ hchildren (HObj.hmpz v), isScalar c = false →
      (lookupTbl st.objTable c).isSome = true := by
    intro c hc
    simp [hchildren] at hc
  have hflat2 : st.buf ++ emit (.rmpz v) = flatW (L ++ [.rmpz v]) := by
    rw [flatW_append, hbuf]
    simp [flatW]
  have hlaynew : lookupLay (L ++ [.rmpz v]) (bufBytes st) = some (.rmpz v) := by
    rw [hlenL]
    exact lookupLay_append_new L (.rmpz v)
  have hentries2 : entries (L ++ [.rmpz v]) = entries L ++ [(bufBytes st, .rmpz v)] := by
    rw [entries_append, hlenL]
    rfl
  have hwinold : ∀ k ∈ st.sharing,
      window (st.buf ++ emit (.rmpz v)) k.1 k.2 = window st.buf k.1 k.2 := by
    intro k hk
    obtain ⟨ro2, hlay2, _, hsz2⟩ := hInv.hsh1 k hk
    have hwf2 : wfRObj ro2 = true := (hInv.hwfl (k.1, ro2) (mem_of_lookupLay hlay2)).1
    have hbound2 := lookupLay_bound hlay2
    apply window_append
    rw [hbuf]
    have : pad8 k.2 / 8 = (emit ro2).length := by
      rw [hsz2]
      have := emit_length ro2 hwf2
      omega
    omega
  have hred : insertMpz st curr v =
      (⟨st.buf ++ emit (.rmpz v), (curr, bufBytes st) :: st.objTable,
        st.sharing, st.todo⟩ : CState) := by
    simp only [insertMpz, saveTbl]
  refine ⟨?_, by rw [hred], by rw [hred], hlaynew⟩
  rw [hred]
  constructor
  · exact hflat2
  · intro pr hpr
    rw [hentries2] at hpr
    rcases List.mem_append.mp hpr with hm | hm
    · exact hInv.hwfl pr hm
    · simp only [List.mem_singleton] at hm
      subst hm
      exact ⟨rfl, rfl⟩
  · intro p off hp
    rw [lookupTbl_cons] at hp
    split at hp
    · rename_i hpe
      subst hpe
      cases hp
      refine ⟨.hmpz v, hheap, rfl, rfl, ?_, ?_⟩
      · intro c hc
        simp [hchildren] at hc
      · rw [image_stable hcur hres, hlaynew, himg]
    · obtain ⟨o2, ho2, hser2, hwfo2, hres2, hlay3⟩ := hInv.htbl p off hp
      obtain ⟨ro3, himg3⟩ := @image_isSome st.objTable _ hser2
      rw [himg3] at hlay3
      refine ⟨o2, ho2, hser2, hwfo2, ?_, ?_⟩
      · intro c hc hcs
        exact isSome_mono hcur (hres2 c hc hcs)
      · rw [image_stable hcur hres2, himg3, lookupLay_append_left [.rmpz v] hlay3]
  · intro pr hpr c hc hcs
    rw [hentries2] at hpr
    rcases List.mem_append.mp hpr with hm | hm
    · obtain ⟨hlt, ro2, hlay2, hterm2⟩ := hInv.hchild pr hm c hc hcs
      exact ⟨hlt, ro2, lookupLay_append_left [.rmpz v] hlay2, hterm2⟩
    · simp only [List.mem_singleton] at hm
      subst hm
      simp [rchildren] at hc
  · intro k hk
    obtain ⟨ro2, hlay2, hmpz2, hsz2⟩ := hInv.hsh1 k hk
    exact ⟨ro2, lookupLay_append_left [.rmpz v] hlay2, hmpz2, hsz2⟩
  · intro pr hpr hprm
    rw [hentries2] at hpr
    rcases List.mem_append.mp hpr with hm | hm
    · exact hInv.hsh2 pr hm hprm
    · simp only [List.mem_singleton] at hm
      subst hm
      simp [isMpzR] at hprm
  · intro k1 hk1 k2 hk2 hne hcon
    refine hInv.hsh3 k1 hk1 k2 hk2 hne ⟨hcon.1, ?_⟩
    have hw1 := hwinold k1 hk1
    have hw2 := hwinold k2 hk2
    rw [← hw1, ← hw2]
    exact hcon.2
  · exact hInv.htodo

theorem scalar_ne_null {x : Nat} (h : isScalar x = true) : x ≠ nullOffset := by
  unfold isScalar at h
  intro he
  subst he
  rw [show nullOffset % 2 = 0 by decide] at h
  simp at h

theorem table_off_ne_null {h : Heap} {st : CState} {L : List RObj} (hInv : Inv h st L)
    {f off : Nat} (hf : lookupTbl st.objTable f = some off) : off ≠ nullOffset := by
  obtain ⟨ro2, hlay, _, _, _, _⟩ := inv_child_layout hInv hf
  exact lookupLay_ne_null hlay

theorem toOffset_cases {h : Heap} {st : CState} {L : List RObj} (hInv : Inv h st L)
    (v : Nat) :
    (isScalar v = true ∧ toOffset st v = (v, st) ∧ v ≠ nullOffset ∧
      offsetOf st.objTable v = v) ∨
    (∃ off, isScalar v = false ∧ lookupTbl st.objTable v = some off ∧
      toOffset st v = (off, st) ∧ off ≠ nullOffset ∧ offsetOf st.objTable v = off) ∨
    (isScalar v = false ∧ lookupTbl st.objTable v = none ∧
      toOffset st v = (nullOffset, { st with todo := v :: st.todo })) := by
  by_cases hs : isScalar v
  · exact Or.inl ⟨hs, toOffset_scalar hs, scalar_ne_null hs, by simp [offsetOf, hs]⟩
  · rw [Bool.not_eq_true] at hs
    match hf : lookupTbl st.objTable v with
    | some off =>
      refine Or.inr (Or.inl ⟨off, hs, rfl, toOffset_found hs hf, table_off_ne_null hInv hf, ?_⟩)
      simp [offsetOf, hs, hf]
    | none => exact Or.inr (Or.inr ⟨hs, rfl, toOffset_missing hs hf⟩)

theorem heapOK_child {h : Heap} (hOK : heapOK h) {p : Nat} {o : HObj}
    (hp : lookupH h p = some o) :
    wfHObj o = true ∧
      ∀ c ∈ hchildren o, isScalar c = false → (lookupH h c).isSome = true := by
  have hm := lookupH_mem hp
  have := hOK (p, o) hm
  exact ⟨this.2.1, this.2.2⟩

/-- Preservation of the invariant by one work-stack iteration, with
monotonicity of the visited table. -/
theorem step_preserve {h : Heap} {st st2 : CState} {L : List RObj}
    (hOK : heapOK h) (hInv : Inv h st L) (hstep : compactStep h st = .snext st2) :
    ∃ L2, (∃ ext, L2 = L ++ ext) ∧ Inv h st2 L2 ∧
      ∀ p off, lookupTbl st.objTable p = some off → lookupTbl st2.objTable p = some off := by
  match htd : st.todo with
  | [] =>
    rw [compactStep, htd] at hstep
    simp at hstep
  | curr :: rest =>
    have hcurp := hInv.htodo curr (by rw [htd]; simp)
    have hrest : ∀ q ∈ rest, isScalar q = false ∧ (lookupH h q).isSome = true := by
      intro q hq
      exact hInv.htodo q (by rw [htd]; simp [hq])
    by_cases hvis : (lookupTbl st.objTable curr).isSome = true
    · simp only [compactStep, htd, hvis, if_true] at hstep
      cases hstep
      exact ⟨L, ⟨[], by simp⟩, inv_set_todo hInv hrest, fun p off hp => hp⟩
    · have hcur : lookupTbl st.objTable curr = none := by
        rw [Option.not_isSome_iff_eq_none] at hvis
        exact hvis
      have hvisf : (lookupTbl st.objTable curr).isSome = false := by
        rw [hcur]
        rfl
      match hobj : lookupH h curr with
      | none =>
        have hcs := hcurp.2
        rw [hobj] at hcs
        simp at hcs
      | some obj =>
        have hwfchild := heapOK_child hOK hobj
        simp only [compactStep, htd, hvisf, Bool.false_eq_true, if_false, hobj] at hstep
        match obj, hstep with
        | .hclosure, hstep => simp at hstep
        | .hexternal, hstep => simp at hstep
        | .hsarray esz szn data, hstep =>
          simp only [StepRes.snext.injEq] at hstep
          obtain ⟨L2, off2, hor, hInv2, htbl2, htodo2, hlay2⟩ :=
            saveMaxSharing_preserve
              hInv hobj rfl hwfchild.1 hcur rfl rfl
              (by intro c hc; simp [hchildren] at hc)
          refine ⟨L2, ?_, ?_, ?_⟩
          · rcases hor with hh | hh
            · exact ⟨[], by simp [hh]⟩
            · exact ⟨[.rsarray esz szn data], hh⟩
          · rw [← hstep]
            exact inv_set_todo hInv2 hrest
          · intro p off hp
            rw [← hstep]
            show lookupTbl (insertSArray st curr esz szn data).objTable p = some off
            rw [show insertSArray st curr esz szn data =
              saveMaxSharing st curr (.rsarray esz szn data) (rsize (.rsarray esz szn data))
              from rfl]
            rw [htbl2]
            exact lookupTbl_mono hcur hp
        | .hstr len data, hstep =>
          simp only [StepRes.snext.injEq] at hstep
          obtain ⟨L2, off2, hor, hInv2, htbl2, htodo2, hlay2⟩ :=
            saveMaxSharing_preserve
              hInv hobj rfl hwfchild.1 hcur rfl rfl
              (by intro c hc; simp [hchildren] at hc)
          refine ⟨L2, ?_, ?_, ?_⟩
          · rcases hor with hh | hh
            · exact ⟨[], by simp [hh]⟩
            · exact ⟨[.rstr len data], hh⟩
          · rw [← hstep]
            exact inv_set_todo hInv2 hrest
          · intro p off hp
            rw [← hstep]
            show lookupTbl (insertString st curr len data).objTable p = some off
            rw [show insertString st curr len data =
              saveMaxSharing st curr (.rstr len data) (rsize (.rstr len data)) from rfl]
            rw [htbl2]
            exact lookupTbl_mono hcur hp
        | .hmpz v, hstep =>
          simp only [StepRes.snext.injEq] at hstep
          obtain ⟨hInv2, htbl2, htodo2, hlay2⟩ := insertMpz_preserve hInv hobj hcur
          refine ⟨L ++ [.rmpz v], ⟨[.rmpz v], rfl⟩, ?_, ?_⟩
          · rw [← hstep]
            exact inv_set_todo hInv2 hrest
          · intro p off hp
            rw [← hstep]
            show lookupTbl (insertMpz st curr v).objTable p = some off
            rw [htbl2]
            exact lookupTbl_mono hcur hp
        | .hctor t fs sp, hstep =>
          change popIf (insertConstructor st curr t fs sp) = StepRes.snext st2 at hstep
          by_cases hguard : (fs.map (offsetOf st.objTable)).contains nullOffset = true
          · have hic : insertConstructor st curr t fs sp = (false,
                { st with todo := (fs.filter (missingC st.objTable)).reverse ++ st.todo }) := by
              unfold insertConstructor
              rw [resolveChildren_spec]
              simp only [hguard, if_true]
            rw [hic] at hstep
            simp only [popIf, StepRes.snext.injEq] at hstep
            refine ⟨L, ⟨[], by simp⟩, ?_, ?_⟩
            · rw [← hstep]
              apply inv_set_todo hInv
              intro q hq
              rcases List.mem_append.mp hq with hm | hm
              · rw [List.mem_reverse] at hm
                have hmf := List.mem_of_mem_filter hm
                have hmc := List.of_mem_filter hm
                simp only [missingC, Bool.and_eq_true, Bool.not_eq_true',
                  Option.isNone_iff_eq_none] at hmc
                exact ⟨hmc.1, hwfchild.2 q (by simpa [hchildren] using hmf) hmc.1⟩
              · exact hInv.htodo q hm
            · intro p off hp
              rw [← hstep]
              exact hp
          · rw [Bool.not_eq_true] at hguard
            have hfilter : fs.filter (missingC st.objTable) = [] :=
              no_missing_of_no_null hguard
            have hr2eta : ({ st with
                todo := (fs.filter (missingC st.objTable)).reverse ++ st.todo } : CState)
                = st := by
              rw [hfilter]
              simp
            have hsz : 8 + 8 * fs.length + sp.length =
                rsize (.rctor t (fs.map (offsetOf st.objTable)) sp) := by
              simp [rsize]
            have hic : insertConstructor st curr t fs sp = (true,
                saveMaxSharing st curr (.rctor t (fs.map (offsetOf st.objTable)) sp)
                  (rsize (.rctor t (fs.map (offsetOf st.objTable)) sp))) := by
              unfold insertConstructor
              rw [resolveChildren_spec]
              simp only [hguard, Bool.false_eq_true, if_false, hr2eta, hsz]
            rw [hic] at hstep
            simp only [popIf] at hstep
            obtain ⟨L2, off2, hor, hInv2, htbl2, htodo2, hlay2⟩ :=
              saveMaxSharing_preserve
                hInv hobj rfl hwfchild.1 hcur rfl rfl
                (resolved_of_no_null hguard)
            rw [htodo2, htd] at hstep
            simp only [List.tail_cons, StepRes.snext.injEq] at hstep
            refine ⟨L2, ?_, ?_, ?_⟩
            · rcases hor with hh | hh
              · exact ⟨[], by simp [hh]⟩
              · exact ⟨[.rctor t (fs.map (offsetOf st.objTable)) sp], hh⟩
            · rw [← hstep]
              exact inv_set_todo hInv2 hrest
            · intro p off hp
              rw [← hstep]
              show lookupTbl (saveMaxSharing st curr
                (.rctor t (fs.map (offsetOf st.objTable)) sp)
                (rsize (.rctor t (fs.map (offsetOf st.objTable)) sp))).objTable p = some off
              rw [htbl2]
              exact lookupTbl_mono hcur hp
        | .harray es, hstep =>
          change popIf (insertArray st curr es) = StepRes.snext st2 at hstep
          by_cases hguard : (es.map (offsetOf st.objTable)).contains nullOffset = true
          · have hic : insertArray st curr es = (false,
                { st with todo := (es.filter (missingC st.objTable)).reverse ++ st.todo }) := by
              unfold insertArray
              rw [resolveChildren_spec]
              simp only [hguard, if_true]
            rw [hic] at hstep
            simp only [popIf, StepRes.snext.injEq] at hstep
            refine ⟨L, ⟨[], by simp⟩, ?_, ?_⟩
            · rw [← hstep]
              apply inv_set_todo hInv
              intro q hq
              rcases List.mem_append.mp hq with hm | hm
              · rw [List.mem_reverse] at hm
                have hmf := List.mem_of_mem_filter hm
                have hmc := List.of_mem_filter hm
                simp only [missingC, Bool.and_eq_true, Bool.not_eq_true',
                  Option.isNone_iff_eq_none] at hmc
                exact ⟨hmc.1, hwfchild.2 q (by simpa [hchildren] using hmf) hmc.1⟩
              · exact hInv.htodo q hm
            · intro p off hp
              rw [← hstep]
              exact hp
          · rw [Bool.not_eq_true] at hguard
            have hfilter : es.filter (missingC st.objTable) = [] :=
              no_missing_of_no_null hguard
            have hr2eta : ({ st with
                todo := (es.filter (missingC st.objTable)).reverse ++ st.todo } : CState)
                = st := by
              rw [hfilter]
              simp
            have hsz : 24 + 8 * es.length =
                rsize (.rarray (es.map (offsetOf st.objTable))) := by
              simp [rsize]
            have hic : insertArray st curr es = (true,
                saveMaxSharing st curr (.rarray (es.map (offsetOf st.objTable)))
                  (rsize (.rarray (es.map (offsetOf st.objTable))))) := by
              unfold insertArray
              rw [resolveChildren_spec]
              simp only [hguard, Bool.false_eq_true, if_false, hr2eta, hsz]
            rw [hic] at hstep
            simp only [popIf] at hstep
            obtain ⟨L2, off2, hor, hInv2, htbl2, htodo2, hlay2⟩ :=
              saveMaxSharing_preserve
                hInv hobj rfl hwfchild.1 hcur rfl rfl
                (resolved_of_no_null hguard)
            rw [htodo2, htd] at hstep
            simp only [List.tail_cons, StepRes.snext.injEq] at hstep
            refine ⟨L2, ?_, ?_, ?_⟩
            · rcases hor with hh | hh
              · exact ⟨[], by simp [hh]⟩
              · exact ⟨[.rarray (es.map (offsetOf st.objTable))], hh⟩
            · rw [← hstep]
              exact inv_set_todo hInv2 hrest
            · intro p off hp
              rw [← hstep]
              show lookupTbl (saveMaxSharing st curr
                (.rarray (es.map (offsetOf st.objTable)))
                (rsize (.rarray (es.map (offsetOf st.objTable))))).objTable p = some off
              rw [htbl2]
              exact lookupTbl_mono hcur hp
        | .hthunk v, hstep =>
          change popIf (insertThunk st curr v) = StepRes.snext st2 at hstep
          have hvc : v ∈ hchildren (HObj.hthunk v) := by simp [hchildren]
          rcases toOffset_cases hInv v with ⟨hs, htv, hnn, hoo⟩ |
            ⟨off, hs, hfnd, htv, hnn, hoo⟩ | ⟨hs, hfnd, htv⟩
          · have himg : image st.objTable (HObj.hthunk v) = some (.rthunk v) := by
              simp [image, offsetOf, hs]
            have hic : insertThunk st curr v = (true,
                saveMaxSharing st curr (.rthunk v) (rsize (.rthunk v))) := by
              simp only [insertThunk, htv]
              rw [if_neg hnn]
              rfl
            rw [hic] at hstep
            simp only [popIf] at hstep
            obtain ⟨L2, off2, hor, hInv2, htbl2, htodo2, hlay2⟩ :=
              saveMaxSharing_preserve
                hInv hobj rfl hwfchild.1 hcur himg rfl
                (by intro c hc hcs
                    simp [hchildren] at hc
                    subst hc
                    rw [hcs] at hs
                    simp at hs)
            rw [htodo2, htd] at hstep
            simp only [List.tail_cons, StepRes.snext.injEq] at hstep
            refine ⟨L2, ?_, ?_, ?_⟩
            · rcases hor with hh | hh
              · exact ⟨[], by simp [hh]⟩
              · exact ⟨[.rthunk v], hh⟩
            · rw [← hstep]
              exact inv_set_todo hInv2 hrest
            · intro p off hp
              rw [← hstep]
              show lookupTbl (saveMaxSharing st curr (.rthunk v)
                (rsize (.rthunk v))).objTable p = some off
              rw [htbl2]
              exact lookupTbl_mono hcur hp
          · have himg : image st.objTable (HObj.hthunk v) = some (.rthunk off) := by
              simp [image, offsetOf, hs, hfnd]
            have hic : insertThunk st curr v = (true,
                saveMaxSharing st curr (.rthunk off) (rsize (.rthunk off))) := by
              simp only [insertThunk, htv]
              rw [if_neg hnn]
              rfl
            rw [hic] at hstep
            simp only [popIf] at hstep
            obtain ⟨L2, off2, hor, hInv2, htbl2, htodo2, hlay2⟩ :=
              saveMaxSharing_preserve
                hInv hobj rfl hwfchild.1 hcur himg rfl
                (by intro c hc hcs
                    simp [hchildren] at hc
                    subst hc
                    rw [hfnd]
                    rfl)
            rw [htodo2, htd] at hstep
            simp only [List.tail_cons, StepRes.snext.injEq] at hstep
            refine ⟨L2, ?_, ?_, ?_⟩
            · rcases hor with hh | hh
              · exact ⟨[], by simp [hh]⟩
              · exact ⟨[.rthunk off], hh⟩
            · rw [← hstep]
              exact inv_set_todo hInv2 hrest
            · intro p off2 hp
              rw [← hstep]
              show lookupTbl (saveMaxSharing st curr (.rthunk off)
                (rsize (.rthunk off))).objTable p = some off2
              rw [htbl2]
              exact lookupTbl_mono hcur hp
          · have hic : insertThunk st curr v = (false, { st with todo := v :: st.todo }) := by
              simp only [insertThunk, htv]
              simp
            rw [hic] at hstep
            simp only [popIf, StepRes.snext.injEq] at hstep
            refine ⟨L, ⟨[], by simp⟩, ?_, fun p off hp => by rw [← hstep]; exact hp⟩
            rw [← hstep]
            apply inv_set_todo hInv
            intro q hq
            rcases List.mem_cons.mp hq with hm | hm
            · subst hm
              exact ⟨hs, hwfchild.2 q hvc hs⟩
            · exact hInv.htodo q hm
        | .htask v, hstep =>
          change popIf (insertTask st curr v) = StepRes.snext st2 at hstep
          have hvc : v ∈ hchildren (HObj.htask v) := by simp [hchildren]
          rcases toOffset_cases hInv v with ⟨hs, htv, hnn, hoo⟩ |
            ⟨off, hs, hfnd, htv, hnn, hoo⟩ | ⟨hs, hfnd, htv⟩
          · have himg : image st.objTable (HObj.htask v) = some (.rthunk v) := by
              simp [image, offsetOf, hs]
            have hic : insertTask st curr v = (true,
                saveMaxSharing st curr (.rthunk v) (rsize (.rthunk v))) := by
              simp only [insertTask, htv]
              rw [if_neg hnn]
              rfl
            rw [hic] at hstep
            simp only [popIf] at hstep
            obtain ⟨L2, off2, hor, hInv2, htbl2, htodo2, hlay2⟩ :=
              saveMaxSharing_preserve
                hInv hobj rfl hwfchild.1 hcur himg rfl
                (by intro c hc hcs
                    simp [hchildren] at hc
                    subst hc
                    rw [hcs] at hs
                    simp at hs)
            rw [htodo2, htd] at hstep
            simp only [List.tail_cons, StepRes.snext.injEq] at hstep
            refine ⟨L2, ?_, ?_, ?_⟩
            · rcases hor with hh | hh
              · exact ⟨[], by simp [hh]⟩
              · exact ⟨[.rthunk v], hh⟩
            · rw [← hstep]
              exact inv_set_todo hInv2 hrest
            · intro p off hp
              rw [← hstep]
              show lookupTbl (saveMaxSharing st curr (.rthunk v)
                (rsize (.rthunk v))).objTable p = some off
              rw [htbl2]
              exact lookupTbl_mono hcur hp
          · have himg : image st.objTable (HObj.htask v) = some (.rthunk off) := by
              simp [image, offsetOf, hs, hfnd]
            have hic : insertTask st curr v = (true,
                saveMaxSharing st curr (.rthunk off) (rsize (.rthunk off))) := by
              simp only [insertTask, htv]
              rw [if_neg hnn]
              rfl
            rw [hic] at hstep
            simp only [popIf] at hstep
            obtain ⟨L2, off2, hor, hInv2, htbl2, htodo2, hlay2⟩ :=
              saveMaxSharing_preserve
                hInv hobj rfl hwfchild.1 hcur himg rfl
                (by intro c hc hcs
                    simp [hchildren] at hc
                    subst hc
                    rw [hfnd]
                    rfl)
            rw [htodo2, htd] at hstep
            simp only [List.tail_cons, StepRes.snext.injEq] at hstep
            refine ⟨L2, ?_, ?_, ?_⟩
            · rcases hor with hh | hh
              · exact ⟨[], by simp [hh]⟩
              · exact ⟨[.rthunk off], hh⟩
            · rw [← hstep]
              exact inv_set_todo hInv2 hrest
            · intro p off2 hp
              rw [← hstep]
              show lookupTbl (saveMaxSharing st curr (.rthunk off)
                (rsize (.rthunk off))).objTable p = some off2
              rw [htbl2]
              exact lookupTbl_mono hcur hp
          · have hic : insertTask st curr v = (false, { st with todo := v :: st.todo }) := by
              simp only [insertTask, htv]
              simp
            rw [hic] at hstep
            simp only [popIf, StepRes.snext.injEq] at hstep
            refine ⟨L, ⟨[], by simp⟩, ?_, fun p off hp => by rw [← hstep]; exact hp⟩
            rw [← hstep]
            apply inv_set_todo hInv
            intro q hq
            rcases List.mem_cons.mp hq with hm | hm
            · subst hm
              exact ⟨hs, hwfchild.2 q hvc hs⟩
            · exact hInv.htodo q hm
        | .href v, hstep =>
          change popIf (insertRef st curr v) = StepRes.snext st2 at hstep
          have hvc : v ∈ hchildren (HObj.href v) := by simp [hchildren]
          rcases toOffset_cases hInv v with ⟨hs, htv, hnn, hoo⟩ |
            ⟨off, hs, hfnd, htv, hnn, hoo⟩ | ⟨hs, hfnd, htv⟩
          · have himg : image st.objTable (HObj.href v) = some (.rref v) := by
              simp [image, offsetOf, hs]
            have hic : insertRef st curr v = (true,
                saveMaxSharing st curr (.rref v) (rsize (.rref v))) := by
              simp only [insertRef, htv]
              rw [if_neg hnn]
              rfl
            rw [hic] at hstep
            simp only [popIf] at hstep
            obtain ⟨L2, off2, hor, hInv2, htbl2, htodo2, hlay2⟩ :=
              saveMaxSharing_preserve
                hInv hobj rfl hwfchild.1 hcur himg rfl
                (by intro c hc hcs
                    simp [hchildren] at hc
                    subst hc
                    rw [hcs] at hs
                    simp at hs)
            rw [htodo2, htd] at hstep
            simp only [List.tail_cons, StepRes.snext.injEq] at hstep
            refine ⟨L2, ?_, ?_, ?_⟩
            · rcases hor with hh | hh
              · exact ⟨[], by simp [hh]⟩
              · exact ⟨[.rref v], hh⟩
            · rw [← hstep]
              exact inv_set_todo hInv2 hrest
            · intro p off hp
              rw [← hstep]
              show lookupTbl (saveMaxSharing st curr (.rref v)
                (rsize (.rref v))).objTable p = some off
              rw [htbl2]
              exact lookupTbl_mono hcur hp
          · have himg : image st.objTable (HObj.href v) = some (.rref off) := by
              simp [image, offsetOf, hs, hfnd]
            have hic : insertRef st curr v = (true,
                saveMaxSharing st curr (.rref off) (rsize (.rref off))) := by
              simp only [insertRef, htv]
              rw [if_neg hnn]
              rfl
            rw [hic] at hstep
            simp only [popIf] at hstep
            obtain ⟨L2, off2, hor, hInv2, htbl2, htodo2, hlay2⟩ :=
              saveMaxSharing_preserve
                hInv hobj rfl hwfchild.1 hcur himg rfl
                (by intro c hc hcs
                    simp [hchildren] at hc
                    subst hc
                    rw [hfnd]
                    rfl)
            rw [htodo2, htd] at hstep
            simp only [List.tail_cons, StepRes.snext.injEq] at hstep
            refine ⟨L2, ?_, ?_, ?_⟩
            · rcases hor with hh | hh
              · exact ⟨[], by simp [hh]⟩
              · exact ⟨[.rref off], hh⟩
            · rw [← hstep]
              exact inv_set_todo hInv2 hrest
            · intro p off2 hp
              rw [← hstep]
              show lookupTbl (saveMaxSharing st curr (.rref off)
                (rsize (.rref off))).objTable p = some off2
              rw [htbl2]
              exact lookupTbl_mono hcur hp
          · have hic : insertRef st curr v = (false, { st with todo := v :: st.todo }) := by
              simp only [insertRef, htv]
              simp
            rw [hic] at hstep
            simp only [popIf, StepRes.snext.injEq] at hstep
            refine ⟨L, ⟨[], by simp⟩, ?_, fun p off hp => by rw [← hstep]; exact hp⟩
            rw [← hstep]
            apply inv_set_todo hInv
            intro q hq
            rcases List.mem_cons.mp hq with hm | hm
            · subst hm
              exact ⟨hs, hwfchild.2 q hvc hs⟩
            · exact hInv.htodo q hm

theorem popIf_ne_done (p : Bool × CState) : popIf p ≠ .sdone := by
  obtain ⟨b, stx⟩ := p
  cases b <;> simp [popIf]

theorem popIf_ne_fail (p : Bool × CState) : popIf p ≠ .sfail := by
  obtain ⟨b, stx⟩ := p
  cases b <;> simp [popIf]

theorem step_done_todo {h : Heap} {st : CState} (hstep : compactStep h st = .sdone) :
    st.todo = [] := by
  match htd : st.todo with
  | [] => rfl
  | curr :: rest =>
    exfalso
    simp only [compactStep, htd] at hstep
    split at hstep
    · simp at hstep
    · match hobj : lookupH h curr with
      | none => rw [hobj] at hstep; simp at hstep
      | some obj =>
        rw [hobj] at hstep
        cases obj <;>
          first
          | exact popIf_ne_done _ hstep
          | simp at hstep

theorem step_progress {h : Heap} {st : CState} {L : List RObj}
    (hser : heapSerializable h) (hInv : Inv h st L) :
    compactStep h st ≠ .sfail := by
  intro hstep
  match htd : st.todo with
  | [] => simp [compactStep, htd] at hstep
  | curr :: rest =>
    have hcurp := hInv.htodo curr (by rw [htd]; simp)
    simp only [compactStep, htd] at hstep
    split at hstep
    · simp at hstep
    · match hobj : lookupH h curr with
      | none =>
        have hcs := hcurp.2
        rw [hobj] at hcs
        simp at hcs
      | some obj =>
        rw [hobj] at hstep
        have hso : serializable obj = true := hser (curr, obj) (lookupH_mem hobj)
        cases obj <;>
          first
          | exact popIf_ne_fail _ hstep
          | exact StepRes.noConfusion hstep
          | simp [serializable] at hso

theorem saveMaxSharing_objTable (st : CState) (o : Nat) (ro : RObj) (sz : Nat) :
    ∃ off, (saveMaxSharing st o ro sz).objTable = (o, off) :: st.objTable ∧
      (saveMaxSharing st o ro sz).todo = st.todo := by
  simp only [saveMaxSharing, saveTbl]
  split
  · exact ⟨_, rfl, rfl⟩
  · exact ⟨_, rfl, rfl⟩

theorem null_in_map_filter {h : Heap} {st : CState} {L : List RObj} (hInv : Inv h st L)
    {cs : List Nat}
    (hc : (cs.map (offsetOf st.objTable)).contains nullOffset = true) :
    cs.filter (missingC st.objTable) ≠ [] := by
  have hmem : nullOffset ∈ cs.map (offsetOf st.objTable) := by
    simpa using hc
  rw [List.mem_map] at hmem
  obtain ⟨f, hf, hfo⟩ := hmem
  have hmc : missingC st.objTable f = true := by
    by_cases hs : isScalar f
    · exfalso
      unfold offsetOf at hfo
      rw [if_pos hs] at hfo
      exact scalar_ne_null hs hfo
    · rw [Bool.not_eq_true] at hs
      match hlf : lookupTbl st.objTable f with
      | some off =>
        exfalso
        unfold offsetOf at hfo
        rw [if_neg (by simp [hs]), hlf] at hfo
        exact table_off_ne_null hInv hlf hfo
      | none =>
        simp [missingC, hs, hlf]
  intro hemp
  have : f ∈ cs.filter (missingC st.objTable) := by
    rw [List.mem_filter]
    exact ⟨hf, hmc⟩
  rw [hemp] at this
  simp at this

/-- Shape of a successful work-stack iteration: pop a visited object,
emit the top (entering it into the visited table), or push the missing
children of the top back on the stack on top of it. -/
theorem step_shape {h : Heap} {st st3 : CState} {L : List RObj} (hInv : Inv h st L)
    (hstep : compactStep h st = .snext st3) :
    ∃ curr rest, st.todo = curr :: rest ∧
      (((lookupTbl st.objTable curr).isSome = true ∧ st3 = { st with todo := rest }) ∨
       (∃ off, lookupTbl st.objTable curr = none ∧
         st3.objTable = (curr, off) :: st.objTable ∧ st3.todo = rest) ∨
       (∃ pushed, pushed ≠ [] ∧ lookupTbl st.objTable curr = none ∧
         st3 = { st with todo := pushed ++ curr :: rest } ∧
         ∃ obj, lookupH h curr = some obj ∧
           (∀ c ∈ pushed, c ∈ hchildren obj ∧
             isScalar c = false ∧ lookupTbl st.objTable c = none) ∧
           ∀ c ∈ hchildren obj, isScalar c = false →
             lookupTbl st.objTable c = none → c ∈ pushed)) := by
  match htd : st.todo with
  | [] => simp [compactStep, htd] at hstep
  | curr :: rest =>
    refine ⟨curr, rest, rfl, ?_⟩
    by_cases hvis : (lookupTbl st.objTable curr).isSome = true
    · simp only [compactStep, htd, hvis, if_true] at hstep
      cases hstep
      exact Or.inl ⟨hvis, rfl⟩
    · have hcur : lookupTbl st.objTable curr = none := by
        rw [Option.not_isSome_iff_eq_none] at hvis
        exact hvis
      have hvisf : (lookupTbl st.objTable curr).isSome = false := by
        rw [hcur]; rfl
      match hobj : lookupH h curr with
      | none =>
        simp only [compactStep, htd, hvisf, Bool.false_eq_true, if_false, hobj] at hstep
        exact StepRes.noConfusion hstep
      | some obj =>
        simp only [compactStep, htd, hvisf, Bool.false_eq_true, if_false, hobj] at hstep
        cases obj with
        | hclosure => exact StepRes.noConfusion hstep
        | hexternal => exact StepRes.noConfusion hstep
        | hsarray esz szn data =>
          simp only [StepRes.snext.injEq] at hstep
          obtain ⟨off, hot, _⟩ := saveMaxSharing_objTable st curr (.rsarray esz szn data)
            (24 + esz * szn)
          refine Or.inr (Or.inl ⟨off, hcur, ?_, ?_⟩) <;> rw [← hstep]
          exact hot
        | hstr len data =>
          simp only [StepRes.snext.injEq] at hstep
          obtain ⟨off, hot, _⟩ := saveMaxSharing_objTable st curr (.rstr len data)
            (32 + data.length)
          refine Or.inr (Or.inl ⟨off, hcur, ?_, ?_⟩) <;> rw [← hstep]
          exact hot
        | hmpz v =>
          simp only [StepRes.snext.injEq] at hstep
          refine Or.inr (Or.inl ⟨bufBytes st, hcur, ?_, ?_⟩) <;> rw [← hstep]
          rfl
        | hctor t fs sp =>
          change popIf (insertConstructor st curr t fs sp) = StepRes.snext st3 at hstep
          by_cases hguard : (fs.map (offsetOf st.objTable)).contains nullOffset = true
          · have hic : insertConstructor st curr t fs sp = (false,
                { st with todo := (fs.filter (missingC st.objTable)).reverse ++ st.todo }) := by
              unfold insertConstructor
              rw [resolveChildren_spec]
              simp only [hguard, if_true]
            rw [hic] at hstep
            simp only [popIf, StepRes.snext.injEq] at hstep
            refine Or.inr (Or.inr ⟨(fs.filter (missingC st.objTable)).reverse, ?_, hcur,
              ?_, .hctor t fs sp, rfl, ?_, ?_⟩)
            · simp [null_in_map_filter hInv hguard]
            · rw [← hstep, htd]
            · intro c hcm
              rw [List.mem_reverse, List.mem_filter] at hcm
              have hmc := hcm.2
              simp only [missingC, Bool.and_eq_true, Bool.not_eq_true',
                Option.isNone_iff_eq_none] at hmc
              exact ⟨by simpa [hchildren] using hcm.1, hmc.1, hmc.2⟩
            · intro c hcc hcs2 hcn
              rw [List.mem_reverse, List.mem_filter]
              refine ⟨by simpa [hchildren] using hcc, ?_⟩
              simp [missingC, hcs2, hcn]
          · rw [Bool.not_eq_true] at hguard
            have hfilter : fs.filter (missingC st.objTable) = [] :=
              no_missing_of_no_null hguard
            have hr2eta : ({ st with
                todo := (fs.filter (missingC st.objTable)).reverse ++ st.todo } : CState)
                = st := by
              rw [hfilter]
              simp
            have hic : insertConstructor st curr t fs sp = (true,
                saveMaxSharing st curr (.rctor t (fs.map (offsetOf st.objTable)) sp)
                  (8 + 8 * fs.length + sp.length)) := by
              unfold insertConstructor
              rw [resolveChildren_spec]
              simp only [hguard, Bool.false_eq_true, if_false, hr2eta]
            rw [hic] at hstep
            simp only [popIf] at hstep
            obtain ⟨off, hot, htd2⟩ := saveMaxSharing_objTable st curr
              (.rctor t (fs.map (offsetOf st.objTable)) sp) (8 + 8 * fs.length + sp.length)
            rw [htd2, htd] at hstep
            simp only [List.tail_cons, StepRes.snext.injEq] at hstep
            refine Or.inr (Or.inl ⟨off, hcur, ?_, ?_⟩) <;> rw [← hstep]
            exact hot
        | harray es =>
          change popIf (insertArray st curr es) = StepRes.snext st3 at hstep
          by_cases hguard : (es.map (offsetOf st.objTable)).contains nullOffset = true
          · have hic : insertArray st curr es = (false,
                { st with todo := (es.filter (missingC st.objTable)).reverse ++ st.todo }) := by
              unfold insertArray
              rw [resolveChildren_spec]
              simp only [hguard, if_true]
            rw [hic] at hstep
            simp only [popIf, StepRes.snext.injEq] at hstep
            refine Or.inr (Or.inr ⟨(es.filter (missingC st.objTable)).reverse, ?_, hcur,
              ?_, .harray es, rfl, ?_, ?_⟩)
            · simp [null_in_map_filter hInv hguard]
            · rw [← hstep, htd]
            · intro c hcm
              rw [List.mem_reverse, List.mem_filter] at hcm
              have hmc := hcm.2
              simp only [missingC, Bool.and_eq_true, Bool.not_eq_true',
                Option.isNone_iff_eq_none] at hmc
              exact ⟨by simpa [hchildren] using hcm.1, hmc.1, hmc.2⟩
            · intro c hcc hcs2 hcn
              rw [List.mem_reverse, List.mem_filter]
              refine ⟨by simpa [hchildren] using hcc, ?_⟩
              simp [missingC, hcs2, hcn]
          · rw [Bool.not_eq_true] at hguard
            have hfilter : es.filter (missingC st.objTable) = [] :=
              no_missing_of_no_null hguard
            have hr2eta : ({ st with
                todo := (es.filter (missingC st.objTable)).reverse ++ st.todo } : CState)
                = st := by
              rw [hfilter]
              simp
            have hic : insertArray st curr es = (true,
                saveMaxSharing st curr (.rarray (es.map (offsetOf st.objTable)))
                  (24 + 8 * es.length)) := by
              unfold insertArray
              rw [resolveChildren_spec]
              simp only [hguard, Bool.false_eq_true, if_false, hr2eta]
            rw [hic] at hstep
            simp only [popIf] at hstep
            obtain ⟨off, hot, htd2⟩ := saveMaxSharing_objTable st curr
              (.rarray (es.map (offsetOf st.objTable))) (24 + 8 * es.length)
            rw [htd2, htd] at hstep
            simp only [List.tail_cons, StepRes.snext.injEq] at hstep
            refine Or.inr (Or.inl ⟨off, hcur, ?_, ?_⟩) <;> rw [← hstep]
            exact hot
        | hthunk v =>
          change popIf (insertThunk st curr v) = StepRes.snext st3 at hstep
          rcases toOffset_cases hInv v with ⟨hs, htv, hnn, hoo⟩ |
            ⟨voff, hs, hfnd, htv, hnn, hoo⟩ | ⟨hs, hfnd, htv⟩
          · have hic : insertThunk st curr v = (true,
                saveMaxSharing st curr (.rthunk v) 24) := by
              simp only [insertThunk, htv]
              rw [if_neg hnn]
            rw [hic] at hstep
            simp only [popIf] at hstep
            obtain ⟨off, hot, htd2⟩ := saveMaxSharing_objTable st curr (.rthunk v) 24
            rw [htd2, htd] at hstep
            simp only [List.tail_cons, StepRes.snext.injEq] at hstep
            refine Or.inr (Or.inl ⟨off, hcur, ?_, ?_⟩) <;> rw [← hstep]
            exact hot
          · have hic : insertThunk st curr v = (true,
                saveMaxSharing st curr (.rthunk voff) 24) := by
              simp only [insertThunk, htv]
              rw [if_neg hnn]
            rw [hic] at hstep
            simp only [popIf] at hstep
            obtain ⟨off, hot, htd2⟩ := saveMaxSharing_objTable st curr (.rthunk voff) 24
            rw [htd2, htd] at hstep
            simp only [List.tail_cons, StepRes.snext.injEq] at hstep
            refine Or.inr (Or.inl ⟨off, hcur, ?_, ?_⟩) <;> rw [← hstep]
            exact hot
          · have hic : insertThunk st curr v = (false,
                { st with todo := v :: st.todo }) := by
              simp only [insertThunk, htv]
              simp
            rw [hic] at hstep
            simp only [popIf, StepRes.snext.injEq] at hstep
            refine Or.inr (Or.inr ⟨[v], by simp, hcur, ?_, .hthunk v, rfl, ?_, ?_⟩)
            · rw [← hstep, htd]
              rfl
            · intro c hcm
              simp only [List.mem_singleton] at hcm
              subst hcm
              exact ⟨by simp [hchildren], hs, hfnd⟩
            · intro c hcc _ _
              simpa [hchildren] using hcc
        | htask v =>
          change popIf (insertTask st curr v) = StepRes.snext st3 at hstep
          rcases toOffset_cases hInv v with ⟨hs, htv, hnn, hoo⟩ |
            ⟨voff, hs, hfnd, htv, hnn, hoo⟩ | ⟨hs, hfnd, htv⟩
          · have hic : insertTask st curr v = (true,
                saveMaxSharing st curr (.rthunk v) 24) := by
              simp only [insertTask, htv]
              rw [if_neg hnn]
            rw [hic] at hstep
            simp only [popIf] at hstep
            obtain ⟨off, hot, htd2⟩ := saveMaxSharing_objTable st curr (.rthunk v) 24
            rw [htd2, htd] at hstep
            simp only [List.tail_cons, StepRes.snext.injEq] at hstep
            refine Or.inr (Or.inl ⟨off, hcur, ?_, ?_⟩) <;> rw [← hstep]
            exact hot
          · have hic : insertTask st curr v = (true,
                saveMaxSharing st curr (.rthunk voff) 24) := by
              simp only [insertTask, htv]
              rw [if_neg hnn]
            rw [hic] at hstep
            simp only [popIf] at hstep
            obtain ⟨off, hot, htd2⟩ := saveMaxSharing_objTable st curr (.rthunk voff) 24
            rw [htd2, htd] at hstep
            simp only [List.tail_cons, StepRes.snext.injEq] at hstep
            refine Or.inr (Or.inl ⟨off, hcur, ?_, ?_⟩) <;> rw [← hstep]
            exact hot
          · have hic : insertTask st curr v = (false,
                { st with todo := v :: st.todo }) := by
              simp only [insertTask, htv]
              simp
            rw [hic] at hstep
            simp only [popIf, StepRes.snext.injEq] at hstep
            refine Or.inr (Or.inr ⟨[v], by simp, hcur, ?_, .htask v, rfl, ?_, ?_⟩)
            · rw [← hstep, htd]
              rfl
            · intro c hcm
              simp only [List.mem_singleton] at hcm
              subst hcm
              exact ⟨by simp [hchildren], hs, hfnd⟩
            · intro c hcc _ _
              simpa [hchildren] using hcc
        | href v =>
          change popIf (insertRef st curr v) = StepRes.snext st3 at hstep
          rcases toOffset_cases hInv v with ⟨hs, htv, hnn, hoo⟩ |
            ⟨voff, hs, hfnd, htv, hnn, hoo⟩ | ⟨hs, hfnd, htv⟩
          · have hic : insertRef st curr v = (true,
                saveMaxSharing st curr (.rref v) 16) := by
              simp only [insertRef, htv]
              rw [if_neg hnn]
            rw [hic] at hstep
            simp only [popIf] at hstep
            obtain ⟨off, hot, htd2⟩ := saveMaxSharing_objTable st curr (.rref v) 16
            rw [htd2, htd] at hstep
            simp only [List.tail_cons, StepRes.snext.injEq] at hstep
            refine Or.inr (Or.inl ⟨off, hcur, ?_, ?_⟩) <;> rw [← hstep]
            exact hot
          · have hic : insertRef st curr v = (true,
                saveMaxSharing st curr (.rref voff) 16) := by
              simp only [insertRef, htv]
              rw [if_neg hnn]
            rw [hic] at hstep
            simp only [popIf] at hstep
            obtain ⟨off, hot, htd2⟩ := saveMaxSharing_objTable st curr (.rref voff) 16
            rw [htd2, htd] at hstep
            simp only [List.tail_cons, StepRes.snext.injEq] at hstep
            refine Or.inr (Or.inl ⟨off, hcur, ?_, ?_⟩) <;> rw [← hstep]
            exact hot
          · have hic : insertRef st curr v = (false,
                { st with todo := v :: st.todo }) := by
              simp only [insertRef, htv]
              simp
            rw [hic] at hstep
            simp only [popIf, StepRes.snext.injEq] at hstep
            refine Or.inr (Or.inr ⟨[v], by simp, hcur, ?_, .href v, rfl, ?_, ?_⟩)
            · rw [← hstep, htd]
              rfl
            · intro c hcm
              simp only [List.mem_singleton] at hcm
              subst hcm
              exact ⟨by simp [hchildren], hs, hfnd⟩
            · intro c hcc _ _
              simpa [hchildren] using hcc

theorem inv_init (h : Heap) : Inv h initState [] where
  hbuf := rfl
  hwfl := by intro pr hpr; simp [entries, entriesAux] at hpr
  htbl := by intro p off hp; simp [initState, lookupTbl] at hp
  hchild := by intro pr hpr; simp [entries, entriesAux] at hpr
  hsh1 := by intro k hk; simp [initState] at hk
  hsh2 := by intro pr hpr; simp [entries, entriesAux] at hpr
  hsh3 := by intro k1 hk1; simp [initState] at hk1
  htodo := by intro q hq; simp [initState] at hq

theorem stepN_trans {h : Heap} : ∀ {m n : Nat} {st st1 st2 : CState},
    stepN h m st = some st1 → stepN h n st1 = some st2 →
    stepN h (m + n) st = some st2 := by
  intro m
  induction m with
  | zero =>
    intro n st st1 st2 h1 h2
    simp only [stepN, Option.some.injEq] at h1
    rw [Nat.zero_add, h1]
    exact h2
  | succ m ih =>
    intro n st st1 st2 h1 h2
    rw [Nat.succ_add]
    match hcs : compactStep h st with
    | .snext st3 =>
      simp only [stepN, hcs] at h1 ⊢
      exact ih h1 h2
    | .sdone => simp only [stepN, hcs] at h1; exact Option.noConfusion h1
    | .sfail => simp only [stepN, hcs] at h1; exact Option.noConfusion h1

theorem stepN_preserve {h : Heap} (hOK : heapOK h) :
    ∀ {n : Nat} {st st2 : CState} {L : List RObj}, Inv h st L →
    stepN h n st = some st2 →
    ∃ L2, (∃ ext, L2 = L ++ ext) ∧ Inv h st2 L2 ∧
      ∀ p off, lookupTbl st.objTable p = some off →
        lookupTbl st2.objTable p = some off := by
  intro n
  induction n with
  | zero =>
    intro st st2 L hInv h1
    simp only [stepN, Option.some.injEq] at h1
    subst h1
    exact ⟨L, ⟨[], by simp⟩, hInv, fun p off hp => hp⟩
  | succ n ih =>
    intro st st2 L hInv h1
    match hcs : compactStep h st with
    | .sdone => simp only [stepN, hcs] at h1; exact Option.noConfusion h1
    | .sfail => simp only [stepN, hcs] at h1; exact Option.noConfusion h1
    | .snext st3 =>
      simp only [stepN, hcs] at h1
      obtain ⟨L3, ⟨e1, hL3⟩, hInv3, hm1⟩ := step_preserve hOK hInv hcs
      obtain ⟨L2, ⟨e2, hL2⟩, hInv2, hm2⟩ := ih hInv3 h1
      exact ⟨L2, ⟨e1 ++ e2, by rw [hL2, hL3, List.append_assoc]⟩, hInv2,
        fun p off hp => hm2 p off (hm1 p off hp)⟩

/-- Processing the top of the work stack: after finitely many
iterations the top is recorded in the visited table and removed from
the stack, with the table only growing.  Strong induction on the rank
of the top. -/
theorem visit_top {h : Heap} {rank : Nat → Nat} (hOK : heapOK h)
    (hser : heapSerializable h) (hrk : rankOk h rank) :
    ∀ r : Nat, ∀ st : CState, ∀ L : List RObj, ∀ curr : Nat, ∀ rest : List Nat,
      Inv h st L → st.todo = curr :: rest → rank curr ≤ r →
      ∃ n st2, stepN h n st = some st2 ∧ st2.todo = rest ∧
        (lookupTbl st2.objTable curr).isSome = true ∧
        ∀ p off, lookupTbl st.objTable p = some off →
          lookupTbl st2.objTable p = some off := by
  intro r
  induction r using Nat.strong_induction_on with
  | _ r IH =>
    intro st L curr rest hInv htd hrank
    match hcs : compactStep h st with
    | .sdone =>
      have h0 := step_done_todo hcs
      rw [htd] at h0
      exact absurd h0 (by simp)
    | .sfail => exact absurd hcs (step_progress hser hInv)
    | .snext st3 =>
      obtain ⟨curr2, rest2, htd2, hcase⟩ := step_shape hInv hcs
      rw [htd] at htd2
      injection htd2 with hce hre
      subst hce
      subst hre
      have hone : stepN h 1 st = some st3 := by simp [stepN, hcs]
      rcases hcase with ⟨hvis, hst3⟩ | ⟨off, hcur, hot3, htd3⟩ |
        ⟨pushed, hne, hcur, hst3, obj, hobj, hprop, hcomp⟩
      · refine ⟨1, st3, hone, ?_, ?_, fun p off hp => ?_⟩
        · rw [hst3]
        · rw [hst3]; exact hvis
        · rw [hst3]; exact hp
      · refine ⟨1, st3, hone, htd3, ?_, fun p off2 hp => ?_⟩
        · rw [hot3, lookupTbl_cons]; simp
        · rw [hot3]; exact lookupTbl_mono hcur hp
      · obtain ⟨L3, ⟨e1, hL3⟩, hInv3, hm1⟩ := step_preserve hOK hInv hcs
        have hmem := lookupH_mem hobj
        have hrkp : ∀ c ∈ pushed, rank c < r := by
          intro c hc
          have h1 := (hprop c hc).1
          have h2 := (hprop c hc).2.1
          have h3 : rank c < rank curr := hrk (curr, obj) hmem c h1 h2
          omega
        have clear : ∀ ps : List Nat, (∀ c ∈ ps, rank c < r) →
            ∀ tail : List Nat, ∀ st4 : CState, ∀ L4 : List RObj, Inv h st4 L4 →
            st4.todo = ps ++ tail →
            ∃ n st5, stepN h n st4 = some st5 ∧ st5.todo = tail ∧
              (∀ c ∈ ps, (lookupTbl st5.objTable c).isSome = true) ∧
              ∀ p off, lookupTbl st4.objTable p = some off →
                lookupTbl st5.objTable p = some off := by
          intro ps
          induction ps with
          | nil =>
            intro _ tail st4 L4 hI ht
            exact ⟨0, st4, rfl, by simpa using ht, by simp, fun p off hp => hp⟩
          | cons c ps ihp =>
            intro hrks tail st4 L4 hI ht
            obtain ⟨n1, st5, hs1, ht5, hc5, hmm1⟩ :=
              IH (rank c) (hrks c (by simp)) st4 L4 c (ps ++ tail) hI
                (by simpa using ht) le_rfl
            obtain ⟨L5, _, hI5, _⟩ := stepN_preserve hOK hI hs1
            obtain ⟨n2, st6, hs2, ht6, hcs6, hmm2⟩ :=
              ihp (fun c2 hc2 => hrks c2 (by simp [hc2])) tail st5 L5 hI5 ht5
            refine ⟨n1 + n2, st6, stepN_trans hs1 hs2, ht6, ?_,
              fun p off hp => hmm2 p off (hmm1 p off hp)⟩
            intro c2 hc2
            rcases List.mem_cons.mp hc2 with rfl | hc2
            · obtain ⟨o5, ho5⟩ := Option.isSome_iff_exists.mp hc5
              have h6 := hmm2 c2 o5 ho5
              rw [h6]
              rfl
            · exact hcs6 c2 hc2
        have ht3 : st3.todo = pushed ++ (curr :: rest) := by rw [hst3]
        obtain ⟨n2, st5, hs2, ht5, hps5, hm2⟩ :=
          clear pushed hrkp (curr :: rest) st3 L3 hInv3 ht3
        obtain ⟨L5, _, hInv5, _⟩ := stepN_preserve hOK hInv3 hs2
        match hcs5 : compactStep h st5 with
        | .sdone =>
          have h0 := step_done_todo hcs5
          rw [ht5] at h0
          exact absurd h0 (by simp)
        | .sfail => exact absurd hcs5 (step_progress hser hInv5)
        | .snext st6 =>
          obtain ⟨curr3, rest3, htd5, hcase5⟩ := step_shape hInv5 hcs5
          rw [ht5] at htd5
          injection htd5 with hce hre
          subst hce
          subst hre
          have hlast : stepN h 1 st5 = some st6 := by simp [stepN, hcs5]
          have hall : stepN h (1 + (n2 + 1)) st = some st6 :=
            stepN_trans hone (stepN_trans hs2 hlast)
          rcases hcase5 with ⟨hvis5, hst6⟩ | ⟨off, hcur5, hot6, htd6⟩ |
            ⟨pushed2, hne2, hcur5, hst6, obj2, hobj2, hprop2, hcomp2⟩
          · refine ⟨1 + (n2 + 1), st6, hall, by rw [hst6], ?_, fun p off hp => ?_⟩
            · rw [hst6]; exact hvis5
            · rw [hst6]; exact hm2 p off (hm1 p off hp)
          · refine ⟨1 + (n2 + 1), st6, hall, htd6, ?_, fun p off2 hp => ?_⟩
            · rw [hot6, lookupTbl_cons]; simp
            · rw [hot6]; exact lookupTbl_mono hcur5 (hm2 p off2 (hm1 p off2 hp))
          · exfalso
            have hobjeq : obj2 = obj := by
              rw [hobj] at hobj2
              injection hobj2 with e
              exact e.symm
            subst hobjeq
            obtain ⟨c0, hc0⟩ := List.exists_mem_of_ne_nil pushed2 hne2
            obtain ⟨hc0child, hc0s, hc0none⟩ := hprop2 c0 hc0
            match hl0 : lookupTbl st.objTable c0 with
            | some o0 =>
              have h7 := hm2 c0 o0 (hm1 c0 o0 hl0)
              rw [h7] at hc0none
              simp at hc0none
            | none =>
              have hcp : c0 ∈ pushed := hcomp c0 hc0child hc0s hl0
              have h8 := hps5 c0 hcp
              rw [hc0none] at h8
              simp at h8

/-- Clearing the whole work stack by repeated application of visit_top. -/
theorem todo_clears {h : Heap} {rank : Nat → Nat} (hOK : heapOK h)
    (hser : heapSerializable h) (hrk : rankOk h rank) :
    ∀ td : List Nat, ∀ st : CState, ∀ L : List RObj, Inv h st L → st.todo = td →
      ∃ n st2, stepN h n st = some st2 ∧ st2.todo = [] := by
  intro td
  induction td with
  | nil =>
    intro st L hInv ht
    exact ⟨0, st, rfl, ht⟩
  | cons c td ih =>
    intro st L hInv ht
    obtain ⟨n1, st2, hs1, ht2, _, _⟩ :=
      visit_top hOK hser hrk (rank c) st L c td hInv ht le_rfl
    obtain ⟨L2, _, hInv2, _⟩ := stepN_preserve hOK hInv hs1
    obtain ⟨n2, st3, hs2, ht3⟩ := ih st2 L2 hInv2 ht2
    exact ⟨n1 + n2, st3, stepN_trans hs1 hs2, ht3⟩

theorem compactLoop_of_stepN {h : Heap} : ∀ n : Nat, ∀ st st2 : CState,
    stepN h n st = some st2 → st2.todo = [] →
    compactLoop h (n + 1) st = some st2 := by
  intro n
  induction n with
  | zero =>
    intro st st2 h1 h2
    simp only [stepN, Option.some.injEq] at h1
    subst h1
    simp [compactLoop, compactStep, h2]
  | succ n ih =>
    intro st st2 h1 h2
    match hcs : compactStep h st with
    | .sdone => simp only [stepN, hcs] at h1; exact Option.noConfusion h1
    | .sfail => simp only [stepN, hcs] at h1; exact Option.noConfusion h1
    | .snext st3 =>
      simp only [stepN, hcs] at h1
      have h3 := ih st3 st2 h1 h2
      simp only [compactLoop, hcs]
      exact h3

/-! ## Loader sweep lemmas -/

theorem list_set_append_right (pre l : List W) (j : Nat) (w : W) :
    (pre ++ l).set (pre.length + j) w = pre ++ l.set j w := by
  induction pre with
  | nil => simp
  | cons a pre ih =>
    simp only [List.cons_append, List.length_cons]
    have h : a :: pre ++ l = a :: (pre ++ l) := rfl
    rw [show pre.length + 1 + j = (pre.length + j) + 1 by omega]
    simp only [List.set_cons_succ, ih]

theorem setW_shift (pre l : List W) (k : Nat) (w : W) :
    setW (pre ++ l) (8 * pre.length + k) w = pre ++ setW l k w := by
  unfold setW
  have h : (8 * pre.length + k) / 8 = pre.length + k / 8 := by omega
  rw [h, list_set_append_right]

theorem setW_cons0 (a : W) (l : List W) (w : W) : setW (a :: l) 0 w = w :: l := rfl

theorem setW_cons_shift (a : W) (l : List W) (k : Nat) (w : W) :
    setW (a :: l) (8 + k) w = a :: setW l k w := by
  have h := setW_shift [a] l k w
  simpa using h

theorem fixRange_ptrs (base : Nat) : ∀ offs : List Nat, ∀ pre rest : List W,
    fixRange base (pre ++ offs.map W.ptr ++ rest) (8 * pre.length) offs.length =
      some (pre ++ offs.map (fun v => W.ptr (fixPtrV base v)) ++ rest) := by
  intro offs
  induction offs with
  | nil => intro pre rest; rfl
  | cons o os ih =>
    intro pre rest
    show fixRange _ _ _ (os.length + 1) = _
    unfold fixRange
    have hw : wAt (pre ++ (W.ptr o :: os.map W.ptr) ++ rest) (8 * pre.length) =
        some (W.ptr o) := by
      have h0 := wAt_shift pre ((W.ptr o :: os.map W.ptr) ++ rest) 0
      simpa using h0
    simp only [List.map_cons] at hw ⊢
    simp only [hw]
    have hset : setW (pre ++ W.ptr o :: os.map W.ptr ++ rest) (8 * pre.length)
        (W.ptr (fixPtrV base o)) =
        (pre ++ [W.ptr (fixPtrV base o)]) ++ os.map W.ptr ++ rest := by
      have h0 := setW_shift pre (W.ptr o :: (os.map W.ptr ++ rest)) 0
        (W.ptr (fixPtrV base o))
      simp only [Nat.add_zero] at h0
      rw [show pre ++ W.ptr o :: os.map W.ptr ++ rest =
        pre ++ (W.ptr o :: (os.map W.ptr ++ rest)) by simp]
      rw [h0, setW_cons0]
      simp
    rw [hset]
    have hlen : 8 * pre.length + 8 = 8 * (pre ++ [W.ptr (fixPtrV base o)]).length := by
      simp
      omega
    rw [hlen, ih (pre ++ [W.ptr (fixPtrV base o)]) rest]
    congr 1
    simp

theorem wAt_at_index (pre mid post : List W) (j : Nat) (w : W)
    (hj : mid.get? j = some w) :
    wAt (pre ++ mid ++ post) (8 * pre.length + 8 * j) = some w := by
  have hjlt : j < mid.length := by
    by_contra hc
    rw [List.get?_eq_none.mpr (by omega)] at hj
    exact Option.noConfusion hj
  unfold wAt
  have h : (8 * pre.length + 8 * j) / 8 = pre.length + j := by omega
  rw [h, List.append_assoc, List.get?_append_right (by omega)]
  rw [show pre.length + j - pre.length = j by omega]
  rw [List.get?_append hjlt]
  exact hj

/-- One iteration of the fix-up sweep over a well-formed non-terminator
object: the object's pointer slots are rebased in place (for MPZ the
value is resurrected and the nested-mpz chain threaded) and the cursor
advances by the padded allocation size. -/
theorem sweep_step (base head f : Nat) (pre post : List W) (ro : RObj)
    (hwf : wfRObj ro = true) (hterm : isTermR ro = false) :
    sweepLoop base (f + 1) ⟨pre ++ emit ro ++ post, 8 * pre.length, head⟩ =
      sweepLoop base f ⟨pre ++ fixedEmit base head ro ++ post,
        8 * pre.length + pad8 (rsize ro),
        nextHead base (8 * pre.length) head ro⟩ := by
  cases ro with
  | rctor t offs sp =>
    have htag : t ≤ maxCtorTag := by simpa [wfRObj] using hwf
    have hw : wAt (pre ++ emit (.rctor t offs sp) ++ post) (8 * pre.length + 8 * 0) =
        some (W.hdr (8 + 8 * offs.length + sp.length) offs.length t) :=
      wAt_at_index pre _ post 0 _ (by simp [emit])
    simp only [Nat.mul_zero, Nat.add_zero] at hw
    simp only [sweepLoop, hw]
    rw [if_pos htag]
    have hfr : fixRange base (pre ++ emit (.rctor t offs sp) ++ post)
        (8 * pre.length + 8) offs.length =
        some (pre ++ fixedEmit base head (.rctor t offs sp) ++ post) := by
      have h0 := fixRange_ptrs base offs
        (pre ++ [W.hdr (8 + 8 * offs.length + sp.length) offs.length t])
        (packBytes sp ++ post)
      have he : (pre ++ [W.hdr (8 + 8 * offs.length + sp.length) offs.length t]) ++
          offs.map W.ptr ++ (packBytes sp ++ post) =
          pre ++ emit (.rctor t offs sp) ++ post := by
        simp [emit]
      have hl : 8 * (pre ++
          [W.hdr (8 + 8 * offs.length + sp.length) offs.length t]).length =
          8 * pre.length + 8 := by simp; omega
      rw [he, hl] at h0
      rw [h0]
      congr 1
      simp [fixedEmit]
    rw [hfr]
    rfl
  | rarray es =>
    have hw : wAt (pre ++ emit (.rarray es) ++ post) (8 * pre.length + 8 * 0) =
        some (W.hdr 1 0 tagArray) :=
      wAt_at_index pre _ post 0 _ (by simp [emit])
    simp only [Nat.mul_zero, Nat.add_zero] at hw
    have hw1 : wAt (pre ++ emit (.rarray es) ++ post) (8 * pre.length + 8 * 1) =
        some (W.uw es.length) :=
      wAt_at_index pre _ post 1 _ (by simp [emit])
    simp only [Nat.mul_one] at hw1
    simp only [sweepLoop, hw]
    simp only [if_true, hw1]
    have hfr : fixRange base (pre ++ emit (.rarray es) ++ post)
        (8 * pre.length + 24) es.length =
        some (pre ++ fixedEmit base head (.rarray es) ++ post) := by
      have h0 := fixRange_ptrs base es
        (pre ++ [W.hdr 1 0 tagArray, W.uw es.length, W.uw es.length]) post
      have he : (pre ++ [W.hdr 1 0 tagArray, W.uw es.length, W.uw es.length]) ++
          es.map W.ptr ++ post = pre ++ emit (.rarray es) ++ post := by
        simp [emit]
      have hl : 8 * (pre ++
          [W.hdr 1 0 tagArray, W.uw es.length, W.uw es.length]).length =
          8 * pre.length + 24 := by simp; omega
      rw [he, hl] at h0
      rw [h0]
      congr 1
      simp [fixedEmit]
    rw [hfr]
    rfl
  | rsarray esz sz data =>
    have hlen : data.length = esz * sz := by simpa [wfRObj] using hwf
    have hw : wAt (pre ++ emit (.rsarray esz sz data) ++ post) (8 * pre.length + 8 * 0) =
        some (W.hdr 1 esz tagScalarArray) :=
      wAt_at_index pre _ post 0 _ (by simp [emit])
    simp only [Nat.mul_zero, Nat.add_zero] at hw
    have hw1 : wAt (pre ++ emit (.rsarray esz sz data) ++ post) (8 * pre.length + 8 * 1) =
        some (W.uw sz) :=
      wAt_at_index pre _ post 1 _ (by simp [emit])
    simp only [Nat.mul_one] at hw1
    simp only [sweepLoop, hw]
    simp only [if_true, hw1]
    rfl
  | rstr len data =>
    have hw : wAt (pre ++ emit (.rstr len data) ++ post) (8 * pre.length + 8 * 0) =
        some (W.hdr 1 0 tagString) :=
      wAt_at_index pre _ post 0 _ (by simp [emit])
    simp only [Nat.mul_zero, Nat.add_zero] at hw
    have hw1 : wAt (pre ++ emit (.rstr len data) ++ post) (8 * pre.length + 8 * 1) =
        some (W.uw data.length) :=
      wAt_at_index pre _ post 1 _ (by simp [emit])
    simp only [Nat.mul_one] at hw1
    simp only [sweepLoop, hw]
    simp only [if_true, hw1]
    rfl
  | rthunk v =>
    have hw : wAt (pre ++ emit (.rthunk v) ++ post) (8 * pre.length + 8 * 0) =
        some (W.hdr 24 0 tagThunk) :=
      wAt_at_index pre _ post 0 _ (by simp [emit])
    simp only [Nat.mul_zero, Nat.add_zero] at hw
    simp only [sweepLoop, hw]
    simp only [if_true]
    have hfr : fixRange base (pre ++ emit (.rthunk v) ++ post)
        (8 * pre.length + 8) 1 =
        some (pre ++ fixedEmit base head (.rthunk v) ++ post) := by
      have h0 := fixRange_ptrs base [v]
        (pre ++ [W.hdr 24 0 tagThunk]) (W.ptr 0 :: post)
      have he : (pre ++ [W.hdr 24 0 tagThunk]) ++ [v].map W.ptr ++ (W.ptr 0 :: post) =
          pre ++ emit (.rthunk v) ++ post := by
        simp [emit]
      have hl : 8 * (pre ++ [W.hdr 24 0 tagThunk]).length = 8 * pre.length + 8 := by
        simp
        omega
      rw [he, hl] at h0
      rw [show (1 : Nat) = [v].length by rfl, h0]
      congr 1
      simp [fixedEmit]
    rw [hfr]
    rfl
  | rref v =>
    have hw : wAt (pre ++ emit (.rref v) ++ post) (8 * pre.length + 8 * 0) =
        some (W.hdr 16 0 tagRef) :=
      wAt_at_index pre _ post 0 _ (by simp [emit])
    simp only [Nat.mul_zero, Nat.add_zero] at hw
    simp only [sweepLoop, hw]
    simp only [if_true]
    have hfr : fixRange base (pre ++ emit (.rref v) ++ post)
        (8 * pre.length + 8) 1 =
        some (pre ++ fixedEmit base head (.rref v) ++ post) := by
      have h0 := fixRange_ptrs base [v] (pre ++ [W.hdr 16 0 tagRef]) post
      have he : (pre ++ [W.hdr 16 0 tagRef]) ++ [v].map W.ptr ++ post =
          pre ++ emit (.rref v) ++ post := by
        simp [emit]
      have hl : 8 * (pre ++ [W.hdr 16 0 tagRef]).length = 8 * pre.length + 8 := by
        simp
        omega
      rw [he, hl] at h0
      rw [show (1 : Nat) = [v].length by rfl, h0]
      congr 1
      simp [fixedEmit]
    rw [hfr]
    rfl
  | rterm r => simp [isTermR] at hterm
  | rmpz v =>
    have hw : wAt (pre ++ emit (.rmpz v) ++ post) (8 * pre.length + 8 * 0) =
        some (W.hdr (24 + max (mpzStr v).length 8) 0 tagMPZ) :=
      wAt_at_index pre _ post 0 _ (by simp [emit])
    simp only [Nat.mul_zero, Nat.add_zero] at hw
    simp only [sweepLoop, hw]
    simp only [if_true]
    have hsplit := mpzStr_split v
    set s0 := (if v < 0 then [45] else []) ++ natAscii v.natAbs with hs0
    have hscan : scanStr (pre ++ emit (.rmpz v) ++ post) (8 * pre.length + 24)
        (8 * (pre ++ emit (.rmpz v) ++ post).length) = some s0 := by
      apply scanStr_of_bytes s0 _ _ (mpzStr_body_ne_zero v)
      · have h0 := readBytesW_pack (mpzStr v)
          (pre ++ [W.hdr (24 + max (mpzStr v).length 8) 0 tagMPZ, W.uw 0, W.uw 0]) post
        have he : (pre ++ [W.hdr (24 + max (mpzStr v).length 8) 0 tagMPZ,
            W.uw 0, W.uw 0]) ++ packBytes (mpzStr v) ++ post =
            pre ++ emit (.rmpz v) ++ post := by
          simp [emit]
        have hl : 8 * (pre ++ [W.hdr (24 + max (mpzStr v).length 8) 0 tagMPZ,
            W.uw 0, W.uw 0]).length = 8 * pre.length + 24 := by
          simp
          omega
        rw [he, hl] at h0
        rw [show s0.length + 1 = (mpzStr v).length by rw [hsplit]; simp]
        rw [h0, hsplit]
      · have hlb : (mpzStr v).length ≤ 8 * (packBytes (mpzStr v)).length := by
          rw [packBytes_length]
          omega
        have hlen2 : (pre ++ emit (.rmpz v) ++ post).length =
            pre.length + (3 + (packBytes (mpzStr v)).length) + post.length := by
          simp [emit]
          omega
        have hs0l : s0.length + 1 = (mpzStr v).length := by
          rw [hsplit]
          simp
        omega
    simp only [hscan]
    have hset : setW (setW (pre ++ emit (.rmpz v) ++ post)
        (8 * pre.length + 8) (W.mpzv (mpzOfStr s0)))
        (8 * pre.length + 24) (W.ptr head) =
        pre ++ fixedEmit base head (.rmpz v) ++ post := by
      obtain ⟨w0, ws, hpw⟩ : ∃ w0 ws, packBytes (mpzStr v) = w0 :: ws := by
        match hp : packBytes (mpzStr v) with
        | [] =>
          exfalso
          have h1 := @packBytes_ne_nil (mpzStr v) (by simp [mpzStr])
          rw [hp] at h1
          exact List.noConfusion h1
        | w0 :: ws => exact ⟨w0, ws, rfl⟩
      have he : pre ++ emit (.rmpz v) ++ post =
          pre ++ (W.hdr (24 + max (mpzStr v).length 8) 0 tagMPZ :: W.uw 0 :: W.uw 0 ::
            w0 :: (ws ++ post)) := by
        simp [emit, hpw]
      rw [he]
      rw [show 8 * pre.length + 8 = 8 * pre.length + (8 + 0) by omega]
      rw [setW_shift]
      rw [setW_cons_shift, setW_cons0]
      rw [show 8 * pre.length + 24 = 8 * pre.length + (8 + (8 + (8 + 0))) by omega]
      rw [setW_shift, setW_cons_shift, setW_cons_shift, setW_cons_shift, setW_cons0]
      have hval : mpzOfStr s0 = v := mpzOfStr_mpzStr v
      rw [hval]
      simp [fixedEmit, hpw]
    have hs0l : s0.length + 1 = (mpzStr v).length := by
      rw [hsplit]
      simp
    have hpos : 8 * pre.length + 24 + pad8 (max (s0.length + 1) 8) =
        8 * pre.length + pad8 (rsize (.rmpz v)) := by
      simp only [rsize]
      rw [hs0l, show (24 : Nat) + max (mpzStr v).length 8 =
        8 * 3 + max (mpzStr v).length 8 by omega, pad8_add_mul]
      omega
    rw [hset, hpos]
    rfl

theorem sweep_term (base head f r : Nat) (pre post : List W) :
    sweepLoop base (f + 1) ⟨pre ++ emit (.rterm r) ++ post, 8 * pre.length, head⟩ =
      some (fixPtrV base r,
        ⟨pre ++ emit (.rterm r) ++ post, 8 * pre.length + 16, head⟩) := by
  have hw : wAt (pre ++ emit (.rterm r) ++ post) (8 * pre.length + 8 * 0) =
      some (W.hdr 16 0 tagReserved) :=
    wAt_at_index pre _ post 0 _ (by simp [emit])
  simp only [Nat.mul_zero, Nat.add_zero] at hw
  have hw1 : wAt (pre ++ emit (.rterm r) ++ post) (8 * pre.length + 8 * 1) =
      some (W.ptr r) :=
    wAt_at_index pre _ post 1 _ (by simp [emit])
  simp only [Nat.mul_one] at hw1
  simp only [sweepLoop, hw]
  rw [if_neg (by decide), if_neg (by decide), if_neg (by decide), if_neg (by decide),
    if_neg (by decide), if_neg (by decide), if_neg (by decide)]
  simp only [if_true, hw1]

theorem fixedEmit_length (base head : Nat) (ro : RObj) :
    (fixedEmit base head ro).length = (emit ro).length := by
  cases ro <;> simp [fixedEmit, emit]

theorem fixedLayout_length (base : Nat) : ∀ L : List RObj, ∀ head pos : Nat,
    ((fixedLayout base head pos L).1).length = (flatW L).length := by
  intro L
  induction L with
  | nil => intro head pos; rfl
  | cons ro L ih =>
    intro head pos
    simp only [fixedLayout, flatW, List.length_append, fixedEmit_length, ih]

/-- The fix-up sweep over a whole layout of well-formed non-terminator
objects: each object is fixed in place and the cursor ends just past
the layout. -/
theorem sweep_layout (base : Nat) : ∀ L : List RObj, ∀ pre post : List W, ∀ f head : Nat,
    (∀ ro ∈ L, wfRObj ro = true ∧ isTermR ro = false) →
    sweepLoop base (L.length + f) ⟨pre ++ flatW L ++ post, 8 * pre.length, head⟩ =
      sweepLoop base f ⟨pre ++ (fixedLayout base head (8 * pre.length) L).1 ++ post,
        8 * pre.length + 8 * (flatW L).length,
        (fixedLayout base head (8 * pre.length) L).2⟩ := by
  intro L
  induction L with
  | nil =>
    intro pre post f head hwf
    simp [flatW, fixedLayout]
  | cons ro L ih =>
    intro pre post f head hwf
    have hstep := sweep_step base head (L.length + f) pre (flatW L ++ post) ro
      (hwf ro (by simp)).1 (hwf ro (by simp)).2
    have hfuel : (ro :: L).length + f = (L.length + f) + 1 := by simp; omega
    have hbuf : pre ++ flatW (ro :: L) ++ post =
        pre ++ emit ro ++ (flatW L ++ post) := by
      simp [flatW]
    rw [hfuel, hbuf, hstep]
    have hfe : (fixedEmit base head ro).length = (emit ro).length :=
      fixedEmit_length base head ro
    have hpadel : pad8 (rsize ro) = 8 * (emit ro).length :=
      (emit_length ro (hwf ro (by simp)).1).symm
    have hP : 8 * (pre ++ fixedEmit base head ro).length =
        8 * pre.length + pad8 (rsize ro) := by
      simp [hfe, hpadel]
      omega
    have hih := ih (pre ++ fixedEmit base head ro) post f
      (nextHead base (8 * pre.length) head ro)
      (fun ro2 h2 => hwf ro2 (by simp [h2]))
    rw [hP] at hih
    have hb2 : (pre ++ fixedEmit base head ro) ++ flatW L ++ post =
        pre ++ fixedEmit base head ro ++ (flatW L ++ post) := by
      simp
    rw [hb2] at hih
    rw [hih, hpadel]
    have hfl : fixedLayout base head (8 * pre.length) (ro :: L) =
        (fixedEmit base head ro ++
          (fixedLayout base (nextHead base (8 * pre.length) head ro)
            (8 * pre.length + 8 * (emit ro).length) L).1,
         (fixedLayout base (nextHead base (8 * pre.length) head ro)
            (8 * pre.length + 8 * (emit ro).length) L).2) := by
      simp [fixedLayout]
    rw [hfl]
    have hflat : flatW (ro :: L) = emit ro ++ flatW L := rfl
    rw [hflat]
    congr 2
    · simp [List.append_assoc]
    · simp
      omega

/-- read() on a compacted buffer (layout then terminator): the sweep
fixes every object in place and returns the rebased root. -/
theorem readRegion_layout (base off : Nat) (L : List RObj)
    (hL : ∀ ro ∈ L, wfRObj ro = true ∧ isTermR ro = false) :
    readRegion base (L.length + 1) ⟨flatW L ++ emit (.rterm off), 0, 0⟩ =
      some (some (fixPtrV base off),
        ⟨(fixedLayout base 0 0 L).1 ++ emit (.rterm off),
         8 * (flatW L).length + 16, (fixedLayout base 0 0 L).2⟩) := by
  have h1 := sweep_layout base L [] (emit (.rterm off)) 1 0 hL
  simp only [List.nil_append, List.length_nil, Nat.mul_zero, Nat.zero_add] at h1
  have h2 := sweep_term base (fixedLayout base 0 0 L).2 0 off
    ((fixedLayout base 0 0 L).1) []
  rw [List.append_nil, fixedLayout_length] at h2
  simp only [Nat.zero_add] at h2
  unfold readRegion
  rw [if_neg (by simp [emit])]
  show (sweepLoop base (L.length + 1) ⟨flatW L ++ emit (.rterm off), 0, 0⟩).map _ = _
  rw [h1, h2]
  rfl

theorem entriesAux_eq_map (L : List RObj) : ∀ p : Nat,
    entriesAux L p = (entries L).map (fun pr => (p + pr.1, pr.2)) := by
  induction L with
  | nil => intro p; rfl
  | cons ro L ih =>
    intro p
    show (p, ro) :: entriesAux L (p + 8 * (emit ro).length) = _
    rw [ih]
    show _ = ((0, ro) :: entriesAux L (0 + 8 * (emit ro).length)).map _
    rw [ih (0 + 8 * (emit ro).length)]
    simp only [List.map_cons, List.map_map, Nat.add_zero, Nat.zero_add]
    congr 1
    apply List.map_congr_left
    intro pr _
    simp [Function.comp]
    omega

theorem mpzAddrs_cons (ro : RObj) (L : List RObj) (b : Nat) :
    mpzAddrs (ro :: L) b =
      (if isMpzR ro then [b] else []) ++ mpzAddrs L (b + 8 * (emit ro).length) := by
  unfold mpzAddrs
  show ((0, ro) :: entriesAux L (0 + 8 * (emit ro).length)).filterMap _ = _
  rw [List.filterMap_cons, entriesAux_eq_map]
  rw [List.filterMap_map]
  by_cases hm : isMpzR ro
  · rw [hm]
    simp only [if_true, hm, Nat.add_zero, Nat.zero_add]
    congr 1
    unfold entries
    apply List.filterMap_congr
    intro pr _
    simp only [Function.comp]
    split
    · congr 1
      omega
    · rfl
  · rw [Bool.not_eq_true] at hm
    rw [hm]
    simp only [Bool.false_eq_true, if_false, List.nil_append]
    unfold entries
    apply List.filterMap_congr
    intro pr _
    simp only [Function.comp]
    split
    · congr 1
      omega
    · rfl

/-- Walking the m_nested_mpzs chain left by the sweep over a layout
visits exactly the MPZ objects of the layout, most recent first, then
continues from the incoming head. -/
theorem chainWalk_layout (base : Nat) (hbase : 0 < base) : ∀ L : List RObj,
    ∀ pre post : List W, ∀ head0 : Nat, ∀ w0 : List Nat, ∀ f : Nat,
    chainWalk (pre ++ (fixedLayout base head0 (8 * pre.length) L).1 ++ post) base
      f head0 = some w0 →
    chainWalk (pre ++ (fixedLayout base head0 (8 * pre.length) L).1 ++ post) base
      ((L.filter isMpzR).length + f) (fixedLayout base head0 (8 * pre.length) L).2 =
      some ((mpzAddrs L (base + 8 * pre.length)).reverse ++ w0) := by
  intro L
  induction L with
  | nil =>
    intro pre post head0 w0 f h0
    simpa [fixedLayout, mpzAddrs, entries, entriesAux] using h0
  | cons ro L ih =>
    intro pre post head0 w0 f h0
    have hfl1 : (fixedLayout base head0 (8 * pre.length) (ro :: L)).1 =
        fixedEmit base head0 ro ++
          (fixedLayout base (nextHead base (8 * pre.length) head0 ro)
            (8 * pre.length + 8 * (emit ro).length) L).1 := by
      simp [fixedLayout]
    have hfl2 : (fixedLayout base head0 (8 * pre.length) (ro :: L)).2 =
        (fixedLayout base (nextHead base (8 * pre.length) head0 ro)
          (8 * pre.length + 8 * (emit ro).length) L).2 := by
      simp [fixedLayout]
    have hpre1 : 8 * (pre ++ fixedEmit base head0 ro).length =
        8 * pre.length + 8 * (emit ro).length := by
      simp [fixedEmit_length]
      omega
    cases hm : isMpzR ro with
    | false =>
      have hnh : nextHead base (8 * pre.length) head0 ro = head0 := by
        cases ro <;> simp_all [nextHead, isMpzR]
      rw [hfl1, hnh] at h0
      rw [hfl1, hfl2, hnh]
      have hassoc : pre ++ (fixedEmit base head0 ro ++
          (fixedLayout base head0 (8 * pre.length + 8 * (emit ro).length) L).1) ++ post =
          (pre ++ fixedEmit base head0 ro) ++
          (fixedLayout base head0 (8 * pre.length + 8 * (emit ro).length) L).1 ++ post := by
        simp
      rw [hassoc] at h0 ⊢
      rw [← hpre1] at h0
      have h2 := ih (pre ++ fixedEmit base head0 ro) post head0 w0 f h0
      rw [hpre1] at h2
      rw [show base + (8 * pre.length + 8 * (emit ro).length) =
        base + 8 * pre.length + 8 * (emit ro).length by omega] at h2
      rw [show ((ro :: L).filter isMpzR).length = (L.filter isMpzR).length by
        simp [List.filter, hm]]
      rw [mpzAddrs_cons, hm]
      simp only [Bool.false_eq_true, if_false, List.nil_append]
      exact h2
    | true =>
      obtain ⟨v, hv⟩ : ∃ v, ro = .rmpz v := by
        cases ro <;> first | exact ⟨_, rfl⟩ | simp_all [isMpzR]
      subst hv
      have hnh : nextHead base (8 * pre.length) head0 (.rmpz v) =
          base + 8 * pre.length := rfl
      obtain ⟨w1, ws1, hpw⟩ : ∃ w1 ws1, packBytes (mpzStr v) = w1 :: ws1 := by
        match hp : packBytes (mpzStr v) with
        | [] =>
          exfalso
          have h1 := @packBytes_ne_nil (mpzStr v) (by simp [mpzStr])
          rw [hp] at h1
          exact List.noConfusion h1
        | w1 :: ws1 => exact ⟨w1, ws1, rfl⟩
      rw [hfl1, hnh] at h0
      rw [hfl1, hfl2, hnh]
      have hassoc : pre ++ (fixedEmit base head0 (.rmpz v) ++
          (fixedLayout base (base + 8 * pre.length)
            (8 * pre.length + 8 * (emit (.rmpz v)).length) L).1) ++ post =
          (pre ++ fixedEmit base head0 (.rmpz v)) ++
          (fixedLayout base (base + 8 * pre.length)
            (8 * pre.length + 8 * (emit (.rmpz v)).length) L).1 ++ post := by
        simp
      rw [hassoc] at h0 ⊢
      have hlink : wAt ((pre ++ fixedEmit base head0 (.rmpz v)) ++
          (fixedLayout base (base + 8 * pre.length)
            (8 * pre.length + 8 * (emit (.rmpz v)).length) L).1 ++ post)
          (8 * pre.length + 8 * 3) = some (W.ptr head0) := by
        have hre : (pre ++ fixedEmit base head0 (.rmpz v)) ++
            (fixedLayout base (base + 8 * pre.length)
              (8 * pre.length + 8 * (emit (.rmpz v)).length) L).1 ++ post =
            pre ++ fixedEmit base head0 (.rmpz v) ++
            ((fixedLayout base (base + 8 * pre.length)
              (8 * pre.length + 8 * (emit (.rmpz v)).length) L).1 ++ post) := by
          simp
        rw [hre]
        exact wAt_at_index pre _ _ 3 _ (by simp [fixedEmit, hpw])
      have hstep1 : chainWalk ((pre ++ fixedEmit base head0 (.rmpz v)) ++
          (fixedLayout base (base + 8 * pre.length)
            (8 * pre.length + 8 * (emit (.rmpz v)).length) L).1 ++ post) base
          (f + 1) (base + 8 * pre.length) = some ((base + 8 * pre.length) :: w0) := by
        rw [chainWalk]
        rw [if_neg (by omega)]
        rw [show base + 8 * pre.length - base + 24 = 8 * pre.length + 8 * 3 by omega]
        simp only [hlink]
        rw [h0]
        rfl
      rw [← hpre1] at hstep1
      have h2 := ih (pre ++ fixedEmit base head0 (.rmpz v)) post
        (base + 8 * pre.length) ((base + 8 * pre.length) :: w0) (f + 1) hstep1
      rw [hpre1] at h2
      rw [show base + (8 * pre.length + 8 * (emit (.rmpz v)).length) =
        base + 8 * pre.length + 8 * (emit (.rmpz v)).length by omega] at h2
      rw [show ((RObj.rmpz v :: L).filter isMpzR).length + f =
        (L.filter isMpzR).length + (f + 1) by simp [List.filter, isMpzR]; omega]
      have hr : (mpzAddrs (.rmpz v :: L) (base + 8 * pre.length)).reverse ++ w0 =
          (mpzAddrs L (base + 8 * pre.length + 8 * (emit (.rmpz v)).length)).reverse ++
            ((base + 8 * pre.length) :: w0) := by
        rw [mpzAddrs_cons]
        simp [isMpzR]
      rw [hr]
      exact h2

theorem stepN_of_loop {h : Heap} : ∀ fuel : Nat, ∀ st st2 : CState,
    compactLoop h fuel st = some st2 →
    ∃ n, stepN h n st = some st2 ∧ st2.todo = [] := by
  intro fuel
  induction fuel with
  | zero =>
    intro st st2 hl
    simp [compactLoop] at hl
  | succ fuel ih =>
    intro st st2 hl
    match hcs : compactStep h st with
    | .sdone =>
      simp only [compactLoop, hcs, Option.some.injEq] at hl
      subst hl
      exact ⟨0, rfl, step_done_todo hcs⟩
    | .sfail =>
      simp only [compactLoop, hcs] at hl
      exact Option.noConfusion hl
    | .snext st3 =>
      simp only [compactLoop, hcs] at hl
      obtain ⟨n, hsn, ht⟩ := ih st3 st2 hl
      refine ⟨n + 1, ?_, ht⟩
      simp only [stepN, hcs]
      exact hsn

theorem stepN_todo_table {h : Heap} (hOK : heapOK h) : ∀ n : Nat,
    ∀ st st2 : CState, ∀ L : List RObj, Inv h st L →
    stepN h n st = some st2 → st2.todo = [] →
    ∀ q ∈ st.todo, (lookupTbl st2.objTable q).isSome = true := by
  intro n
  induction n with
  | zero =>
    intro st st2 L hInv h1 ht q hq
    simp only [stepN, Option.some.injEq] at h1
    subst h1
    rw [ht] at hq
    simp at hq
  | succ n ih =>
    intro st st2 L hInv h1 ht q hq
    match hcs : compactStep h st with
    | .sdone => simp only [stepN, hcs] at h1; exact Option.noConfusion h1
    | .sfail => simp only [stepN, hcs] at h1; exact Option.noConfusion h1
    | .snext st3 =>
      simp only [stepN, hcs] at h1
      obtain ⟨L3, _, hInv3, _⟩ := step_preserve hOK hInv hcs
      obtain ⟨curr, rest, htd, hcase⟩ := step_shape hInv hcs
      rw [htd] at hq
      rcases List.mem_cons.mp hq with rfl | hq2
      · rcases hcase with ⟨hvis, hst3⟩ | ⟨off, hcur, hot3, _⟩ | ⟨pushed, _, _, hst3, _⟩
        · obtain ⟨o, ho⟩ := Option.isSome_iff_exists.mp hvis
          obtain ⟨L2, _, _, hm⟩ := stepN_preserve hOK hInv3 h1
          have h5 := hm q o (by rw [hst3]; exact ho)
          rw [h5]
          rfl
        · obtain ⟨L2, _, _, hm⟩ := stepN_preserve hOK hInv3 h1
          have h4 : lookupTbl st3.objTable q = some off := by
            rw [hot3, lookupTbl_cons]
            simp
          have h5 := hm q off h4
          rw [h5]
          rfl
        · apply ih st3 st2 L3 hInv3 h1 ht q
          rw [hst3]
          simp
      · apply ih st3 st2 L3 hInv3 h1 ht q
        rcases hcase with ⟨_, hst3⟩ | ⟨off, _, _, htd3⟩ | ⟨pushed, _, _, hst3, _⟩
        · rw [hst3]
          exact hq2
        · rw [htd3]
          exact hq2
        · rw [hst3]
          simp [hq2]

theorem step_snext_heap {h : Heap} {st st2 : CState} {curr : Nat} {rest : List Nat}
    (htd : st.todo = curr :: rest) (hvis : lookupTbl st.objTable curr = none)
    (hstep : compactStep h st = .snext st2) :
    (lookupH h curr).isSome = true := by
  match hobj : lookupH h curr with
  | some o => rfl
  | none =>
    have hvisf : (lookupTbl st.objTable curr).isSome = false := by
      rw [hvis]
      rfl
    simp only [compactStep, htd, hvisf, Bool.false_eq_true, if_false, hobj] at hstep
    exact StepRes.noConfusion hstep

/-- Decomposition of a successful compact() run from a fresh compactor:
the buffer is a layout of emitted objects followed by one terminator
whose root field is the root's offset (the root itself for a scalar). -/
theorem compactOp_layout {h : Heap} {fuel root : Nat} {st2 : CState}
    (hOK : heapOK h) (hop : compactOp h fuel initState root = some st2) :
    ∃ L off st1, Inv h st1 L ∧ st1.buf = flatW L ∧
      st2.buf = flatW L ++ emit (.rterm off) ∧
      (isScalar root = true ∧ off = root ∨
        isScalar root = false ∧ lookupTbl st1.objTable root = some off) := by
  unfold compactOp at hop
  by_cases hs : isScalar root = true
  · rw [if_pos hs] at hop
    simp only [Option.some.injEq] at hop
    refine ⟨[], root, initState, inv_init h, rfl, ?_, Or.inl ⟨hs, rfl⟩⟩
    rw [← hop]
    simp [insertTerminator, toOffset, hs, flatW, initState]
  · rw [if_neg hs] at hop
    rw [Bool.not_eq_true] at hs
    match hloop : compactLoop h fuel { initState with todo := root :: initState.todo } with
    | none =>
      rw [hloop] at hop
      exact Option.noConfusion hop
    | some st1 =>
      rw [hloop] at hop
      simp only [Option.some.injEq] at hop
      have hroot_heap : (lookupH h root).isSome = true := by
        match fuel, hloop with
        | 0, hloop => simp [compactLoop] at hloop
        | f + 1, hloop =>
          match hcs : compactStep h { initState with todo := root :: initState.todo } with
          | .sdone =>
            have h0 := step_done_todo hcs
            exact absurd h0 (by simp [initState])
          | .sfail =>
            simp only [compactLoop, hcs] at hloop
            exact Option.noConfusion hloop
          | .snext st4 =>
            exact step_snext_heap rfl (by simp [initState, lookupTbl]) hcs
      have hInv1 : Inv h { initState with todo := root :: initState.todo } [] := by
        refine inv_set_todo (inv_init h) ?_
        intro q hq
        simp only [initState, List.mem_singleton] at hq
        subst hq
        exact ⟨hs, hroot_heap⟩
      obtain ⟨n, hsn, htodo1⟩ := stepN_of_loop fuel _ st1 hloop
      obtain ⟨L, ⟨ext, hL⟩, hInv2, _⟩ := stepN_preserve hOK hInv1 hsn
      have hroot_tbl := stepN_todo_table hOK n _ st1 [] hInv1 hsn htodo1 root
        (by simp [initState])
      obtain ⟨off, hoff⟩ := Option.isSome_iff_exists.mp hroot_tbl
      have hterm : st2 = { st1 with buf := st1.buf ++ emit (.rterm off) } := by
        rw [← hop]
        simp only [insertTerminator]
        rw [toOffset_found hs hoff]
      refine ⟨L, off, st1, hInv2, hInv2.hbuf, ?_, Or.inr ⟨hs, hoff⟩⟩
      rw [hterm]
      show st1.buf ++ emit (.rterm off) = flatW L ++ emit (.rterm off)
      rw [hInv2.hbuf]

theorem entries_of_mem : ∀ L : List RObj, ∀ p : Nat, ∀ ro ∈ L,
    ∃ off, (off, ro) ∈ entriesAux L p := by
  intro L
  induction L with
  | nil => intro p ro h; simp at h
  | cons ro2 L ih =>
    intro p ro h
    rcases List.mem_cons.mp h with rfl | h2
    · exact ⟨p, by simp [entriesAux]⟩
    · obtain ⟨off, hoff⟩ := ih (p + 8 * (emit ro2).length) ro h2
      exact ⟨off, by simp [entriesAux, hoff]⟩

theorem mpzAddrs_ge : ∀ L : List RObj, ∀ b : Nat, ∀ x ∈ mpzAddrs L b, b ≤ x := by
  intro L
  induction L with
  | nil => intro b x h; simp [mpzAddrs, entries, entriesAux] at h
  | cons ro L ih =>
    intro b x h
    rw [mpzAddrs_cons] at h
    rcases List.mem_append.mp h with h1 | h2
    · split at h1
      · simp at h1
        omega
      · simp at h1
    · have := ih (b + 8 * (emit ro).length) x h2
      omega

theorem mpzAddrs_nodup : ∀ L : List RObj, ∀ b : Nat, (mpzAddrs L b).Nodup := by
  intro L
  induction L with
  | nil => intro b; simp [mpzAddrs, entries, entriesAux]
  | cons ro L ih =>
    intro b
    rw [mpzAddrs_cons]
    rcases hm : isMpzR ro with _ | _
    · simpa using ih (b + 8 * (emit ro).length)
    · simp only [if_true]
      rw [List.singleton_append, List.nodup_cons]
      refine ⟨?_, ih (b + 8 * (emit ro).length)⟩
      intro hmem
      have h1 := mpzAddrs_ge L (b + 8 * (emit ro).length) b hmem
      have h2 := emit_length_pos ro
      omega

theorem mem_flatW : ∀ L : List RObj, ∀ w ∈ flatW L, ∃ ro ∈ L, w ∈ emit ro := by
  intro L
  induction L with
  | nil => intro w hw; simp [flatW] at hw
  | cons ro L ih =>
    intro w hw
    rcases List.mem_append.mp hw with h1 | h2
    · exact ⟨ro, by simp, h1⟩
    · obtain ⟨ro2, hro2, hw2⟩ := ih w h2
      exact ⟨ro2, by simp [hro2], hw2⟩

theorem emit_ptr : ∀ ro : RObj, ∀ x : Nat, W.ptr x ∈ emit ro → x ∈ wptrsR ro := by
  intro ro x hw
  cases ro with
  | rctor t offs sp =>
    simp only [emit, List.mem_cons, List.mem_append] at hw
    rcases hw with h1 | h1 | h1
    · exact absurd h1 (by simp)
    · rw [List.mem_map] at h1
      obtain ⟨y, hy, he⟩ := h1
      have hxy : x = y := (ptr_inj he).symm
      subst hxy
      simpa [wptrsR, rchildren] using hy
    · obtain ⟨l, hl⟩ := packBytes_shape sp _ h1
      exact absurd hl (by simp)
  | rarray es =>
    simp only [emit, List.mem_cons] at hw
    rcases hw with h1 | h1 | h1 | h1
    · exact absurd h1 (by simp)
    · exact absurd h1 (by simp)
    · exact absurd h1 (by simp)
    · rw [List.mem_map] at h1
      obtain ⟨y, hy, he⟩ := h1
      have hxy : x = y := (ptr_inj he).symm
      subst hxy
      simpa [wptrsR, rchildren] using hy
  | rsarray esz sz data =>
    simp only [emit, List.mem_cons] at hw
    rcases hw with h1 | h1 | h1 | h1
    · exact absurd h1 (by simp)
    · exact absurd h1 (by simp)
    · exact absurd h1 (by simp)
    · obtain ⟨l, hl⟩ := packBytes_shape data _ h1
      exact absurd hl (by simp)
  | rstr len data =>
    simp only [emit, List.mem_cons] at hw
    rcases hw with h1 | h1 | h1 | h1 | h1
    · exact absurd h1 (by simp)
    · exact absurd h1 (by simp)
    · exact absurd h1 (by simp)
    · exact absurd h1 (by simp)
    · obtain ⟨l, hl⟩ := packBytes_shape data _ h1
      exact absurd hl (by simp)
  | rmpz v =>
    simp only [emit, List.mem_cons] at hw
    rcases hw with h1 | h1 | h1 | h1
    · exact absurd h1 (by simp)
    · exact absurd h1 (by simp)
    · exact absurd h1 (by simp)
    · obtain ⟨l, hl⟩ := packBytes_shape (mpzStr v) _ h1
      exact absurd hl (by simp)
  | rthunk v =>
    simp only [emit, List.mem_cons, List.not_mem_nil, or_false] at hw
    rcases hw with h1 | h1 | h1
    · exact absurd h1 (by simp)
    · rw [ptr_inj h1]
      simp [wptrsR]
    · rw [ptr_inj h1]
      simp [wptrsR]
  | rref v =>
    simp only [emit, List.mem_cons, List.not_mem_nil, or_false] at hw
    rcases hw with h1 | h1
    · exact absurd h1 (by simp)
    · rw [ptr_inj h1]
      simp [wptrsR, rchildren]
  | rterm r =>
    simp only [emit, List.mem_cons, List.not_mem_nil, or_false] at hw
    rcases hw with h1 | h1
    · exact absurd h1 (by simp)
    · rw [ptr_inj h1]
      simp [wptrsR, rchildren]

theorem wptr_cases (ro : RObj) (x : Nat) :
    x ∈ wptrsR ro → x ∈ rchildren ro ∨ x = 0 := by
  cases ro with
  | rthunk v =>
    intro h
    simp only [wptrsR] at h
    rcases List.mem_cons.mp h with h | h
    · left
      simp [rchildren, h]
    · right
      simpa using h
  | rctor t offs sp => exact fun h => Or.inl h
  | rarray es => exact fun h => Or.inl h
  | rsarray esz sz data => exact fun h => Or.inl h
  | rstr len data => exact fun h => Or.inl h
  | rmpz v => exact fun h => Or.inl h
  | rref v => exact fun h => Or.inl h
  | rterm r => exact fun h => Or.inl h

theorem compactLoop_mono {h : Heap} : ∀ f : Nat, ∀ st st2 : CState,
    compactLoop h f st = some st2 → compactLoop h (f + 1) st = some st2 := by
  intro f
  induction f with
  | zero =>
    intro st st2 hl
    simp [compactLoop] at hl
  | succ f ih =>
    intro st st2 hl
    match hcs : compactStep h st with
    | .sdone =>
      simp only [compactLoop, hcs, Option.some.injEq] at hl ⊢
      exact hl
    | .sfail =>
      simp only [compactLoop, hcs] at hl
      exact Option.noConfusion hl
    | .snext st3 =>
      simp only [compactLoop, hcs] at hl ⊢
      exact ih st3 st2 hl

theorem compactLoop_add {h : Heap} (f : Nat) : ∀ k : Nat, ∀ st st2 : CState,
    compactLoop h f st = some st2 → compactLoop h (f + k) st = some st2 := by
  intro k
  induction k with
  | zero => intro st st2 hl; exact hl
  | succ k ih => intro st st2 hl; exact compactLoop_mono _ _ _ (ih st st2 hl)

theorem isScalar_of_aligned {m : Nat} (h : m % 8 = 0) : isScalar m = false := by
  unfold isScalar
  simp
  omega

theorem denote_scalar_eq {h : Heap} {L : List RObj} {c : Nat} (hc : isScalar c = true) :
    ∀ f : Nat, denoteR L f c = denoteH h f c := by
  intro f
  cases f with
  | zero => rfl
  | succ f => simp [denoteR, denoteH, hc]

/-- Emission correctness at the level of structural denotations: a
visited heap object and its recorded layout offset unfold to the same
tree at every fuel (no Tasks: insert_task rewrites a Task to a Thunk). -/
theorem denoteR_denoteH {h : Heap} {st : CState} {L : List RObj}
    (hInv : Inv h st L) (hnt : heapNoTask h) : ∀ f : Nat, ∀ p off : Nat,
    isScalar p = false → lookupTbl st.objTable p = some off →
    denoteR L f off = denoteH h f p := by
  intro f
  induction f with
  | zero => intro p off _ _; rfl
  | succ f ih =>
    intro p off hp htab
    obtain ⟨o, hobj, hser, hwf, hres, hlay⟩ := hInv.htbl p off htab
    obtain ⟨ro, himg⟩ := @image_isSome st.objTable o hser
    rw [himg] at hlay
    have hoff_ns : isScalar off = false := isScalar_of_aligned (lookupLay_align hlay)
    have hchild : ∀ c ∈ hchildren o,
        denoteR L f (offsetOf st.objTable c) = denoteH h f c := by
      intro c hc
      by_cases hcs : isScalar c = true
      · rw [show offsetOf st.objTable c = c by simp [offsetOf, hcs]]
        exact denote_scalar_eq hcs f
      · rw [Bool.not_eq_true] at hcs
        obtain ⟨offc, hoffc⟩ := Option.isSome_iff_exists.mp (hres c hc hcs)
        rw [show offsetOf st.objTable c = offc by simp [offsetOf, hcs, hoffc]]
        exact ih c offc hcs hoffc
    cases o with
    | hctor t fs sp =>
      simp only [image, Option.some.injEq] at himg
      subst himg
      rw [show denoteR L (f + 1) off =
        (seqOpt ((fs.map (offsetOf st.objTable)).map (denoteR L f))).map (.tctor t sp)
        by simp [denoteR, hoff_ns, hlay]]
      rw [show denoteH h (f + 1) p =
        (seqOpt (fs.map (denoteH h f))).map (.tctor t sp)
        by simp [denoteH, hp, hobj]]
      rw [List.map_map]
      congr 2
      apply List.map_congr_left
      intro c hc
      show denoteR L f (offsetOf st.objTable c) = denoteH h f c
      exact hchild c (by simpa [hchildren] using hc)
    | harray es =>
      simp only [image, Option.some.injEq] at himg
      subst himg
      rw [show denoteR L (f + 1) off =
        (seqOpt ((es.map (offsetOf st.objTable)).map (denoteR L f))).map .tarr
        by simp [denoteR, hoff_ns, hlay]]
      rw [show denoteH h (f + 1) p = (seqOpt (es.map (denoteH h f))).map .tarr
        by simp [denoteH, hp, hobj]]
      rw [List.map_map]
      congr 2
      apply List.map_congr_left
      intro c hc
      show denoteR L f (offsetOf st.objTable c) = denoteH h f c
      exact hchild c (by simpa [hchildren] using hc)
    | hsarray esz sz data =>
      simp only [image, Option.some.injEq] at himg
      subst himg
      simp [denoteR, denoteH, hoff_ns, hp, hlay, hobj]
    | hstr len data =>
      simp only [image, Option.some.injEq] at himg
      subst himg
      simp [denoteR, denoteH, hoff_ns, hp, hlay, hobj]
    | hmpz v =>
      simp only [image, Option.some.injEq] at himg
      subst himg
      simp [denoteR, denoteH, hoff_ns, hp, hlay, hobj]
    | hthunk v =>
      simp only [image, Option.some.injEq] at himg
      subst himg
      rw [show denoteR L (f + 1) off =
        (denoteR L f (offsetOf st.objTable v)).map .tthunk
        by simp [denoteR, hoff_ns, hlay]]
      rw [show denoteH h (f + 1) p = (denoteH h f v).map .tthunk
        by simp [denoteH, hp, hobj]]
      rw [hchild v (by simp [hchildren])]
    | htask v =>
      exfalso
      have hmem := lookupH_mem hobj
      have := hnt (p, .htask v) hmem
      simp [isTask] at this
    | href v =>
      simp only [image, Option.some.injEq] at himg
      subst himg
      rw [show denoteR L (f + 1) off =
        (denoteR L f (offsetOf st.objTable v)).map .tref
        by simp [denoteR, hoff_ns, hlay]]
      rw [show denoteH h (f + 1) p = (denoteH h f v).map .tref
        by simp [denoteH, hp, hobj]]
      rw [hchild v (by simp [hchildren])]
    | hclosure => simp [serializable] at hser
    | hexternal => simp [serializable] at hser

theorem fixedLayout_append (base : Nat) : ∀ L1 L2 : List RObj, ∀ head pos : Nat,
    fixedLayout base head pos (L1 ++ L2) =
      ((fixedLayout base head pos L1).1 ++
        (fixedLayout base (fixedLayout base head pos L1).2
          (pos + 8 * (flatW L1).length) L2).1,
       (fixedLayout base (fixedLayout base head pos L1).2
          (pos + 8 * (flatW L1).length) L2).2) := by
  intro L1
  induction L1 with
  | nil =>
    intro L2 head pos
    simp [fixedLayout, flatW]
  | cons ro L1 ih =>
    intro L2 head pos
    show fixedLayout base head pos (ro :: (L1 ++ L2)) = _
    have h1 : fixedLayout base head pos (ro :: (L1 ++ L2)) =
        (fixedEmit base head ro ++
          (fixedLayout base (nextHead base pos head ro)
            (pos + 8 * (emit ro).length) (L1 ++ L2)).1,
         (fixedLayout base (nextHead base pos head ro)
            (pos + 8 * (emit ro).length) (L1 ++ L2)).2) := by
      simp [fixedLayout]
    have h2 : fixedLayout base head pos (ro :: L1) =
        (fixedEmit base head ro ++
          (fixedLayout base (nextHead base pos head ro)
            (pos + 8 * (emit ro).length) L1).1,
         (fixedLayout base (nextHead base pos head ro)
            (pos + 8 * (emit ro).length) L1).2) := by
      simp [fixedLayout]
    rw [h1, ih, h2]
    have h3 : pos + 8 * (emit ro).length + 8 * (flatW L1).length =
        pos + 8 * (flatW (ro :: L1)).length := by
      show _ = pos + 8 * (emit ro ++ flatW L1).length
      simp
      omega
    rw [h3]
    simp

theorem fixedLayout_lookup {L : List RObj} {x : Nat} {ro : RObj} (base : Nat)
    (hl : lookupLay L x = some ro) :
    ∃ A1 hd rest, (fixedLayout base 0 0 L).1 =
      A1 ++ fixedEmit base hd ro ++ rest ∧ 8 * A1.length = x := by
  obtain ⟨pre, suf, hL, hx⟩ := lookupLay_decomp hl
  subst hL
  rw [fixedLayout_append]
  refine ⟨(fixedLayout base 0 0 pre).1, (fixedLayout base 0 0 pre).2,
    (fixedLayout base
      (nextHead base (0 + 8 * (flatW pre).length) (fixedLayout base 0 0 pre).2 ro)
      (0 + 8 * (flatW pre).length + 8 * (emit ro).length) suf).1, ?_, ?_⟩
  · show (fixedLayout base 0 0 pre).1 ++
      (fixedLayout base (fixedLayout base 0 0 pre).2
        (0 + 8 * (flatW pre).length) (ro :: suf)).1 = _
    have h2 : fixedLayout base (fixedLayout base 0 0 pre).2
        (0 + 8 * (flatW pre).length) (ro :: suf) =
        (fixedEmit base (fixedLayout base 0 0 pre).2 ro ++
          (fixedLayout base
            (nextHead base (0 + 8 * (flatW pre).length) (fixedLayout base 0 0 pre).2 ro)
            (0 + 8 * (flatW pre).length + 8 * (emit ro).length) suf).1,
         (fixedLayout base
            (nextHead base (0 + 8 * (flatW pre).length) (fixedLayout base 0 0 pre).2 ro)
            (0 + 8 * (flatW pre).length + 8 * (emit ro).length) suf).2) := by
      simp [fixedLayout]
    rw [h2]
    simp
  · rw [fixedLayout_length]
    omega

theorem denoteB_scalar_eq {buf : List W} {base : Nat} {L : List RObj} {c : Nat}
    (hc : isScalar c = true) : ∀ f : Nat, denoteB buf base f c = denoteR L f c := by
  intro f
  cases f with
  | zero => rfl
  | succ f => simp [denoteB, denoteR, hc]

/-- Loader correctness at the level of structural denotations: after
the fix-up sweep, parsing an object back out of the rebased buffer at
base + x unfolds to the same tree as the layout entry at offset x. -/
theorem denoteB_denoteR {L : List RObj} {base off0 : Nat} (hb : base % 8 = 0)
    (hwfl : ∀ pr ∈ entries L, wfRObj pr.2 = true ∧ isTermR pr.2 = false)
    (hch : ∀ pr ∈ entries L, ∀ c ∈ rchildren pr.2, isScalar c = false →
      ∃ ro2, lookupLay L c = some ro2 ∧ isTermR ro2 = false) :
    ∀ f : Nat, ∀ x : Nat, (lookupLay L x).isSome = true →
    denoteB ((fixedLayout base 0 0 L).1 ++ emit (.rterm off0)) base f (base + x) =
    denoteR L f x := by
  intro f
  induction f with
  | zero => intro x _; rfl
  | succ f ih =>
    intro x hx
    obtain ⟨ro, hro⟩ := Option.isSome_iff_exists.mp hx
    have hpr : (x, ro) ∈ entries L := mem_of_lookupLay hro
    obtain ⟨hwf, hterm⟩ := hwfl (x, ro) hpr
    have hxal : x % 8 = 0 := lookupLay_align hro
    have hxns : isScalar (base + x) = false := by
      unfold isScalar
      simp
      omega
    have hsub : base + x - base = x := by omega
    have hxns2 : isScalar x = false := isScalar_of_aligned hxal
    obtain ⟨A1, hd, rest, hFB, hA1⟩ := fixedLayout_lookup base hro
    have hchildB : ∀ c ∈ rchildren ro,
        denoteB ((fixedLayout base 0 0 L).1 ++ emit (.rterm off0)) base f
          (fixPtrV base c) = denoteR L f c := by
      intro c hc
      by_cases hcs : isScalar c = true
      · rw [show fixPtrV base c = c by simp [fixPtrV, hcs]]
        exact denoteB_scalar_eq hcs f
      · rw [Bool.not_eq_true] at hcs
        obtain ⟨ro2, hro2, _⟩ := hch (x, ro) hpr c hc hcs
        rw [show fixPtrV base c = base + c by simp [fixPtrV, hcs]]
        exact ih c (by rw [hro2]; rfl)
    have hFB2 : (fixedLayout base 0 0 L).1 ++ emit (.rterm off0) =
        A1 ++ fixedEmit base hd ro ++ (rest ++ emit (.rterm off0)) := by
      rw [hFB]
      simp
    cases ro with
    | rterm r => simp [isTermR] at hterm
    | rctor t offs sp =>
      have htag : t ≤ maxCtorTag := by simpa [wfRObj] using hwf
      have hw : wAt ((fixedLayout base 0 0 L).1 ++ emit (.rterm off0)) x =
          some (W.hdr (8 + 8 * offs.length + sp.length) offs.length t) := by
        rw [hFB2, ← hA1]
        have h0 := wAt_at_index A1 (fixedEmit base hd (.rctor t offs sp))
          (rest ++ emit (.rterm off0)) 0
          (W.hdr (8 + 8 * offs.length + sp.length) offs.length t)
          (by simp [fixedEmit])
        simpa using h0
      have hrp : readPtrs ((fixedLayout base 0 0 L).1 ++ emit (.rterm off0)) (x + 8)
          offs.length = some (offs.map (fixPtrV base)) := by
        rw [hFB2, ← hA1]
        have hre : A1 ++ fixedEmit base hd (.rctor t offs sp) ++
            (rest ++ emit (.rterm off0)) =
            (A1 ++ [W.hdr (8 + 8 * offs.length + sp.length) offs.length t]) ++
            (offs.map (fixPtrV base)).map W.ptr ++
            (packBytes sp ++ (rest ++ emit (.rterm off0))) := by
          simp [fixedEmit, List.map_map]
        rw [hre]
        have hlen : 8 * A1.length + 8 =
            8 * (A1 ++ [W.hdr (8 + 8 * offs.length + sp.length) offs.length t]).length := by
          simp
          omega
        rw [hlen]
        have h0 := readPtrs_exact (offs.map (fixPtrV base))
          (A1 ++ [W.hdr (8 + 8 * offs.length + sp.length) offs.length t])
          (packBytes sp ++ (rest ++ emit (.rterm off0)))
        simpa using h0
      have hrb : readBytesW ((fixedLayout base 0 0 L).1 ++ emit (.rterm off0))
          (x + 8 + 8 * offs.length)
          (8 + 8 * offs.length + sp.length - (8 + 8 * offs.length)) = some sp := by
        rw [show 8 + 8 * offs.length + sp.length - (8 + 8 * offs.length) = sp.length
          by omega]
        rw [hFB2, ← hA1]
        have hre : A1 ++ fixedEmit base hd (.rctor t offs sp) ++
            (rest ++ emit (.rterm off0)) =
            (A1 ++ W.hdr (8 + 8 * offs.length + sp.length) offs.length t ::
              (offs.map (fun v => W.ptr (fixPtrV base v)))) ++
            packBytes sp ++ (rest ++ emit (.rterm off0)) := by
          simp [fixedEmit]
        rw [hre]
        have hlen : 8 * A1.length + 8 + 8 * offs.length =
            8 * (A1 ++ W.hdr (8 + 8 * offs.length + sp.length) offs.length t ::
              (offs.map (fun v => W.ptr (fixPtrV base v)))).length := by
          simp
          omega
        rw [hlen]
        exact readBytesW_pack sp _ _
      simp only [denoteB, denoteR, hxns, hxns2, Bool.false_eq_true, if_false, hsub,
        hw, hro, htag, if_true, hrp, hrb]
      rw [List.map_map]
      congr 2
      apply List.map_congr_left
      intro c hc
      show denoteB _ base f (fixPtrV base c) = denoteR L f c
      exact hchildB c (by simpa [rchildren] using hc)
    | rarray es =>
      have hw : wAt ((fixedLayout base 0 0 L).1 ++ emit (.rterm off0)) x =
          some (W.hdr 1 0 tagArray) := by
        rw [hFB2, ← hA1]
        have h0 := wAt_at_index A1 (fixedEmit base hd (.rarray es))
          (rest ++ emit (.rterm off0)) 0 (W.hdr 1 0 tagArray) (by simp [fixedEmit])
        simpa using h0
      have hw1 : wAt ((fixedLayout base 0 0 L).1 ++ emit (.rterm off0)) (x + 8) =
          some (W.uw es.length) := by
        rw [hFB2, ← hA1]
        have h0 := wAt_at_index A1 (fixedEmit base hd (.rarray es))
          (rest ++ emit (.rterm off0)) 1 (W.uw es.length) (by simp [fixedEmit])
        simpa using h0
      have hrp : readPtrs ((fixedLayout base 0 0 L).1 ++ emit (.rterm off0)) (x + 24)
          es.length = some (es.map (fixPtrV base)) := by
        rw [hFB2, ← hA1]
        have hre : A1 ++ fixedEmit base hd (.rarray es) ++
            (rest ++ emit (.rterm off0)) =
            (A1 ++ [W.hdr 1 0 tagArray, W.uw es.length, W.uw es.length]) ++
            (es.map (fixPtrV base)).map W.ptr ++ (rest ++ emit (.rterm off0)) := by
          simp [fixedEmit, List.map_map]
        rw [hre]
        have hlen : 8 * A1.length + 24 =
            8 * (A1 ++ [W.hdr 1 0 tagArray, W.uw es.length, W.uw es.length]).length := by
          simp
          omega
        rw [hlen]
        have h0 := readPtrs_exact (es.map (fixPtrV base))
          (A1 ++ [W.hdr 1 0 tagArray, W.uw es.length, W.uw es.length])
          (rest ++ emit (.rterm off0))
        simpa using h0
      have hc1 : ¬(tagArray ≤ maxCtorTag) := by decide
      simp only [denoteB, denoteR, hxns, hxns2, Bool.false_eq_true, if_false, hsub,
        hw, hro, hw1, hrp, hc1, eq_self_iff_true, if_true]
      rw [List.map_map]
      congr 2
      apply List.map_congr_left
      intro c hc
      show denoteB _ base f (fixPtrV base c) = denoteR L f c
      exact hchildB c (by simpa [rchildren] using hc)
    | rsarray esz sz data =>
      have hdl : data.length = esz * sz := by simpa [wfRObj] using hwf
      have hw : wAt ((fixedLayout base 0 0 L).1 ++ emit (.rterm off0)) x =
          some (W.hdr 1 esz tagScalarArray) := by
        rw [hFB2, ← hA1]
        have h0 := wAt_at_index A1 (fixedEmit base hd (.rsarray esz sz data))
          (rest ++ emit (.rterm off0)) 0 (W.hdr 1 esz tagScalarArray)
          (by simp [fixedEmit, emit])
        simpa using h0
      have hw1 : wAt ((fixedLayout base 0 0 L).1 ++ emit (.rterm off0)) (x + 8) =
          some (W.uw sz) := by
        rw [hFB2, ← hA1]
        have h0 := wAt_at_index A1 (fixedEmit base hd (.rsarray esz sz data))
          (rest ++ emit (.rterm off0)) 1 (W.uw sz) (by simp [fixedEmit, emit])
        simpa using h0
      have hrb : readBytesW ((fixedLayout base 0 0 L).1 ++ emit (.rterm off0))
          (x + 24) (esz * sz) = some data := by
        rw [hFB2, ← hA1, ← hdl]
        have hre : A1 ++ fixedEmit base hd (.rsarray esz sz data) ++
            (rest ++ emit (.rterm off0)) =
            (A1 ++ [W.hdr 1 esz tagScalarArray, W.uw sz, W.uw sz]) ++
            packBytes data ++ (rest ++ emit (.rterm off0)) := by
          simp [fixedEmit, emit]
        rw [hre]
        have hlen : 8 * A1.length + 24 =
            8 * (A1 ++ [W.hdr 1 esz tagScalarArray, W.uw sz, W.uw sz]).length := by
          simp
          omega
        rw [hlen]
        exact readBytesW_pack data _ _
      have hc1 : ¬(tagScalarArray ≤ maxCtorTag) := by decide
      have hc2 : ¬(tagScalarArray = tagArray) := by decide
      simp only [denoteB, denoteR, hxns, hxns2, Bool.false_eq_true, if_false, hsub,
        hw, hro, hw1, hrb, hc1, hc2, eq_self_iff_true, if_true]
    | rstr len data =>
      have hw : wAt ((fixedLayout base 0 0 L).1 ++ emit (.rterm off0)) x =
          some (W.hdr 1 0 tagString) := by
        rw [hFB2, ← hA1]
        have h0 := wAt_at_index A1 (fixedEmit base hd (.rstr len data))
          (rest ++ emit (.rterm off0)) 0 (W.hdr 1 0 tagString)
          (by simp [fixedEmit, emit])
        simpa using h0
      have hw1 : wAt ((fixedLayout base 0 0 L).1 ++ emit (.rterm off0)) (x + 8) =
          some (W.uw data.length) := by
        rw [hFB2, ← hA1]
        have h0 := wAt_at_index A1 (fixedEmit base hd (.rstr len data))
          (rest ++ emit (.rterm off0)) 1 (W.uw data.length)
          (by simp [fixedEmit, emit])
        simpa using h0
      have hw3 : wAt ((fixedLayout base 0 0 L).1 ++ emit (.rterm off0)) (x + 24) =
          some (W.uw len) := by
        rw [hFB2, ← hA1]
        have h0 := wAt_at_index A1 (fixedEmit base hd (.rstr len data))
          (rest ++ emit (.rterm off0)) 3 (W.uw len) (by simp [fixedEmit, emit])
        simpa using h0
      have hrb : readBytesW ((fixedLayout base 0 0 L).1 ++ emit (.rterm off0))
          (x + 32) data.length = some data := by
        rw [hFB2, ← hA1]
        have hre : A1 ++ fixedEmit base hd (.rstr len data) ++
            (rest ++ emit (.rterm off0)) =
            (A1 ++ [W.hdr 1 0 tagString, W.uw data.length, W.uw data.length,
              W.uw len]) ++ packBytes data ++ (rest ++ emit (.rterm off0)) := by
          simp [fixedEmit, emit]
        rw [hre]
        have hlen : 8 * A1.length + 32 =
            8 * (A1 ++ [W.hdr 1 0 tagString, W.uw data.length, W.uw data.length,
              W.uw len]).length := by
          simp
          omega
        rw [hlen]
        exact readBytesW_pack data _ _
      have hc1 : ¬(tagString ≤ maxCtorTag) := by decide
      have hc2 : ¬(tagString = tagArray) := by decide
      have hc3 : ¬(tagString = tagScalarArray) := by decide
      simp only [denoteB, denoteR, hxns, hxns2, Bool.false_eq_true, if_false, hsub,
        hw, hro, hw1, hw3, hrb, hc1, hc2, hc3, eq_self_iff_true, if_true]
    | rmpz v =>
      have hw : wAt ((fixedLayout base 0 0 L).1 ++ emit (.rterm off0)) x =
          some (W.hdr (24 + max (mpzStr v).length 8) 0 tagMPZ) := by
        rw [hFB2, ← hA1]
        have h0 := wAt_at_index A1 (fixedEmit base hd (.rmpz v))
          (rest ++ emit (.rterm off0)) 0
          (W.hdr (24 + max (mpzStr v).length 8) 0 tagMPZ) (by simp [fixedEmit])
        simpa using h0
      have hw1 : wAt ((fixedLayout base 0 0 L).1 ++ emit (.rterm off0)) (x + 8) =
          some (W.mpzv v) := by
        rw [hFB2, ← hA1]
        have h0 := wAt_at_index A1 (fixedEmit base hd (.rmpz v))
          (rest ++ emit (.rterm off0)) 1 (W.mpzv v) (by simp [fixedEmit])
        simpa using h0
      have hc1 : ¬(tagMPZ ≤ maxCtorTag) := by decide
      have hc2 : ¬(tagMPZ = tagArray) := by decide
      have hc3 : ¬(tagMPZ = tagScalarArray) := by decide
      have hc4 : ¬(tagMPZ = tagString) := by decide
      simp only [denoteB, denoteR, hxns, hxns2, Bool.false_eq_true, if_false, hsub,
        hw, hro, hw1, hc1, hc2, hc3, hc4, eq_self_iff_true, if_true]
    | rthunk v =>
      have hw : wAt ((fixedLayout base 0 0 L).1 ++ emit (.rterm off0)) x =
          some (W.hdr 24 0 tagThunk) := by
        rw [hFB2, ← hA1]
        have h0 := wAt_at_index A1 (fixedEmit base hd (.rthunk v))
          (rest ++ emit (.rterm off0)) 0 (W.hdr 24 0 tagThunk) (by simp [fixedEmit])
        simpa using h0
      have hw1 : wAt ((fixedLayout base 0 0 L).1 ++ emit (.rterm off0)) (x + 8) =
          some (W.ptr (fixPtrV base v)) := by
        rw [hFB2, ← hA1]
        have h0 := wAt_at_index A1 (fixedEmit base hd (.rthunk v))
          (rest ++ emit (.rterm off0)) 1 (W.ptr (fixPtrV base v))
          (by simp [fixedEmit])
        simpa using h0
      have hc1 : ¬(tagThunk ≤ maxCtorTag) := by decide
      have hc2 : ¬(tagThunk = tagArray) := by decide
      have hc3 : ¬(tagThunk = tagScalarArray) := by decide
      have hc4 : ¬(tagThunk = tagString) := by decide
      have hc5 : ¬(tagThunk = tagMPZ) := by decide
      simp only [denoteB, denoteR, hxns, hxns2, Bool.false_eq_true, if_false, hsub,
        hw, hro, hw1, hc1, hc2, hc3, hc4, hc5, eq_self_iff_true, if_true]
      rw [hchildB v (by simp [rchildren])]
    | rref v =>
      have hw : wAt ((fixedLayout base 0 0 L).1 ++ emit (.rterm off0)) x =
          some (W.hdr 16 0 tagRef) := by
        rw [hFB2, ← hA1]
        have h0 := wAt_at_index A1 (fixedEmit base hd (.rref v))
          (rest ++ emit (.rterm off0)) 0 (W.hdr 16 0 tagRef) (by simp [fixedEmit])
        simpa using h0
      have hw1 : wAt ((fixedLayout base 0 0 L).1 ++ emit (.rterm off0)) (x + 8) =
          some (W.ptr (fixPtrV base v)) := by
        rw [hFB2, ← hA1]
        have h0 := wAt_at_index A1 (fixedEmit base hd (.rref v))
          (rest ++ emit (.rterm off0)) 1 (W.ptr (fixPtrV base v))
          (by simp [fixedEmit])
        simpa using h0
      have hc1 : ¬(tagRef ≤ maxCtorTag) := by decide
      have hc2 : ¬(tagRef = tagArray) := by decide
      have hc3 : ¬(tagRef = tagScalarArray) := by decide
      have hc4 : ¬(tagRef = tagString) := by decide
      have hc5 : ¬(tagRef = tagMPZ) := by decide
      have hc6 : ¬(tagRef = tagThunk) := by decide
      simp only [denoteB, denoteR, hxns, hxns2, Bool.false_eq_true, if_false, hsub,
        hw, hro, hw1, hc1, hc2, hc3, hc4, hc5, hc6, eq_self_iff_true, if_true]
      rw [hchildB v (by simp [rchildren])]

/-! ## Claim theorems -/

/-- C8: compacting the scalar immediate 1 (the integer 0) appends a
terminator only, whose root field holds the scalar unchanged, and the
loader's read() returns the identical scalar. -/
theorem scalar_root_region (h : Heap) (fuel base : Nat) :
    compactOp h fuel initState 1 = some { initState with buf := emit (.rterm 1) } ∧
    readRegion base 1 (regionOf { initState with buf := emit (.rterm 1) }) =
      some (some 1, ⟨emit (.rterm 1), 16, 0⟩) :=
  ⟨rfl, rfl⟩

/-- C10: the visited table persists across invocations: when the root
of a new compact() call is already recorded in the visited table, the
invocation leaves the existing buffer bytes unchanged and appends
exactly one terminator whose root field holds the recorded offset. -/
theorem table_persists (h : Heap) (fuel : Nat) (st : CState) (root off : Nat)
    (htodo : st.todo = []) (hsc : isScalar root = false)
    (hoff : lookupTbl st.objTable root = some off) (hfuel : 2 ≤ fuel) :
    compactOp h fuel st root = some { st with buf := st.buf ++ emit (.rterm off) } := by
  obtain ⟨f, rfl⟩ : ∃ f, fuel = f + 2 := ⟨fuel - 2, by omega⟩
  unfold compactOp
  rw [if_neg (by simp [hsc])]
  have hstep1 : compactStep h { st with todo := root :: st.todo } =
      .snext { st with todo := st.todo } := by
    simp only [compactStep, htodo, hoff, Option.isSome_some, if_pos]
  have hstep2 : compactStep h { st with todo := st.todo } = .sdone := by
    simp only [compactStep, htodo]
  have hloop : compactLoop h (f + 2) { st with todo := root :: st.todo } =
      some { st with todo := st.todo } := by
    simp only [compactLoop, hstep1, hstep2]
  rw [hloop]
  have hst : { st with todo := st.todo } = st := rfl
  rw [hst]
  simp only [insertTerminator, toOffset, hsc, hoff]
  simp

theorem table_persists_witness :
    (⟨emit (.rthunk 1), [(2, 0)], [(0, 24)], []⟩ : CState).todo = [] ∧
    isScalar 2 = false ∧
    lookupTbl [(2, 0)] 2 = some 0 ∧ 2 ≤ 2 ∧
    compactOp [(2, .hthunk 1)] 2 ⟨emit (.rthunk 1), [(2, 0)], [(0, 24)], []⟩ 2 =
      some ⟨emit (.rthunk 1) ++ emit (.rterm 0), [(2, 0)], [(0, 24)], []⟩ :=
  ⟨rfl, rfl, rfl, le_rfl,
    table_persists [(2, .hthunk 1)] 2 ⟨emit (.rthunk 1), [(2, 0)], [(0, 24)], []⟩ 2 0
      rfl rfl rfl (by omega)⟩

/-- C2: for a finite heap that is acyclic on its serializable
object-to-object edges (witnessed by a rank function) and contains no
Closure or External objects, the conditional-emission work-stack loop
of operator() terminates (some fuel makes compactOp succeed, reaching
an empty stack); moreover a child already present in the visited table
is never pushed onto the work stack: every address newly appearing on
the stack after an iteration was absent from the visited table. -/
theorem work_stack_terminates {h : Heap} {rank : Nat → Nat} (root : Nat)
    (hOK : heapOK h) (hser : heapSerializable h) (hrk : rankOk h rank)
    (hroot : isScalar root = false → (lookupH h root).isSome = true) :
    (∃ fuel st2, compactOp h fuel initState root = some st2) ∧
    (∀ st st3 : CState, ∀ L : List RObj, Inv h st L →
      compactStep h st = .snext st3 →
      ∀ q ∈ st3.todo, q ∉ st.todo → lookupTbl st.objTable q = none) := by
  constructor
  · by_cases hs : isScalar root = true
    · exact ⟨0, insertTerminator initState root, by simp [compactOp, hs]⟩
    · rw [Bool.not_eq_true] at hs
      have hInv1 : Inv h { initState with todo := root :: initState.todo } [] := by
        refine inv_set_todo (inv_init h) ?_
        intro q hq
        simp only [initState, List.mem_singleton] at hq
        subst hq
        exact ⟨hs, hroot hs⟩
      obtain ⟨n, st2, hsn, ht2⟩ := todo_clears hOK hser hrk [root]
        { initState with todo := root :: initState.todo } [] hInv1 rfl
      refine ⟨n + 1, insertTerminator st2 root, ?_⟩
      simp only [compactOp, hs, Bool.false_eq_true, if_false]
      rw [compactLoop_of_stepN n _ _ hsn ht2]
  · intro st st3 L hInv hstep q hq hqn
    obtain ⟨curr, rest, htd, hcase⟩ := step_shape hInv hstep
    rcases hcase with ⟨_, hst3⟩ | ⟨off, _, _, htd3⟩ |
      ⟨pushed, _, _, hst3, obj, _, hprop, _⟩
    · rw [hst3] at hq
      have hq2 : q ∈ rest := hq
      exact absurd (by rw [htd]; exact List.mem_cons_of_mem _ hq2) hqn
    · rw [htd3] at hq
      exact absurd (by rw [htd]; exact List.mem_cons_of_mem _ hq) hqn
    · rw [hst3] at hq
      have hq2 : q ∈ pushed ++ curr :: rest := hq
      rcases List.mem_append.mp hq2 with hqp | hqr
      · exact (hprop q hqp).2.2
      · exact absurd (by rw [htd]; exact hqr) hqn

theorem work_stack_terminates_witness :
    (∃ fuel st2, compactOp [(2, HObj.hctor 0 [4] []), (4, HObj.hctor 0 [] [])]
        fuel initState 2 = some st2) ∧
    (∀ st st3 : CState, ∀ L : List RObj,
      Inv [(2, HObj.hctor 0 [4] []), (4, HObj.hctor 0 [] [])] st L →
      compactStep [(2, HObj.hctor 0 [4] []), (4, HObj.hctor 0 [] [])] st = .snext st3 →
      ∀ q ∈ st3.todo, q ∉ st.todo → lookupTbl st.objTable q = none) :=
  @work_stack_terminates [(2, HObj.hctor 0 [4] []), (4, HObj.hctor 0 [] [])]
    (fun p => if p = 2 then 1 else 0) 2
    (by unfold heapOK; decide) (by unfold heapSerializable; decide)
    (by unfold rankOk; decide) (by decide)


/-- C7: the buffer size is a multiple of the word size after every
compact invocation, every emitted object begins at a word-aligned
offset, alloc rounds every allocation up to the padded size (the words
emitted for an object occupy exactly pad8 of its requested size), and
the loader's sweep advances the cursor by that same padded size. -/
theorem word_alignment {h : Heap} {fuel root : Nat} {st2 : CState} (hOK : heapOK h)
    (hop : compactOp h fuel initState root = some st2) :
    bufBytes st2 % 8 = 0 ∧
    (∃ L off, st2.buf = flatW L ++ emit (.rterm off) ∧
      ∀ pr ∈ entries (L ++ [.rterm off]), pr.1 % 8 = 0) ∧
    (∀ ro : RObj, wfRObj ro = true → 8 * (emit ro).length = pad8 (rsize ro)) ∧
    (∀ base head f : Nat, ∀ pre post : List W, ∀ ro : RObj,
      wfRObj ro = true → isTermR ro = false →
      sweepLoop base (f + 1) ⟨pre ++ emit ro ++ post, 8 * pre.length, head⟩ =
        sweepLoop base f ⟨pre ++ fixedEmit base head ro ++ post,
          8 * pre.length + pad8 (rsize ro),
          nextHead base (8 * pre.length) head ro⟩) := by
  refine ⟨by simp [bufBytes, Nat.mul_mod_right], ?_, fun ro hwf => emit_length ro hwf,
    fun base head f pre post ro hwf ht => sweep_step base head f pre post ro hwf ht⟩
  obtain ⟨L, off, st1, _, _, hbuf, _⟩ := compactOp_layout hOK hop
  exact ⟨L, off, hbuf, fun pr hpr => entries_align _ pr hpr⟩

theorem word_alignment_witness :
    bufBytes (⟨emit (.rterm 1), [], [], []⟩ : CState) % 8 = 0 ∧
    (∃ L off, (⟨emit (.rterm 1), [], [], []⟩ : CState).buf =
        flatW L ++ emit (.rterm off) ∧
      ∀ pr ∈ entries (L ++ [.rterm off]), pr.1 % 8 = 0) ∧
    (∀ ro : RObj, wfRObj ro = true → 8 * (emit ro).length = pad8 (rsize ro)) ∧
    (∀ base head f : Nat, ∀ pre post : List W, ∀ ro : RObj,
      wfRObj ro = true → isTermR ro = false →
      sweepLoop base (f + 1) ⟨pre ++ emit ro ++ post, 8 * pre.length, head⟩ =
        sweepLoop base f ⟨pre ++ fixedEmit base head ro ++ post,
          8 * pre.length + pad8 (rsize ro),
          nextHead base (8 * pre.length) head ro⟩) :=
  @word_alignment [] 0 1 (⟨emit (.rterm 1), [], [], []⟩ : CState)
    (by intro pr hpr; simp at hpr) (by decide)


/-- C6: after the fix-up sweep of read() has visited every object, the
nested-mpz list threads exactly the MPZ objects of the region, and the
destructor's walk of that list invokes the mpz destructor exactly once
per MPZ object (the walk's visit list is the reversed, duplicate-free
list of the region's MPZ addresses). -/
theorem mpz_destructor_once {h : Heap} {fuel root base : Nat} {st2 : CState}
    (hOK : heapOK h) (hbase : 0 < base)
    (hop : compactOp h fuel initState root = some st2) :
    ∃ L off, st2.buf = flatW L ++ emit (.rterm off) ∧
      readRegion base (L.length + 1) (regionOf st2) =
        some (some (fixPtrV base off),
          ⟨(fixedLayout base 0 0 L).1 ++ emit (.rterm off),
           8 * (flatW L).length + 16, (fixedLayout base 0 0 L).2⟩) ∧
      chainWalk ((fixedLayout base 0 0 L).1 ++ emit (.rterm off)) base
        ((L.filter isMpzR).length + 1) (fixedLayout base 0 0 L).2 =
        some (mpzAddrs L base).reverse ∧
      (mpzAddrs L base).Nodup := by
  obtain ⟨L, off, st1, hInv, hb1, hbuf, _⟩ := compactOp_layout hOK hop
  have hwfL : ∀ ro ∈ L, wfRObj ro = true ∧ isTermR ro = false := by
    intro ro hro
    obtain ⟨o2, ho2⟩ := entries_of_mem L 0 ro hro
    exact hInv.hwfl (o2, ro) ho2
  refine ⟨L, off, hbuf, ?_, ?_, mpzAddrs_nodup L base⟩
  · have h1 := readRegion_layout base off L hwfL
    rw [show regionOf st2 = ⟨flatW L ++ emit (.rterm off), 0, 0⟩ by
      simp [regionOf, hbuf]]
    exact h1
  · have h0 : chainWalk ([] ++ (fixedLayout base 0 (8 * ([] : List W).length) L).1 ++
        emit (.rterm off)) base 1 0 = some [] := by
      simp [chainWalk]
    have hcw := chainWalk_layout base hbase L [] (emit (.rterm off)) 0 [] 1 h0
    simp only [List.nil_append, List.length_nil, Nat.mul_zero, Nat.add_zero,
      List.append_nil] at hcw
    exact hcw

theorem mpz_destructor_once_witness :
    ∃ L off,
      (⟨flatW [.rmpz 5] ++ emit (.rterm 0), [(2, 0)], [], []⟩ : CState).buf =
        flatW L ++ emit (.rterm off) ∧
      readRegion 8 (L.length + 1)
        (regionOf (⟨flatW [.rmpz 5] ++ emit (.rterm 0), [(2, 0)], [], []⟩ : CState)) =
        some (some (fixPtrV 8 off),
          ⟨(fixedLayout 8 0 0 L).1 ++ emit (.rterm off),
           8 * (flatW L).length + 16, (fixedLayout 8 0 0 L).2⟩) ∧
      chainWalk ((fixedLayout 8 0 0 L).1 ++ emit (.rterm off)) 8
        ((L.filter isMpzR).length + 1) (fixedLayout 8 0 0 L).2 =
        some (mpzAddrs L 8).reverse ∧
      (mpzAddrs L 8).Nodup :=
  @mpz_destructor_once [(2, HObj.hmpz 5)] 3 2 8
    (⟨flatW [.rmpz 5] ++ emit (.rterm 0), [(2, 0)], [], []⟩ : CState)
    (by unfold heapOK; decide) (by decide) (by decide)


/-- C4: the null-offset sentinel (2^64 - 2, an even value) differs from
every scalar immediate (odd values), and no pointer slot of the buffer
holds the sentinel after a compact invocation completes. -/
theorem null_sentinel {h : Heap} {fuel root : Nat} {st2 : CState} (hOK : heapOK h)
    (hop : compactOp h fuel initState root = some st2) :
    (∀ x : Nat, isScalar x = true → x ≠ nullOffset) ∧
    ∀ w ∈ st2.buf, w ≠ W.ptr nullOffset := by
  refine ⟨fun x hx => scalar_ne_null hx, ?_⟩
  obtain ⟨L, off, st1, hInv, _, hbuf, hoff⟩ := compactOp_layout hOK hop
  intro w hw heq
  subst heq
  rw [hbuf] at hw
  rcases List.mem_append.mp hw with hw1 | hw2
  · obtain ⟨ro, hro, hwe⟩ := mem_flatW L _ hw1
    have hx := emit_ptr ro nullOffset hwe
    rcases wptr_cases ro nullOffset hx with hc | h0
    · obtain ⟨o2, ho2⟩ := entries_of_mem L 0 ro hro
      by_cases hsc : isScalar nullOffset = true
      · exact scalar_ne_null hsc rfl
      · rw [Bool.not_eq_true] at hsc
        obtain ⟨_, ro2, hl, _⟩ := hInv.hchild (o2, ro) ho2 nullOffset hc hsc
        exact lookupLay_ne_null hl rfl
    · exact absurd h0 (by decide)
  · simp only [emit, List.mem_cons, List.mem_singleton] at hw2
    rcases hw2 with h1 | h1 | h1
    · exact absurd h1 (by simp)
    · have he : nullOffset = off := by
        injection h1 with e
      rcases hoff with ⟨hsr, hor⟩ | ⟨hsr, hor⟩
      · subst hor
        exact scalar_ne_null hsr he.symm
      · exact table_off_ne_null hInv hor (he.symm ▸ rfl)
    · simp at h1

theorem null_sentinel_witness :
    (∀ x : Nat, isScalar x = true → x ≠ nullOffset) ∧
    ∀ w ∈ (⟨flatW [.rmpz 5] ++ emit (.rterm 0), [(2, 0)], [], []⟩ : CState).buf,
      w ≠ W.ptr nullOffset :=
  @null_sentinel [(2, HObj.hmpz 5)] 3 2
    (⟨flatW [.rmpz 5] ++ emit (.rterm 0), [(2, 0)], [], []⟩ : CState)
    (by unfold heapOK; decide) (by decide)


/-- C3: maximum sharing: in the final buffer no two distinct non-MPZ
object offsets carry byte-identical payload windows, and on a
max-sharing hit save_max_sharing rewinds the tail and records the
earlier canonical offset without growing the buffer. -/
theorem max_sharing {h : Heap} {fuel root : Nat} {st2 : CState} (hOK : heapOK h)
    (hop : compactOp h fuel initState root = some st2) :
    (∃ L off, st2.buf = flatW L ++ emit (.rterm off) ∧
      ∀ pr1 ∈ entries L, ∀ pr2 ∈ entries L,
        isMpzR pr1.2 = false → isMpzR pr2.2 = false → pr1.1 ≠ pr2.1 →
        ¬(rsize pr1.2 = rsize pr2.2 ∧
          window (flatW L) pr1.1 (rsize pr1.2) =
            window (flatW L) pr2.1 (rsize pr2.2))) ∧
    (∀ st : CState, ∀ o : Nat, ∀ ro : RObj, ∀ sz off2 : Nat,
      findShared (st.buf ++ emit ro) st.sharing sz
          (window (st.buf ++ emit ro) (bufBytes st) sz) = some off2 →
      saveMaxSharing st o ro sz = saveTbl st o off2) := by
  constructor
  · obtain ⟨L, off, st1, hInv, hb1, hbuf, _⟩ := compactOp_layout hOK hop
    refine ⟨L, off, hbuf, ?_⟩
    intro pr1 h1 pr2 h2 hm1 hm2 hne
    have hk1 := hInv.hsh2 pr1 h1 hm1
    have hk2 := hInv.hsh2 pr2 h2 hm2
    have h3 := hInv.hsh3 (pr1.1, rsize pr1.2) hk1 (pr2.1, rsize pr2.2) hk2 hne
    rw [hb1] at h3
    exact h3
  · intro st o ro sz off2 hfind
    simp only [saveMaxSharing]
    rw [hfind]

theorem max_sharing_witness :
    (∃ L off, (⟨flatW [.rmpz 5] ++ emit (.rterm 0), [(2, 0)], [], []⟩ : CState).buf =
        flatW L ++ emit (.rterm off) ∧
      ∀ pr1 ∈ entries L, ∀ pr2 ∈ entries L,
        isMpzR pr1.2 = false → isMpzR pr2.2 = false → pr1.1 ≠ pr2.1 →
        ¬(rsize pr1.2 = rsize pr2.2 ∧
          window (flatW L) pr1.1 (rsize pr1.2) =
            window (flatW L) pr2.1 (rsize pr2.2))) ∧
    (∀ st : CState, ∀ o : Nat, ∀ ro : RObj, ∀ sz off2 : Nat,
      findShared (st.buf ++ emit ro) st.sharing sz
          (window (st.buf ++ emit ro) (bufBytes st) sz) = some off2 →
      saveMaxSharing st o ro sz = saveTbl st o off2) :=
  @max_sharing [(2, HObj.hmpz 5)] 3 2
    (⟨flatW [.rmpz 5] ++ emit (.rterm 0), [(2, 0)], [], []⟩ : CState)
    (by unfold heapOK; decide) (by decide)

/-- C5: a resolved Task is written into the region as a Thunk whose
closure slot is null and whose value slot holds the resolved value's
offset; no header in a region buffer carries the Task tag; and the
loader's sweep fails on a Task tag (Task is unreachable in regions). -/
theorem task_to_thunk {h : Heap} {fuel root : Nat} {st2 : CState} (hOK : heapOK h)
    (hop : compactOp h fuel initState root = some st2) :
    (∀ st : CState, ∀ o v : Nat, (toOffset st v).1 ≠ nullOffset →
      insertTask st o v =
        (true, saveMaxSharing (toOffset st v).2 o (.rthunk (toOffset st v).1) 24) ∧
      emit (.rthunk (toOffset st v).1) =
        [W.hdr 24 0 tagThunk, W.ptr (toOffset st v).1, W.ptr 0]) ∧
    (∀ w ∈ st2.buf, ∀ sz other : Nat, w ≠ W.hdr sz other tagTask) ∧
    (∀ base f sz other : Nat, ∀ rs : RegionSt,
      wAt rs.buf rs.pos = some (W.hdr sz other tagTask) →
      sweepLoop base (f + 1) rs = none) := by
  refine ⟨?_, ?_, ?_⟩
  · intro st o v hnn
    refine ⟨?_, rfl⟩
    simp only [insertTask]
    rw [if_neg hnn]
  · obtain ⟨L, off, st1, hInv, _, hbuf, _⟩ := compactOp_layout hOK hop
    intro w hw sz other
    rw [hbuf] at hw
    rcases List.mem_append.mp hw with hw1 | hw2
    · obtain ⟨ro, hro, hwe⟩ := mem_flatW L w hw1
      obtain ⟨o2, ho2⟩ := entries_of_mem L 0 ro hro
      exact emit_no_task_hdr ro (hInv.hwfl (o2, ro) ho2).1 w hwe sz other
    · simp only [emit, List.mem_cons, List.not_mem_nil, or_false] at hw2
      rcases hw2 with h1 | h1 <;> subst h1 <;> intro hc
      · injection hc with e1 e2 e3
        exact absurd e3 (by decide)
      · exact W.noConfusion hc
  · intro base f sz other rs hw
    simp only [sweepLoop, hw]
    rw [if_neg (by decide), if_neg (by decide), if_neg (by decide), if_neg (by decide),
      if_neg (by decide), if_neg (by decide), if_neg (by decide), if_neg (by decide)]

theorem task_to_thunk_witness :
    (∀ st : CState, ∀ o v : Nat, (toOffset st v).1 ≠ nullOffset →
      insertTask st o v =
        (true, saveMaxSharing (toOffset st v).2 o (.rthunk (toOffset st v).1) 24) ∧
      emit (.rthunk (toOffset st v).1) =
        [W.hdr 24 0 tagThunk, W.ptr (toOffset st v).1, W.ptr 0]) ∧
    (∀ w ∈ (⟨flatW [.rmpz 5] ++ emit (.rterm 0), [(2, 0)], [], []⟩ : CState).buf,
      ∀ sz other : Nat, w ≠ W.hdr sz other tagTask) ∧
    (∀ base f sz other : Nat, ∀ rs : RegionSt,
      wAt rs.buf rs.pos = some (W.hdr sz other tagTask) →
      sweepLoop base (f + 1) rs = none) :=
  @task_to_thunk [(2, HObj.hmpz 5)] 3 2
    (⟨flatW [.rmpz 5] ++ emit (.rterm 0), [(2, 0)], [], []⟩ : CState)
    (by unfold heapOK; decide) (by decide)


/-- C9: compaction is deterministic: any two successful runs of
compact() on the same graph and root (regardless of the iteration
budget) produce identical compactor states, in particular
byte-identical buffers; and the emission order is children before
parents: in the final layout every non-scalar child offset is strictly
below its parent's offset. -/
theorem deterministic_output {h : Heap} {root : Nat} (hOK : heapOK h) :
    (∀ fuel1 fuel2 : Nat, ∀ st2 st2' : CState,
      compactOp h fuel1 initState root = some st2 →
      compactOp h fuel2 initState root = some st2' → st2 = st2') ∧
    (∀ fuel : Nat, ∀ st2 : CState, compactOp h fuel initState root = some st2 →
      ∃ L off, st2.buf = flatW L ++ emit (.rterm off) ∧
        ∀ pr ∈ entries L, ∀ c ∈ rchildren pr.2, isScalar c = false → c < pr.1) := by
  constructor
  · intro fuel1 fuel2 st2 st2' h1 h2
    unfold compactOp at h1 h2
    by_cases hs : isScalar root = true
    · rw [if_pos hs] at h1 h2
      simp only [Option.some.injEq] at h1 h2
      rw [← h1, ← h2]
    · rw [if_neg hs] at h1 h2
      match hl1 : compactLoop h fuel1 { initState with todo := root :: initState.todo },
          hl2 : compactLoop h fuel2 { initState with todo := root :: initState.todo } with
      | none, _ =>
        rw [hl1] at h1
        exact Option.noConfusion h1
      | some a, none =>
        rw [hl2] at h2
        exact Option.noConfusion h2
      | some a, some b =>
        rw [hl1] at h1
        rw [hl2] at h2
        have ha := compactLoop_add fuel1 fuel2 _ a hl1
        have hb := compactLoop_add fuel2 fuel1 _ b hl2
        rw [Nat.add_comm fuel2 fuel1] at hb
        rw [ha] at hb
        simp only [Option.some.injEq] at hb h1 h2
        rw [← h1, ← h2, hb]
  · intro fuel st2 hop
    obtain ⟨L, off, st1, hInv, _, hbuf, _⟩ := compactOp_layout hOK hop
    refine ⟨L, off, hbuf, ?_⟩
    intro pr hpr c hc hsc
    exact (hInv.hchild pr hpr c hc hsc).1

theorem deterministic_output_witness :
    (∀ fuel1 fuel2 : Nat, ∀ st2 st2' : CState,
      compactOp [(2, HObj.hmpz 5)] fuel1 initState 2 = some st2 →
      compactOp [(2, HObj.hmpz 5)] fuel2 initState 2 = some st2' → st2 = st2') ∧
    (∀ fuel : Nat, ∀ st2 : CState,
      compactOp [(2, HObj.hmpz 5)] fuel initState 2 = some st2 →
      ∃ L off, st2.buf = flatW L ++ emit (.rterm off) ∧
        ∀ pr ∈ entries L, ∀ c ∈ rchildren pr.2, isScalar c = false → c < pr.1) :=
  @deterministic_output [(2, HObj.hmpz 5)] 2 (by unfold heapOK; decide)


/-- C1 (amended: the source graph must contain no Task object at all,
not merely no Task wrapping a closure): for an object graph free of
Closure, External and Task objects, loading the compacted region gives
a graph structurally byte-for-byte equal to the source over all
reachable objects: the root returned by read() unfolds to the same
tree as the source root at every fuel.  The claim as stated fails for
a Task wrapping a non-closure value, which insert_task rewrites into a
Thunk (see the counterexample). -/
theorem round_trip {h : Heap} {fuel root base : Nat} {st2 : CState}
    (hOK : heapOK h) (hser : heapSerializable h) (hnt : heapNoTask h)
    (hb : base % 8 = 0) (hop : compactOp h fuel initState root = some st2) :
    ∃ L off, st2.buf = flatW L ++ emit (.rterm off) ∧
      readRegion base (L.length + 1) (regionOf st2) =
        some (some (fixPtrV base off),
          ⟨(fixedLayout base 0 0 L).1 ++ emit (.rterm off),
           8 * (flatW L).length + 16, (fixedLayout base 0 0 L).2⟩) ∧
      ∀ f : Nat, denoteB ((fixedLayout base 0 0 L).1 ++ emit (.rterm off)) base f
        (fixPtrV base off) = denoteH h f root := by
  obtain ⟨L, off, st1, hInv, hb1, hbuf, hoff⟩ := compactOp_layout hOK hop
  have hwfL : ∀ ro ∈ L, wfRObj ro = true ∧ isTermR ro = false := by
    intro ro hro
    obtain ⟨o2, ho2⟩ := entries_of_mem L 0 ro hro
    exact hInv.hwfl (o2, ro) ho2
  refine ⟨L, off, hbuf, ?_, ?_⟩
  · have h1 := readRegion_layout base off L hwfL
    rw [show regionOf st2 = ⟨flatW L ++ emit (.rterm off), 0, 0⟩ by
      simp [regionOf, hbuf]]
    exact h1
  · intro f
    rcases hoff with ⟨hsr, hor⟩ | ⟨hsr, htab⟩ 
    · subst hor
      rw [show fixPtrV base off = off by simp [fixPtrV, hsr]]
      exact (@denoteB_scalar_eq ((fixedLayout base 0 0 L).1 ++ emit (.rterm off))
        base L off hsr f).trans (@denote_scalar_eq h L off hsr f)
    · obtain ⟨o, hobj, hser2, hwf2, hres2, hlay⟩ := hInv.htbl root off htab
      obtain ⟨ro, himg⟩ := @image_isSome st1.objTable o hser2
      rw [himg] at hlay
      have hons : isScalar off = false := isScalar_of_aligned (lookupLay_align hlay)
      rw [show fixPtrV base off = base + off by simp [fixPtrV, hons]]
      have hB := @denoteB_denoteR L base off hb hInv.hwfl
        (fun pr hpr c hc hcs => by
          obtain ⟨_, ro2, hl2, ht2⟩ := hInv.hchild pr hpr c hc hcs
          exact ⟨ro2, hl2, ht2⟩)
        f off (by rw [hlay]; rfl)
      rw [hB]
      exact denoteR_denoteH hInv hnt f root off hsr htab

theorem round_trip_witness :
    ∃ L off,
      (⟨flatW [.rmpz 5] ++ emit (.rterm 0), [(2, 0)], [], []⟩ : CState).buf =
        flatW L ++ emit (.rterm off) ∧
      readRegion 8 (L.length + 1)
        (regionOf (⟨flatW [.rmpz 5] ++ emit (.rterm 0), [(2, 0)], [], []⟩ : CState)) =
        some (some (fixPtrV 8 off),
          ⟨(fixedLayout 8 0 0 L).1 ++ emit (.rterm off),
           8 * (flatW L).length + 16, (fixedLayout 8 0 0 L).2⟩) ∧
      ∀ f : Nat, denoteB ((fixedLayout 8 0 0 L).1 ++ emit (.rterm off)) 8 f
        (fixPtrV 8 off) = denoteH [(2, HObj.hmpz 5)] f 2 :=
  @round_trip [(2, HObj.hmpz 5)] 3 2 8
    (⟨flatW [.rmpz 5] ++ emit (.rterm 0), [(2, 0)], [], []⟩ : CState)
    (by unfold heapOK; decide) (by unfold heapSerializable; decide)
    (by unfold heapNoTask; decide) (by decide) (by decide)

/-- C1 counterexample to the claim as stated: the graph holding one
Task that wraps the scalar 1 has no Closure, no External and no Task
wrapping a closure, yet compaction stores a Thunk in the region, so
the loaded graph carries a Thunk where the source carries a Task: the
round trip is not the identity, not even structurally. -/
theorem round_trip_task_counterexample :
    compactOp [(2, HObj.htask 1)] 2 initState 2 =
      some ⟨emit (.rthunk 1) ++ emit (.rterm 0), [(2, 0)], [(0, 24)], []⟩ ∧
    readRegion 8 2
      (regionOf ⟨emit (.rthunk 1) ++ emit (.rterm 0), [(2, 0)], [(0, 24)], []⟩) =
      some (some 8, ⟨emit (.rthunk 1) ++ emit (.rterm 0), 40, 0⟩) ∧
    denoteH [(2, HObj.htask 1)] 2 2 = some (.ttask (.scalar 1)) ∧
    denoteB (emit (.rthunk 1) ++ emit (.rterm 0)) 8 2 8 =
      some (.tthunk (.scalar 1)) ∧
    some (Tree.tthunk (.scalar 1)) ≠ some (Tree.ttask (.scalar 1)) := by
  refine ⟨by decide, by decide, rfl, rfl, ?_⟩
  intro hc
  injection hc with he
  exact Tree.noConfusion he

end Compact
